import Mathlib

/-!
# CodeGuard: sanitizer, line index, call matcher and scanf format rule

A shallow embedding of `src/CodeGuardCLI/Util.cpp` and `src/CodeGuardCLI/Scanner.cpp`.

* A `std::string` is a `List Char`; `s[i]` is `charAt s i`.
* `size_t` cursors are `Nat`; `std::string::npos` is `none`.
* Every `for`/`while` loop is a function with a fuel argument, one unit per iteration
  (`*.loop`, and `HasUnsafePercentS.width` for the width loop).  The top-level function
  supplies the fuel.  The two search loops return `none` when the fuel runs out; for the
  other loops the theorems show that more fuel does not change the result, so that the
  loop leaves through its own exit condition.
-/

namespace codeguard

/-! ## Strings -/

/-- A byte string (`std::string`). -/
abbrev Str := List Char

/-- Indexing `s[i]`; the source only indexes in range, out of range reads NUL. -/
def charAt (s : Str) (i : Nat) : Char := s.getD i '\x00'

/-! ## Util.cpp: LineIndex -/

/-- The struct `LineIndex` with its single field `line_starts`. -/
structure LineIndex where
  line_starts : List Nat
deriving DecidableEq, Repr

/-- The loop of `LineIndex::Build`: `for (i = 0; i < text.size(); i++)`, pushing `i + 1`
after every newline. -/
def LineIndex.Build.loop (text : Str) : Nat → Nat → List Nat → List Nat
  | 0, _, starts => starts
  | fuel + 1, i, starts =>
    if i < text.length then
      if charAt text i = '\n' then
        LineIndex.Build.loop text fuel (i + 1) (starts ++ [i + 1])
      else
        LineIndex.Build.loop text fuel (i + 1) starts
    else starts

/-- Embedding of `LineIndex::Build` (Util.cpp 10-23). -/
def LineIndex.Build (text : Str) : LineIndex :=
  ⟨LineIndex.Build.loop text text.length 0 [0]⟩

/-! ## Util.cpp: SanitizeKeepLayout -/

/-- The local `enum class State` of `SanitizeKeepLayout`. -/
inductive State where
  | Normal
  | LineComment
  | BlockComment
  | String
  | StringEscape
  | Char
  | CharEscape
deriving DecidableEq, Repr

/-- The `for` loop of `SanitizeKeepLayout`: `i` is the cursor, `out` the output buffer
(already resized to the input length), one unit of fuel per iteration. -/
def SanitizeKeepLayout.loop (input : Str) : Nat → Nat → State → Str → Str
  | 0, _, _, out => out
  | fuel + 1, i, state, out =>
    if i < input.length then
      let c := charAt input i
      let n := if i + 1 < input.length then charAt input (i + 1) else '\x00'
      match state with
      | State.Normal =>
        if c = '/' ∧ n = '/' then
          SanitizeKeepLayout.loop input fuel (i + 2) State.LineComment
            ((out.set i ' ').set (i + 1) ' ')
        else if c = '/' ∧ n = '*' then
          SanitizeKeepLayout.loop input fuel (i + 2) State.BlockComment
            ((out.set i ' ').set (i + 1) ' ')
        else if c = '"' then
          SanitizeKeepLayout.loop input fuel (i + 1) State.String (out.set i ' ')
        else if c = '\'' then
          SanitizeKeepLayout.loop input fuel (i + 1) State.Char (out.set i ' ')
        else
          SanitizeKeepLayout.loop input fuel (i + 1) State.Normal (out.set i c)
      | State.LineComment =>
        if c = '\n' then
          SanitizeKeepLayout.loop input fuel (i + 1) State.Normal (out.set i '\n')
        else
          SanitizeKeepLayout.loop input fuel (i + 1) State.LineComment (out.set i ' ')
      | State.BlockComment =>
        if c = '*' ∧ n = '/' then
          SanitizeKeepLayout.loop input fuel (i + 2) State.Normal
            ((out.set i ' ').set (i + 1) ' ')
        else if c = '\n' then
          SanitizeKeepLayout.loop input fuel (i + 1) State.BlockComment (out.set i '\n')
        else
          SanitizeKeepLayout.loop input fuel (i + 1) State.BlockComment (out.set i ' ')
      | State.String =>
        if c = '\\' then
          SanitizeKeepLayout.loop input fuel (i + 1) State.StringEscape (out.set i ' ')
        else if c = '"' then
          SanitizeKeepLayout.loop input fuel (i + 1) State.Normal (out.set i ' ')
        else if c = '\n' then
          SanitizeKeepLayout.loop input fuel (i + 1) State.Normal (out.set i '\n')
        else
          SanitizeKeepLayout.loop input fuel (i + 1) State.String (out.set i ' ')
      | State.StringEscape =>
        if c = '\n' then
          SanitizeKeepLayout.loop input fuel (i + 1) State.Normal (out.set i '\n')
        else
          SanitizeKeepLayout.loop input fuel (i + 1) State.String (out.set i ' ')
      | State.Char =>
        if c = '\\' then
          SanitizeKeepLayout.loop input fuel (i + 1) State.CharEscape (out.set i ' ')
        else if c = '\'' then
          SanitizeKeepLayout.loop input fuel (i + 1) State.Normal (out.set i ' ')
        else if c = '\n' then
          SanitizeKeepLayout.loop input fuel (i + 1) State.Normal (out.set i '\n')
        else
          SanitizeKeepLayout.loop input fuel (i + 1) State.Char (out.set i ' ')
      | State.CharEscape =>
        if c = '\n' then
          SanitizeKeepLayout.loop input fuel (i + 1) State.Normal (out.set i '\n')
        else
          SanitizeKeepLayout.loop input fuel (i + 1) State.Char (out.set i ' ')
    else out

/-- Embedding of `SanitizeKeepLayout` (Util.cpp 218-389): `out.resize(input.size())` gives a
buffer of NUL bytes of the input length, which the loop then overwrites. -/
def SanitizeKeepLayout (input : Str) : Str :=
  SanitizeKeepLayout.loop input input.length 0 State.Normal
    (List.replicate input.length '\x00')

/-! ## Util.cpp: LineIndex queries and IsIdentChar -/

/-- The binary search of `LineIndex::LineFromIndex`: `while (lo + 1 < hi)`. -/
def LineIndex.LineFromIndex.loop (line_starts : List Nat) (index : Nat) :
    Nat → Nat → Nat → Nat
  | 0, lo, _ => lo
  | fuel + 1, lo, hi =>
    if lo + 1 < hi then
      let mid := lo + (hi - lo) / 2
      if line_starts.getD mid 0 ≤ index then
        LineIndex.LineFromIndex.loop line_starts index fuel mid hi
      else
        LineIndex.LineFromIndex.loop line_starts index fuel lo mid
    else lo

/-- Embedding of `LineIndex::LineFromIndex` (Util.cpp 25-47).  The interval `hi - lo` shrinks
in every iteration, so `line_starts.size()` units of fuel are enough. -/
def LineIndex.LineFromIndex (idx : LineIndex) (index : Nat) : Nat :=
  if idx.line_starts.isEmpty then 1
  else
    LineIndex.LineFromIndex.loop idx.line_starts index idx.line_starts.length
      0 idx.line_starts.length + 1

/-- Embedding of `LineIndex::ColFromIndex` (Util.cpp 49-57). -/
def LineIndex.ColFromIndex (idx : LineIndex) (index line : Nat) : Nat :=
  if line = 0 ∨ line > idx.line_starts.length then 1
  else
    let start := idx.line_starts.getD (line - 1) 0
    if index ≥ start then index - start + 1 else 1

/-- The text `s` reads `name` at offset `p`: `s.substr(p, name.size()) == name`. -/
def readsAt (s name : Str) (p : Nat) : Prop := (s.drop p).take name.length = name

instance (s name : Str) (p : Nat) : Decidable (readsAt s name p) := by
  unfold readsAt; infer_instance

/-- The library call `s.find(name, pos)` of `std::string`: the lowest offset `p` with
`pos <= p <= s.size()` at which `s` reads `name`, and `none` for `npos`. -/
def find (s name : Str) (pos : Nat) : Option Nat :=
  (List.range' pos (s.length + 1 - pos)).find? (fun p => decide (readsAt s name p))

/-- Embedding of `LineIndex::LineText` (Util.cpp 59-77); the `string_view` is the slice
of `text` from `start` of length `end - start`. -/
def LineIndex.LineText (idx : LineIndex) (text : Str) (line : Nat) : Str :=
  if line = 0 ∨ line > idx.line_starts.length then []
  else
    let start := idx.line_starts.getD (line - 1) 0
    let end0 := match find text ['\n'] start with
      | none => text.length
      | some e => e
    let end1 := if end0 > start ∧ charAt text (end0 - 1) = '\r' then end0 - 1 else end0
    (text.drop start).take (end1 - start)

/-- Embedding of `IsIdentChar` (Util.cpp 391-394). -/
def IsIdentChar (c : Char) : Bool :=
  decide (('A' ≤ c ∧ c ≤ 'Z') ∨ ('a' ≤ c ∧ c ≤ 'z') ∨ ('0' ≤ c ∧ c ≤ '9') ∨ c = '_')

/-! ## Scanner.h: result types -/

/-- The `enum class Severity`. -/
inductive Severity where
  | Low
  | Medium
  | High
deriving DecidableEq, Repr

/-- The struct `Finding`. -/
structure Finding where
  file_path : Str
  line : Nat
  column : Nat
  rule_id : Str
  severity : Severity
  message : Str
  line_text : Str
deriving DecidableEq, Repr

/-- The struct `ScanStats`; the `uint64_t` counters are natural numbers (a counter only
grows by one per event or by a file size, far from `2^64`). -/
structure ScanStats where
  files_seen : Nat
  files_scanned : Nat
  bytes_scanned : Nat
  findings : Nat
deriving DecidableEq, Repr

/-- The struct `ScanResult`. -/
structure ScanResult where
  findings : List Finding
  stats : ScanStats
deriving DecidableEq, Repr

/-- The struct `ScanOptions`. -/
structure ScanOptions where
  check_banned_functions : Bool
  check_scanf_unsafe_percent_s : Bool
deriving DecidableEq, Repr

/-- The list installed by `Scanner::InitDefaultRules` (Scanner.cpp 28-39). -/
def defaultBanned : List Str :=
  ["gets".toList, "strcpy".toList, "strcat".toList, "sprintf".toList, "vsprintf".toList,
   "system".toList, "popen".toList]

/-- The result a scan starts from: no finding, `stats = { 0, 0, 0, 0 }`. -/
def ScanResult.empty : ScanResult := ⟨[], ⟨0, 0, 0, 0⟩⟩

/-! ## Scanner.cpp: helpers -/

/-- Embedding of `AddFinding` (Scanner.cpp 41-62). -/
def AddFinding (out : ScanResult) (file_path : Str) (line col : Nat) (rule_id : Str)
    (sev : Severity) (msg : Str) (line_text : Str) : ScanResult :=
  { findings := out.findings ++ [⟨file_path, line, col, rule_id, sev, msg, line_text⟩],
    stats := { out.stats with findings := out.stats.findings + 1 } }

/-- The whitespace test of `SkipSpaces`: space, tab, CR or LF. -/
def isSpaceByte (c : Char) : Bool := c = ' ' ∨ c = '\t' ∨ c = '\r' ∨ c = '\n'

/-- The `while` loop of `SkipSpaces`. -/
def SkipSpaces.loop (s : Str) : Nat → Nat → Nat
  | 0, i => i
  | fuel + 1, i =>
    if i < s.length ∧ isSpaceByte (charAt s i) then SkipSpaces.loop s fuel (i + 1) else i

/-- Embedding of `SkipSpaces` (Scanner.cpp 64-71); the cursor moves by one per iteration, so
`s.size() - i` units of fuel reach the end of the buffer. -/
def SkipSpaces (s : Str) (i : Nat) : Nat := SkipSpaces.loop s (s.length - i) i

/-- Embedding of `IsWordBoundaryBefore` (Scanner.cpp 73-81). -/
def IsWordBoundaryBefore (s : Str) (i : Nat) : Bool :=
  if i = 0 then true else !IsIdentChar (charAt s (i - 1))

/-- Embedding of `IsWordBoundaryAfter` (Scanner.cpp 83-91). -/
def IsWordBoundaryAfter (s : Str) (i : Nat) : Bool :=
  if i ≥ s.length then true else !IsIdentChar (charAt s i)

/-- Embedding of `LooksLikeCallAt` (Scanner.cpp 93-112). -/
def LooksLikeCallAt (sanitized : Str) (name_pos name_len : Nat) : Bool :=
  if !IsWordBoundaryBefore sanitized name_pos then false
  else if !IsWordBoundaryAfter sanitized (name_pos + name_len) then false
  else
    let i := SkipSpaces sanitized (name_pos + name_len)
    if i ≥ sanitized.length ∨ charAt sanitized i ≠ '(' then false else true

/-- The `while` loop of `ReadStringLiteralAt`; returns the content read so far and the
cursor. -/
def ReadStringLiteralAt.loop (raw : Str) : Nat → Nat → Str → Str × Nat
  | 0, i, out => (out, i)
  | fuel + 1, i, out =>
    if i < raw.length then
      let c := charAt raw i
      if c = '\\' then
        if i + 1 < raw.length then
          ReadStringLiteralAt.loop raw fuel (i + 2) (out ++ ['\\', charAt raw (i + 1)])
        else
          ReadStringLiteralAt.loop raw fuel (i + 1) (out ++ ['\\'])
      else if c = '"' then (out, i + 1)
      else if c = '\n' then (out, i)
      else ReadStringLiteralAt.loop raw fuel (i + 1) (out ++ [c])
    else (out, i)

/-- Embedding of `ReadStringLiteralAt` (Scanner.cpp 114-158): the returned string and the
final value of the in-out cursor `i`. -/
def ReadStringLiteralAt (raw : Str) (i : Nat) : Str × Nat :=
  if i ≥ raw.length ∨ charAt raw i ≠ '"' then ([], i)
  else ReadStringLiteralAt.loop raw (raw.length - (i + 1)) (i + 1) []

/-! ## Scanner.cpp: the banned-function rule -/

/-- The severity chosen in `FindBannedFunctionCalls` (Scanner.cpp 261). -/
def bannedSeverity (name : Str) : Severity :=
  if name = "gets".toList ∨ name = "strcpy".toList ∨ name = "strcat".toList ∨
      name = "sprintf".toList ∨ name = "vsprintf".toList then Severity.High
  else Severity.Medium

/-- The `while (pos < sanitized.size())` loop of `FindBannedFunctionCalls` for one name.
`none` means the fuel ran out before the loop left. -/
def FindBannedFunctionCalls.loop (file_path raw sanitized : Str) (idx : LineIndex)
    (name : Str) : Nat → Nat → ScanResult → Option ScanResult
  | 0, _, _ => none
  | fuel + 1, pos, out =>
    if pos < sanitized.length then
      match find sanitized name pos with
      | none => some out
      | some found =>
        let out1 :=
          if LooksLikeCallAt sanitized found name.length then
            let line := idx.LineFromIndex found
            let col := idx.ColFromIndex found line
            AddFinding out file_path line col "CG0001".toList (bannedSeverity name)
              ("banned function call detected: ".toList ++ name) (idx.LineText raw line)
          else out
        FindBannedFunctionCalls.loop file_path raw sanitized idx name fuel
          (found + name.length) out1
    else some out

/-- The `for (const auto& name : banned_functions)` loop of `FindBannedFunctionCalls`; each
name gets `sanitized.size() + 1` units of fuel. -/
def FindBannedFunctionCalls.names (file_path raw sanitized : Str) (idx : LineIndex) :
    List Str → ScanResult → Option ScanResult
  | [], out => some out
  | name :: rest, out =>
    match FindBannedFunctionCalls.loop file_path raw sanitized idx name
        (sanitized.length + 1) 0 out with
    | none => none
    | some out1 => FindBannedFunctionCalls.names file_path raw sanitized idx rest out1

/-- Embedding of `Scanner::FindBannedFunctionCalls` (Scanner.cpp 232-270); the member
`banned_functions` is the first argument.  `none` stands for a search that does not end. -/
def FindBannedFunctionCalls (banned_functions : List Str) (file_path raw sanitized : Str)
    (out : ScanResult) : Option ScanResult :=
  FindBannedFunctionCalls.names file_path raw sanitized (LineIndex.Build raw)
    banned_functions out

/-! ## Scanner.cpp: the scanf format rule -/

/-- The library call `std::isdigit` in the "C" locale. -/
def isdigit (c : Char) : Bool := decide ('0' ≤ c ∧ c ≤ '9')

/-- The width loop of `HasUnsafePercentS`:
`while (i < fmt.size() && isdigit(fmt[i])) { hasWidth = true; i++; }`. -/
def HasUnsafePercentS.width (fmt : Str) : Nat → Nat → Bool → Nat × Bool
  | 0, i, hasWidth => (i, hasWidth)
  | fuel + 1, i, hasWidth =>
    if i < fmt.length ∧ isdigit (charAt fmt i) then
      HasUnsafePercentS.width fmt fuel (i + 1) true
    else (i, hasWidth)

/-- The length-modifier test of `HasUnsafePercentS` (Scanner.cpp 303). -/
def isLengthModifier (c : Char) : Bool :=
  c = 'h' ∨ c = 'l' ∨ c = 'j' ∨ c = 'z' ∨ c = 't' ∨ c = 'L'

/-- The length-modifier step of `HasUnsafePercentS` (Scanner.cpp 303-311): the cursor after
an optional `h`, `hh`, `l`, `ll`, `j`, `z`, `t` or `L` at `i`. -/
def HasUnsafePercentS.modifier (fmt : Str) (i : Nat) : Nat :=
  if i < fmt.length ∧ isLengthModifier (charAt fmt i) then
    let first := charAt fmt i
    if i + 1 < fmt.length ∧ charAt fmt (i + 1) = first ∧ (first = 'h' ∨ first = 'l')
    then i + 2 else i + 1
  else i

/-- The `for` loop of `HasUnsafePercentS`; `i` is the loop variable at the top of an
iteration (after the `i++` of the previous one). -/
def HasUnsafePercentS.loop (fmt : Str) : Nat → Nat → Bool
  | 0, _ => false
  | fuel + 1, i =>
    if i < fmt.length then
      if charAt fmt i ≠ '%' then HasUnsafePercentS.loop fmt fuel (i + 1)
      else if i + 1 < fmt.length ∧ charAt fmt (i + 1) = '%' then
        HasUnsafePercentS.loop fmt fuel (i + 2)
      else
        let i1 := i + 1
        let suppressed : Bool := i1 < fmt.length ∧ charAt fmt i1 = '*'
        let i2 := if suppressed then i1 + 1 else i1
        let w := HasUnsafePercentS.width fmt (fmt.length - i2) i2 false
        let hasWidth := w.2
        let i4 := HasUnsafePercentS.modifier fmt w.1
        if i4 ≥ fmt.length then false
        else if charAt fmt i4 = 's' ∧ !suppressed ∧ !hasWidth then true
        else HasUnsafePercentS.loop fmt fuel (i4 + 1)
    else false

/-- Embedding of `Scanner::HasUnsafePercentS` (Scanner.cpp 272-329); the cursor grows in
every iteration, so `fmt.size()` units of fuel reach the end of the format. -/
def HasUnsafePercentS (fmt : Str) : Bool := HasUnsafePercentS.loop fmt fmt.length 0

/-- The `while (pos < sanitized.size())` loop of `FindScanfUnsafePercentS`.  `none` means
the fuel ran out before the loop left. -/
def FindScanfUnsafePercentS.loop (file_path raw sanitized : Str) (idx : LineIndex) :
    Nat → Nat → ScanResult → Option ScanResult
  | 0, _, _ => none
  | fuel + 1, pos, out =>
    let name := "scanf".toList
    let name_len := name.length
    if pos < sanitized.length then
      match find sanitized name pos with
      | none => some out
      | some found =>
        if !LooksLikeCallAt sanitized found name_len then
          FindScanfUnsafePercentS.loop file_path raw sanitized idx fuel (found + name_len) out
        else
          let i := SkipSpaces raw (found + name_len)
          if i ≥ raw.length ∨ charAt raw i ≠ '(' then
            FindScanfUnsafePercentS.loop file_path raw sanitized idx fuel (found + name_len) out
          else
            let i := SkipSpaces raw (i + 1)
            if i ≥ raw.length ∨ charAt raw i ≠ '"' then
              FindScanfUnsafePercentS.loop file_path raw sanitized idx fuel
                (found + name_len) out
            else
              let fmt_start := i
              let fmt := (ReadStringLiteralAt raw i).1
              if fmt.isEmpty then
                FindScanfUnsafePercentS.loop file_path raw sanitized idx fuel
                  (found + name_len) out
              else
                let out1 :=
                  if HasUnsafePercentS fmt then
                    let line := idx.LineFromIndex fmt_start
                    let col := idx.ColFromIndex fmt_start line
                    AddFinding out file_path line col "CG0002".toList Severity.High
                      "scanf format uses %s without width (potential overflow)".toList
                      (idx.LineText raw line)
                  else out
                FindScanfUnsafePercentS.loop file_path raw sanitized idx fuel
                  (found + name_len) out1
    else some out

/-- Embedding of `Scanner::FindScanfUnsafePercentS` (Scanner.cpp 331-397), with
`sanitized.size() + 1` units of fuel for the search loop. -/
def FindScanfUnsafePercentS (file_path raw sanitized : Str) (out : ScanResult) :
    Option ScanResult :=
  FindScanfUnsafePercentS.loop file_path raw sanitized (LineIndex.Build raw)
    (sanitized.length + 1) 0 out

/-! ## Scanner.cpp: ScanFile and Run -/

/-- Embedding of `Scanner::ScanFile` (Scanner.cpp 207-230).  The members `options` and
`banned_functions` are arguments; `content` is the outcome of `ReadFileAll(p, raw, err)`:
`none` when it returns false, `some raw` when it returns true with the bytes read. -/
def ScanFile (options : ScanOptions) (banned_functions : List Str) (p : Str)
    (content : Option Str) (out : ScanResult) : Option ScanResult :=
  match content with
  | none => some out
  | some raw =>
    let out1 : ScanResult :=
      { out with stats := { out.stats with
          files_scanned := out.stats.files_scanned + 1,
          bytes_scanned := out.stats.bytes_scanned + raw.length } }
    let sanitized := SanitizeKeepLayout raw
    let r1 :=
      if options.check_banned_functions then
        FindBannedFunctionCalls banned_functions p raw sanitized out1
      else some out1
    match r1 with
    | none => none
    | some out2 =>
      if options.check_scanf_unsafe_percent_s then
        FindScanfUnsafePercentS p raw sanitized out2
      else some out2

/-- One position of the `recursive_directory_iterator` as the loop of `Run` sees it: whether
`increment` reported an error, the answers of `is_regular_file` and of
`IsLikelyTextFileExtension`, the path, and the outcome of `ReadFileAll` for that path. -/
structure DirEntry where
  iter_error : Bool
  is_regular_file : Bool
  text_extension : Bool
  path : Str
  content : Option Str
deriving DecidableEq, Repr

/-- The `for (; it != end; it.increment(ec))` loop of `Run`, over the positions the iterator
goes through. -/
def Run.loop (options : ScanOptions) (banned_functions : List Str) :
    List DirEntry → ScanResult → Option ScanResult
  | [], out => some out
  | entry :: rest, out =>
    if entry.iter_error then Run.loop options banned_functions rest out
    else
      let out1 : ScanResult :=
        { out with stats := { out.stats with files_seen := out.stats.files_seen + 1 } }
      if !entry.is_regular_file then Run.loop options banned_functions rest out1
      else if !entry.text_extension then Run.loop options banned_functions rest out1
      else
        match ScanFile options banned_functions entry.path entry.content out1 with
        | none => none
        | some out2 => Run.loop options banned_functions rest out2

/-- Embedding of `Scanner::Run` (Scanner.cpp 160-205).  `root_ok` is the outcome of the test
on `root_path` (non-empty, exists, is a directory); `entries` are the positions of the
directory iterator. -/
def Run (options : ScanOptions) (banned_functions : List Str) (root_ok : Bool)
    (entries : List DirEntry) : Option ScanResult :=
  if !root_ok then some ScanResult.empty
  else Run.loop options banned_functions entries ScanResult.empty

/-! ## Auxiliary definitions for the statements and proofs -/

/-- The sanitizer as a recursion over the unread suffix of the input, started in state `st`:
the same transitions as `SanitizeKeepLayout.loop`, producing the output for the suffix.
`SanitizeKeepLayout_eq` proves that the loop computes exactly this function. -/
def sanFrom : State → Str → Str
  | _, [] => []
  | State.Normal, [c] => if c = '"' then [' '] else if c = '\'' then [' '] else [c]
  | State.Normal, c :: n :: rest =>
    if c = '/' ∧ n = '/' then ' ' :: ' ' :: sanFrom State.LineComment rest
    else if c = '/' ∧ n = '*' then ' ' :: ' ' :: sanFrom State.BlockComment rest
    else if c = '"' then ' ' :: sanFrom State.String (n :: rest)
    else if c = '\'' then ' ' :: sanFrom State.Char (n :: rest)
    else c :: sanFrom State.Normal (n :: rest)
  | State.LineComment, c :: rest =>
    if c = '\n' then '\n' :: sanFrom State.Normal rest
    else ' ' :: sanFrom State.LineComment rest
  | State.BlockComment, [c] => if c = '\n' then ['\n'] else [' ']
  | State.BlockComment, c :: n :: rest =>
    if c = '*' ∧ n = '/' then ' ' :: ' ' :: sanFrom State.Normal rest
    else if c = '\n' then '\n' :: sanFrom State.BlockComment (n :: rest)
    else ' ' :: sanFrom State.BlockComment (n :: rest)
  | State.String, c :: rest =>
    if c = '\\' then ' ' :: sanFrom State.StringEscape rest
    else if c = '"' then ' ' :: sanFrom State.Normal rest
    else if c = '\n' then '\n' :: sanFrom State.Normal rest
    else ' ' :: sanFrom State.String rest
  | State.StringEscape, c :: rest =>
    if c = '\n' then '\n' :: sanFrom State.Normal rest
    else ' ' :: sanFrom State.String rest
  | State.Char, c :: rest =>
    if c = '\\' then ' ' :: sanFrom State.CharEscape rest
    else if c = '\'' then ' ' :: sanFrom State.Normal rest
    else if c = '\n' then '\n' :: sanFrom State.Normal rest
    else ' ' :: sanFrom State.Char rest
  | State.CharEscape, c :: rest =>
    if c = '\n' then '\n' :: sanFrom State.Normal rest
    else ' ' :: sanFrom State.Char rest

/-- What the sanitizer may do to the byte `a` at one offset: the output byte `b` is `a` itself
or a space, and it is a newline exactly when `a` is. -/
def keepRel (a b : Char) : Prop := (b = a ∨ b = ' ') ∧ (b = '\n' ↔ a = '\n')

/-- No comment opener: `a` followed by `b` is neither `//` nor `/*`. -/
def noOpener (a b : Char) : Prop := ¬ (a = '/' ∧ (b = '/' ∨ b = '*'))

/-- A buffer made of spaces and newlines only. -/
def blank (s : Str) : Prop := ∀ y ∈ s, y = ' ' ∨ y = '\n'

instance (s : Str) : Decidable (blank s) := by
  unfold blank; infer_instance

/-- The character class `[A-Za-z0-9_]`, written out. -/
def identChars : Str :=
  "ABCDEFGHIJKLMNOPQRSTUVWXYZabcdefghijklmnopqrstuvwxyz0123456789_".toList

/-- The findings of the banned-function rule for one raw buffer, run the way `ScanFile` runs
it: on the sanitized buffer, with the default list, from the empty result. -/
def bannedFindings (file_path raw : Str) : Option (List Finding) :=
  (FindBannedFunctionCalls defaultBanned file_path raw (SanitizeKeepLayout raw)
    ScanResult.empty).map (fun r => r.findings)

/-- The length-modifier step of `HasUnsafePercentS` on the unread suffix of the format. -/
def skipModifier : Str → Str
  | [] => []
  | c :: r =>
    if isLengthModifier c then
      if r.head? = some c ∧ (c = 'h' ∨ c = 'l') then r.tail else r
    else c :: r

/-- The loop of `HasUnsafePercentS` as a recursion over the unread suffix of the format, with
the same fuel.  `HasUnsafePercentS_loop_eq` proves that the loop computes this function. -/
def hasUnsafeFrom : Nat → Str → Bool
  | 0, _ => false
  | _ + 1, [] => false
  | fuel + 1, c :: r =>
    if c ≠ '%' then hasUnsafeFrom fuel r
    else if r.head? = some '%' then hasUnsafeFrom fuel r.tail
    else
      let suppressed : Bool := r.head? = some '*'
      let r2 := if suppressed then r.tail else r
      let hasWidth : Bool := !(r2.takeWhile isdigit).isEmpty
      match skipModifier (r2.dropWhile isdigit) with
      | [] => false
      | conv :: r5 =>
        if conv = 's' ∧ !suppressed ∧ !hasWidth then true else hasUnsafeFrom fuel r5

/-- The decimal digits. -/
def decimalDigits : Str := "0123456789".toList

/-- The length modifiers: none, `h`, `hh`, `l`, `ll`, `j`, `z`, `t`, `L`. -/
def lengthModifiers : List Str :=
  [[], ['h'], ['h', 'h'], ['l'], ['l', 'l'], ['j'], ['z'], ['t'], ['L']]

/-- A conversion specifier without its conversion character: `%`, an optional `*`, width
digits and a length modifier. -/
def specifier (star : Bool) (digits lenmod : Str) : Str :=
  '%' :: ((if star then ['*'] else []) ++ (digits ++ lenmod))

/-- What one iteration of the search loop of `FindScanfUnsafePercentS` does to the result for
the occurrence at `found`. -/
def FindScanfUnsafePercentS.visit (file_path raw sanitized : Str) (idx : LineIndex)
    (found : Nat) (out : ScanResult) : ScanResult :=
  if !LooksLikeCallAt sanitized found 5 then out
  else
    let i := SkipSpaces raw (found + 5)
    if i ≥ raw.length ∨ charAt raw i ≠ '(' then out
    else
      let j := SkipSpaces raw (i + 1)
      if j ≥ raw.length ∨ charAt raw j ≠ '"' then out
      else
        let fmt := (ReadStringLiteralAt raw j).1
        if fmt.isEmpty then out
        else if HasUnsafePercentS fmt then
          AddFinding out file_path (idx.LineFromIndex j) (idx.ColFromIndex j (idx.LineFromIndex j))
            "CG0002".toList Severity.High
            "scanf format uses %s without width (potential overflow)".toList
            (idx.LineText raw (idx.LineFromIndex j))
        else out

/-- The line starts after the first one: `i + 1` for every newline at offset `i`, where the
list `rest` starts at offset `i`. -/
def newlineStarts : Nat → Str → List Nat
  | _, [] => []
  | i, c :: rest =>
    if c = '\n' then (i + 1) :: newlineStarts (i + 1) rest else newlineStarts (i + 1) rest

/-- The findings of the scanf format rule for one raw buffer, run the way `ScanFile` runs it:
on the sanitized buffer, from the empty result. -/
def scanfFindings (file_path raw : Str) : Option (List Finding) :=
  (FindScanfUnsafePercentS file_path raw (SanitizeKeepLayout raw) ScanResult.empty).map
    (fun r => r.findings)

/-- A `scanf` call at offset 0 whose first argument is the literal `fmt`:
`scanf("` + `fmt` + `"` + `rest`. -/
def scanfCall (fmt rest : Str) : Str := "scanf(\"".toList ++ fmt ++ '"' :: rest

/-- The placeholder the sanitizer writes for a byte inside a comment: a newline for a
newline, a space for any other byte. -/
def placeholder (c : Char) : Char := if c = '\n' then '\n' else ' '

/-- The finding that `FindBannedFunctionCalls` adds for `name` accepted at offset `found`. -/
def bannedFindingAt (file_path raw : Str) (idx : LineIndex) (name : Str) (found : Nat) :
    Finding :=
  ⟨file_path, idx.LineFromIndex found, idx.ColFromIndex found (idx.LineFromIndex found),
    "CG0001".toList, bannedSeverity name, "banned function call detected: ".toList ++ name,
    idx.LineText raw (idx.LineFromIndex found)⟩

/-- What one iteration of the search loop of `FindBannedFunctionCalls` does to the result for
the occurrence at `found`. -/
def FindBannedFunctionCalls.visit (file_path raw sanitized : Str) (idx : LineIndex)
    (name : Str) (found : Nat) (out : ScanResult) : ScanResult :=
  if LooksLikeCallAt sanitized found name.length then
    AddFinding out file_path (idx.LineFromIndex found)
      (idx.ColFromIndex found (idx.LineFromIndex found)) "CG0001".toList (bannedSeverity name)
      ("banned function call detected: ".toList ++ name)
      (idx.LineText raw (idx.LineFromIndex found))
  else out

/-- The offsets at which the search loop of `FindBannedFunctionCalls` accepts `name`, in the
order in which the loop visits them, from cursor `pos` with the given fuel. -/
def callSites (sanitized name : Str) : Nat → Nat → List Nat
  | 0, _ => []
  | fuel + 1, pos =>
    if pos < sanitized.length then
      match find sanitized name pos with
      | none => []
      | some found =>
        (if LooksLikeCallAt sanitized found name.length then [found] else []) ++
          callSites sanitized name fuel (found + name.length)
    else []

/-- The offset of the byte that `FindScanfUnsafePercentS` tests for the opening quote, for
the occurrence of `scanf` at `found`. -/
def quoteAt (raw : Str) (found : Nat) : Nat :=
  SkipSpaces raw (SkipSpaces raw (found + 5) + 1)

/-- The test of `FindScanfUnsafePercentS` on the occurrence at `found`: it is an accepted
call whose first argument is a non-empty literal flagged by `HasUnsafePercentS`. -/
def scanfFlagged (raw sanitized : Str) (found : Nat) : Bool :=
  LooksLikeCallAt sanitized found 5 &&
  decide (SkipSpaces raw (found + 5) < raw.length) &&
  decide (charAt raw (SkipSpaces raw (found + 5)) = '(') &&
  decide (quoteAt raw found < raw.length) &&
  decide (charAt raw (quoteAt raw found) = '"') &&
  !(ReadStringLiteralAt raw (quoteAt raw found)).1.isEmpty &&
  HasUnsafePercentS (ReadStringLiteralAt raw (quoteAt raw found)).1

/-- The finding that `FindScanfUnsafePercentS` adds for a literal that opens at `fmt_start`. -/
def scanfFindingAt (file_path raw : Str) (idx : LineIndex) (fmt_start : Nat) : Finding :=
  ⟨file_path, idx.LineFromIndex fmt_start,
    idx.ColFromIndex fmt_start (idx.LineFromIndex fmt_start), "CG0002".toList, Severity.High,
    "scanf format uses %s without width (potential overflow)".toList,
    idx.LineText raw (idx.LineFromIndex fmt_start)⟩

/-- The offsets of the occurrences of `scanf` for which the search loop of
`FindScanfUnsafePercentS` adds a finding, in the order in which the loop visits them. -/
def scanfSites (raw sanitized : Str) : Nat → Nat → List Nat
  | 0, _ => []
  | fuel + 1, pos =>
    if pos < sanitized.length then
      match find sanitized "scanf".toList pos with
      | none => []
      | some found =>
        (if scanfFlagged raw sanitized found then [found] else []) ++
          scanfSites raw sanitized fuel (found + 5)
    else []

/-- Statistics consistency: the finding counter is the length of the finding list, and no
more files are scanned than seen. -/
def statsConsistent (r : ScanResult) : Prop :=
  r.stats.findings = r.findings.length ∧ r.stats.files_scanned ≤ r.stats.files_seen

/-- The slice of `text` from offset `start` up to, not including, the next newline or the
end of the text. -/
def lineSlice (text : Str) (start : Nat) : Str :=
  (text.drop start).takeWhile (fun c => c ≠ '\n')

/-- Removes one trailing carriage return, if there is one. -/
def stripCR (s : Str) : Str := if s.getLast? = some '\r' then s.dropLast else s

/-- The findings that `ScanFile` gets from the banned-function rule for the buffer `raw`:
for every banned name in the order of the list, the findings at its call sites. -/
def bannedPart (options : ScanOptions) (banned : List Str) (file_path raw : Str) :
    List Finding :=
  if options.check_banned_functions then
    banned.flatMap (fun name =>
      (callSites (SanitizeKeepLayout raw) name ((SanitizeKeepLayout raw).length + 1) 0).map
        (bannedFindingAt file_path raw (LineIndex.Build raw) name))
  else []

/-- The findings that `ScanFile` gets from the scanf format rule for the buffer `raw`. -/
def scanfPart (options : ScanOptions) (file_path raw : Str) : List Finding :=
  if options.check_scanf_unsafe_percent_s then
    (scanfSites raw (SanitizeKeepLayout raw) ((SanitizeKeepLayout raw).length + 1) 0).map
      (fun found => scanfFindingAt file_path raw (LineIndex.Build raw) (quoteAt raw found))
  else []

/-- The finding `f` is reported before `g` in the order of (line, column). -/
def lineColLt (f g : Finding) : Prop :=
  f.line < g.line ∨ (f.line = g.line ∧ f.column < g.column)

/-- How the severity of a finding follows from its rule and its message: a CG0001 finding
for the banned name `name` has the severity `bannedSeverity name`, a CG0002 finding is High. -/
def severityRule (f : Finding) : Prop :=
  (f.rule_id = "CG0001".toList ∧
    ∃ name, f.message = "banned function call detected: ".toList ++ name ∧
      f.severity = bannedSeverity name) ∨
  (f.rule_id = "CG0002".toList ∧ f.severity = Severity.High)

/-- The steps that change the scan result: `Run` counts a directory entry
(`out.stats.files_seen++`), `ScanFile` runs on a path whose read succeeds or fails, and
`AddFinding` appends one finding. -/
inductive RunStep where
  | count
  | scanFile (p : Str) (content : Option Str)
  | addFinding (file_path : Str) (line col : Nat) (rule_id : Str) (sev : Severity)
      (msg line_text : Str)

/-- The effect of one step on the scan result. -/
def RunStep.apply (options : ScanOptions) (banned_functions : List Str) :
    RunStep → ScanResult → Option ScanResult
  | RunStep.count, out =>
    some { out with stats := { out.stats with files_seen := out.stats.files_seen + 1 } }
  | RunStep.scanFile p content, out => ScanFile options banned_functions p content out
  | RunStep.addFinding file_path line col rule_id sev msg line_text, out =>
    some (AddFinding out file_path line col rule_id sev msg line_text)

/-- The effect of a sequence of steps. -/
def runSteps (options : ScanOptions) (banned_functions : List Str) :
    List RunStep → ScanResult → Option ScanResult
  | [], out => some out
  | step :: rest, out =>
    match step.apply options banned_functions out with
    | none => none
    | some out1 => runSteps options banned_functions rest out1

/-- The order in which `Run` performs the steps: a `ScanFile` step comes directly after the
step that counts its directory entry. -/
def inRunOrder : List RunStep → Bool
  | [] => true
  | RunStep.scanFile _ _ :: _ => false
  | RunStep.count :: RunStep.scanFile _ _ :: rest => inRunOrder rest
  | RunStep.count :: rest => inRunOrder rest
  | RunStep.addFinding _ _ _ _ _ _ _ :: rest => inRunOrder rest

/-- The steps that the loop of `Run` performs for the positions of the directory iterator. -/
def stepsOf : List DirEntry → List RunStep
  | [] => []
  | entry :: rest =>
    if entry.iter_error then stepsOf rest
    else if !entry.is_regular_file then RunStep.count :: stepsOf rest
    else if !entry.text_extension then RunStep.count :: stepsOf rest
    else RunStep.count :: RunStep.scanFile entry.path entry.content :: stepsOf rest

/-! ## Reference definitions for the literal reader and the cursor search -/

/-- The number of bytes of literal content at the start of the text that follows an opening
quote: a backslash and the byte after it count two, a backslash that is the last byte counts
one, every other byte counts one, and the count stops at the first double quote or newline
met this way, or at the end of the text. -/
def literalLen : Str → Nat
  | [] => 0
  | [c] => if c = '"' ∨ c = '\n' then 0 else 1
  | c :: d :: rest =>
    if c = '\\' then 2 + literalLen rest
    else if c = '"' ∨ c = '\n' then 0
    else 1 + literalLen (d :: rest)

/-- The offset `k` is reached from the start of the text by stepping over backslash-escaped
byte pairs two at a time (over a backslash that is the last byte, one) and over every other
byte that is neither a double quote nor a newline one at a time. -/
inductive Stepped : Str → Nat → Prop
  | here (l : Str) : Stepped l 0
  | pair (c : Char) (l : Str) (k : Nat) : Stepped l k → Stepped ('\\' :: c :: l) (k + 2)
  | lone : Stepped ['\\'] 1
  | byte (c : Char) (l : Str) (k : Nat) : c ≠ '\\' → c ≠ '"' → c ≠ '\n' →
      Stepped l k → Stepped (c :: l) (k + 1)

/-- The text ends at offset `k` or holds a double quote or a newline there. -/
def stopsAt (l : Str) (k : Nat) : Prop :=
  l.length ≤ k ∨ charAt l k = '"' ∨ charAt l k = '\n'

/-- The offset `e` at which the literal opened by the quote at `i` ends: `i + 1` plus the
length of the literal content of the text after the quote. -/
def literalEnd (raw : Str) (i : Nat) : Nat := i + 1 + literalLen (raw.drop (i + 1))

/-- All offsets `p` of the buffer, in increasing order, at which the buffer reads `name` and
`LooksLikeCallAt(buffer, p, len(name))` holds. -/
def allCallSites (sanitized name : Str) : List Nat :=
  (List.range (sanitized.length + 1)).filter
    (fun p => decide (readsAt sanitized name p) && LooksLikeCallAt sanitized p name.length)

/-! # Theorems -/

/-! ## The sanitizer loop computes `sanFrom` -/

theorem sanFrom_nil (st : State) : sanFrom st [] = [] := by cases st <;> rfl

theorem charAt_append_cons (pre : Str) (c : Char) (r : Str) :
    charAt (pre ++ c :: r) pre.length = c := by
  unfold charAt
  rw [List.getD_append_right _ _ _ _ (Nat.le_refl _)]
  simp

theorem charAt_append_cons_succ (pre : Str) (c n : Char) (r : Str) :
    charAt (pre ++ c :: n :: r) (pre.length + 1) = n := by
  unfold charAt
  rw [List.getD_append_right _ _ _ _ (Nat.le_succ _)]
  simp

theorem set_append_cons {pre outpre : Str} (h : outpre.length = pre.length)
    (z x : Char) (zs : Str) :
    (outpre ++ z :: zs).set pre.length x = outpre ++ x :: zs := by
  rw [← h]; simp

theorem set_append_cons_succ {pre outpre : Str} (h : outpre.length = pre.length)
    (a z x : Char) (zs : Str) :
    (outpre ++ a :: z :: zs).set (pre.length + 1) x = outpre ++ a :: x :: zs := by
  rw [← h, List.set_append_right _ _ (by omega)]; simp

/-- With the cursor after `pre`, the written part of the output being `outpre`, and fuel at
least the number of unread bytes, the loop returns `outpre` followed by `sanFrom` of the
unread bytes: the fuel is never exhausted and every remaining cell is written. -/
theorem SanitizeKeepLayout_loop_eq (fuel : Nat) : ∀ (rest pre outpre : Str) (st : State),
    outpre.length = pre.length → rest.length ≤ fuel →
    SanitizeKeepLayout.loop (pre ++ rest) fuel pre.length st
      (outpre ++ List.replicate rest.length '\x00') = outpre ++ sanFrom st rest := by
  induction fuel with
  | zero =>
    intro rest pre outpre st _ hf
    have : rest = [] := List.length_eq_zero.mp (by omega)
    subst this
    simp [SanitizeKeepLayout.loop, sanFrom_nil]
  | succ f ih =>
    intro rest pre outpre st hl hf
    have one : ∀ (c x : Char) (r : Str) (st2 : State), r.length ≤ f →
        SanitizeKeepLayout.loop (pre ++ c :: r) f (pre.length + 1) st2
          (outpre ++ x :: List.replicate r.length '\x00') = outpre ++ x :: sanFrom st2 r := by
      intro c x r st2 hr
      have := ih r (pre ++ [c]) (outpre ++ [x]) st2 (by simp [hl]) hr
      simpa using this
    have two : ∀ (c n x y : Char) (r : Str) (st2 : State), r.length ≤ f →
        SanitizeKeepLayout.loop (pre ++ c :: n :: r) f (pre.length + 2) st2
          (outpre ++ x :: y :: List.replicate r.length '\x00')
          = outpre ++ x :: y :: sanFrom st2 r := by
      intro c n x y r st2 hr
      have := ih r (pre ++ [c, n]) (outpre ++ [x, y]) st2 (by simp [hl]) hr
      simpa using this
    match rest with
    | [] => simp [SanitizeKeepLayout.loop, sanFrom_nil]
    | [c] =>
      have h1 : ∀ (x : Char) (st2 : State),
          SanitizeKeepLayout.loop (pre ++ [c]) f (pre.length + 1) st2 (outpre ++ [x])
            = outpre ++ [x] := by
        intro x st2
        have := one c x [] st2 (Nat.zero_le _)
        simpa [sanFrom_nil] using this
      cases st <;>
        simp only [SanitizeKeepLayout.loop, List.length_append, List.length_cons,
          List.length_nil, List.replicate_succ, List.replicate_zero, charAt_append_cons,
          set_append_cons hl, Nat.lt_irrefl, if_false, sanFrom, h1] <;>
        simp <;> split_ifs <;> simp_all
    | c :: n :: r =>
      have hr : r.length ≤ f := by simp at hf; omega
      have hr1 : (n :: r).length ≤ f := by simp at hf ⊢; omega
      have h1 := fun x st2 => one c x (n :: r) st2 hr1
      have h2 := fun x y st2 => two c n x y r st2 hr
      simp only [List.length_cons, List.replicate_succ] at h1
      have lt1 : pre.length < pre.length + (r.length + 1 + 1) := by omega
      have lt2 : pre.length + 1 < pre.length + (r.length + 1 + 1) := by omega
      cases st <;> rw [sanFrom] <;>
        simp only [SanitizeKeepLayout.loop, List.length_append, List.length_cons,
          List.length_nil, List.replicate_succ, List.replicate_zero, charAt_append_cons,
          charAt_append_cons_succ, set_append_cons hl, set_append_cons_succ hl,
          h1, h2, lt1, lt2, if_true] <;>
        split_ifs <;> simp_all

/-- The sanitizer is `sanFrom` started in the `Normal` state. -/
theorem SanitizeKeepLayout_eq (input : Str) :
    SanitizeKeepLayout input = sanFrom State.Normal input := by
  have := SanitizeKeepLayout_loop_eq input.length input [] [] State.Normal rfl (Nat.le_refl _)
  simpa [SanitizeKeepLayout] using this

/-! ## Layout preservation (C1, C2, C4) -/

theorem sanFrom_rel (st : State) (l : Str) : List.Forall₂ keepRel l (sanFrom st l) := by
  induction st, l using sanFrom.induct <;> rw [sanFrom] <;>
    first
    | exact List.Forall₂.nil
    | (split_ifs <;> simp_all [keepRel])

theorem charAt_eq_get (l : Str) (i : Nat) (h : i < l.length) :
    charAt l i = l.get ⟨i, h⟩ := by
  unfold charAt; exact List.getD_eq_getElem _ _ h

theorem charAt_of_le (l : Str) (i : Nat) (h : l.length ≤ i) : charAt l i = '\x00' := by
  unfold charAt; exact List.getD_eq_default _ _ h

theorem sanitize_rel (x : Str) : List.Forall₂ keepRel x (SanitizeKeepLayout x) := by
  rw [SanitizeKeepLayout_eq]; exact sanFrom_rel _ _

theorem sanitize_length (x : Str) : (SanitizeKeepLayout x).length = x.length :=
  (sanitize_rel x).length_eq.symm

theorem sanitize_rel_at (x : Str) (i : Nat) (h : i < x.length) :
    keepRel (charAt x i) (charAt (SanitizeKeepLayout x) i) := by
  have hr := sanitize_rel x
  have hlen := hr.length_eq
  rw [charAt_eq_get x i h, charAt_eq_get _ i (hlen ▸ h)]
  exact (List.forall₂_iff_get.mp hr).2 i h (hlen ▸ h)

theorem sanitize_newline_iff (x : Str) (j : Nat) :
    charAt (SanitizeKeepLayout x) j = '\n' ↔ charAt x j = '\n' := by
  by_cases h : j < x.length
  · exact (sanitize_rel_at x j h).2
  · rw [charAt_of_le x j (by omega), charAt_of_le _ j (by rw [sanitize_length]; omega)]

/-- `LineIndex::Build` only looks at the length of the text and at where its newlines are. -/
theorem LineIndex_Build_loop_congr (a b : Str) (hl : a.length = b.length)
    (hn : ∀ j, charAt a j = '\n' ↔ charAt b j = '\n') :
    ∀ fuel i s, LineIndex.Build.loop a fuel i s = LineIndex.Build.loop b fuel i s := by
  intro fuel
  induction fuel with
  | zero => intro i s; rfl
  | succ f ih =>
    intro i s
    simp only [LineIndex.Build.loop, hl, hn i, ih]

theorem sanitize_line_starts (x : Str) :
    (LineIndex.Build (SanitizeKeepLayout x)).line_starts = (LineIndex.Build x).line_starts := by
  simp only [LineIndex.Build, sanitize_length]
  exact LineIndex_Build_loop_congr _ _ (sanitize_length x) (sanitize_newline_iff x) _ _ _

/-- C1: for every input `x`, `SanitizeKeepLayout x` has exactly the length of `x`. -/
theorem SanitizeKeepLayout_length_eq (x : Str) :
    (SanitizeKeepLayout x).length = x.length :=
  sanitize_length x

/-- C2: at every index `i < len(x)` the sanitized byte is a newline iff the raw byte is, and
`LineIndex::Build` of the sanitized buffer has the same `line_starts` as that of `x`. -/
theorem SanitizeKeepLayout_newlines_preserved (x : Str) :
    (∀ i, i < x.length →
      (charAt (SanitizeKeepLayout x) i = '\n' ↔ charAt x i = '\n')) ∧
    (LineIndex.Build (SanitizeKeepLayout x)).line_starts = (LineIndex.Build x).line_starts :=
  ⟨fun i _ => sanitize_newline_iff x i, sanitize_line_starts x⟩

/-- C2 at the buffer `a"` newline `b`, index 2 (the newline inside the unterminated literal). -/
theorem SanitizeKeepLayout_newlines_preserved_witness :
    2 < "a\"\nb".toList.length ∧
    (charAt (SanitizeKeepLayout "a\"\nb".toList) 2 = '\n' ↔ charAt "a\"\nb".toList 2 = '\n') :=
  ⟨by decide, (SanitizeKeepLayout_newlines_preserved "a\"\nb".toList).1 2 (by decide)⟩

/-- C4: at every index `i < len(x)` the sanitized byte equals the raw byte or is a space. -/
theorem SanitizeKeepLayout_byte_kept_or_space (x : Str) (i : Nat) (h : i < x.length) :
    charAt (SanitizeKeepLayout x) i = charAt x i ∨ charAt (SanitizeKeepLayout x) i = ' ' :=
  (sanitize_rel_at x i h).1

/-- C4 at the buffer `x/*y`, index 3 (a byte inside the comment). -/
theorem SanitizeKeepLayout_byte_kept_or_space_witness :
    3 < "x/*y".toList.length ∧
    (charAt (SanitizeKeepLayout "x/*y".toList) 3 = charAt "x/*y".toList 3 ∨
      charAt (SanitizeKeepLayout "x/*y".toList) 3 = ' ') :=
  ⟨by decide, SanitizeKeepLayout_byte_kept_or_space "x/*y".toList 3 (by decide)⟩

/-! ## Idempotence (C3) -/

theorem sanFrom_normal_copy (c : Char) (Y : Str) (h1 : c ≠ '"') (h2 : c ≠ '\'')
    (h3 : c = '/' → ∀ y ∈ Y.head?, y ≠ '/' ∧ y ≠ '*') :
    sanFrom State.Normal (c :: Y) = c :: sanFrom State.Normal Y := by
  cases Y with
  | nil => simp [sanFrom, h1, h2]
  | cons y ys =>
    rw [sanFrom]
    have : ¬ (c = '/' ∧ y = '/') := fun h => (h3 h.1 y (by simp)).1 h.2
    have : ¬ (c = '/' ∧ y = '*') := fun h => (h3 h.1 y (by simp)).2 h.2
    simp [*]

theorem sanFrom_head (st : State) (n : Char) (rest : Str) :
    ∀ y ∈ (sanFrom st (n :: rest)).head?, y = n ∨ y = ' ' := by
  intro y hy
  have h := sanFrom_rel st (n :: rest)
  generalize sanFrom st (n :: rest) = Y at h hy
  cases h with
  | cons hab _ =>
    simp at hy
    subst hy
    exact hab.1

theorem sanFrom_idem (st : State) (l : Str) :
    sanFrom State.Normal (sanFrom st l) = sanFrom st l := by
  have sp : ∀ Y, sanFrom State.Normal (' ' :: Y) = ' ' :: sanFrom State.Normal Y :=
    fun Y => sanFrom_normal_copy ' ' Y (by decide) (by decide) (by simp)
  have nl : ∀ Y, sanFrom State.Normal ('\n' :: Y) = '\n' :: sanFrom State.Normal Y :=
    fun Y => sanFrom_normal_copy '\n' Y (by decide) (by decide) (by simp)
  induction st, l using sanFrom.induct <;> rw [sanFrom] <;>
    (try split_ifs) <;> (try simp_all [sanFrom_nil, sp, nl])
  · rename_i c h1 h2
    simp [sanFrom, h1, h2]
  · rename_i c n rest h3 h4 h1 h2 ih
    rw [sanFrom_normal_copy c _ h1 h2, ih]
    intro hc y hy
    rcases sanFrom_head _ _ _ y hy with rfl | rfl
    · exact ⟨h3 hc, h4 hc⟩
    · exact ⟨by decide, by decide⟩

theorem sanFrom_no_quote (st : State) (l : Str) :
    ∀ y ∈ sanFrom st l, y ≠ '"' ∧ y ≠ '\'' := by
  induction st, l using sanFrom.induct <;> rw [sanFrom] <;>
    (try split_ifs) <;> simp_all

theorem sanFrom_no_opener (st : State) (l : Str) :
    List.Chain' noOpener (sanFrom st l) := by
  induction st, l using sanFrom.induct <;> rw [sanFrom] <;>
    (try split_ifs) <;> (try simp_all [List.chain'_cons', noOpener])
  · rename_i c n rest h3 h4 h1 h2 ih
    intro y hy hc
    rcases sanFrom_head _ _ _ y (by simpa using hy) with rfl | rfl
    · exact ⟨h3 hc, h4 hc⟩
    · exact ⟨by decide, by decide⟩

theorem sanitize_idem (x : Str) :
    SanitizeKeepLayout (SanitizeKeepLayout x) = SanitizeKeepLayout x := by
  rw [SanitizeKeepLayout_eq (SanitizeKeepLayout x), SanitizeKeepLayout_eq x]
  exact sanFrom_idem _ _

/-- C3: sanitizing is idempotent; the sanitized buffer contains no double quote, no single
quote and no adjacent pair `//` or `/*`. -/
theorem SanitizeKeepLayout_idempotent (x : Str) :
    SanitizeKeepLayout (SanitizeKeepLayout x) = SanitizeKeepLayout x ∧
    (∀ y ∈ SanitizeKeepLayout x, y ≠ '"' ∧ y ≠ '\'') ∧
    List.Chain' noOpener (SanitizeKeepLayout x) := by
  refine ⟨sanitize_idem x, ?_, ?_⟩
  · rw [SanitizeKeepLayout_eq]; exact sanFrom_no_quote _ _
  · rw [SanitizeKeepLayout_eq]; exact sanFrom_no_opener _ _

/-! ## Comment and string suppression (C5) -/

theorem readsAt_head_mem {s : Str} {a : Char} {name : Str} {p : Nat}
    (h : readsAt s (a :: name) p) : a ∈ s := by
  unfold readsAt at h
  have h1 : a ∈ (s.drop p).take (a :: name).length := by rw [h]; simp
  exact List.drop_subset _ _ (List.take_subset _ _ h1)

theorem find_eq_none_of_blank {s : Str} (hs : blank s) (a : Char) (name : Str)
    (ha1 : a ≠ ' ') (ha2 : a ≠ '\n') (pos : Nat) : find s (a :: name) pos = none := by
  unfold find
  rw [List.find?_eq_none]
  intro p _ hp
  have := readsAt_head_mem (of_decide_eq_true hp)
  rcases hs a this with h | h
  · exact ha1 h
  · exact ha2 h

theorem FindBannedFunctionCalls_loop_blank (fp raw : Str) {s : Str} (hs : blank s)
    (idx : LineIndex) (a : Char) (name : Str) (ha1 : a ≠ ' ') (ha2 : a ≠ '\n')
    (fuel pos : Nat) (out : ScanResult) :
    FindBannedFunctionCalls.loop fp raw s idx (a :: name) (fuel + 1) pos out = some out := by
  simp only [FindBannedFunctionCalls.loop, find_eq_none_of_blank hs a name ha1 ha2]
  split_ifs <;> rfl

theorem FindBannedFunctionCalls_blank (fp raw : Str) {s : Str} (hs : blank s)
    (out : ScanResult) :
    FindBannedFunctionCalls defaultBanned fp raw s out = some out := by
  simp only [FindBannedFunctionCalls, defaultBanned, FindBannedFunctionCalls.names]
  have e1 : "gets".toList = 'g' :: "ets".toList := rfl
  have e2 : "strcpy".toList = 's' :: "trcpy".toList := rfl
  have e3 : "strcat".toList = 's' :: "trcat".toList := rfl
  have e4 : "sprintf".toList = 's' :: "printf".toList := rfl
  have e5 : "vsprintf".toList = 'v' :: "sprintf".toList := rfl
  have e6 : "system".toList = 's' :: "ystem".toList := rfl
  have e7 : "popen".toList = 'p' :: "open".toList := rfl
  rw [e1, FindBannedFunctionCalls_loop_blank fp raw hs _ _ _ (by decide) (by decide)]
  simp only []
  rw [e2, FindBannedFunctionCalls_loop_blank fp raw hs _ _ _ (by decide) (by decide)]
  simp only []
  rw [e3, FindBannedFunctionCalls_loop_blank fp raw hs _ _ _ (by decide) (by decide)]
  simp only []
  rw [e4, FindBannedFunctionCalls_loop_blank fp raw hs _ _ _ (by decide) (by decide)]
  simp only []
  rw [e5, FindBannedFunctionCalls_loop_blank fp raw hs _ _ _ (by decide) (by decide)]
  simp only []
  rw [e6, FindBannedFunctionCalls_loop_blank fp raw hs _ _ _ (by decide) (by decide)]
  simp only []
  rw [e7, FindBannedFunctionCalls_loop_blank fp raw hs _ _ _ (by decide) (by decide)]

theorem blank_cons {a : Char} {s : Str} (ha : a = ' ' ∨ a = '\n') (hs : blank s) :
    blank (a :: s) := by
  intro y hy
  rcases List.mem_cons.mp hy with h | h
  · exact h ▸ ha
  · exact hs y h

theorem sanFrom_normal_dquote (Y : Str) :
    sanFrom State.Normal ('"' :: Y) = ' ' :: sanFrom State.String Y := by
  cases Y <;> simp [sanFrom]

theorem sanFrom_line_blank : ∀ s : Str, '\n' ∉ s → blank (sanFrom State.LineComment s)
  | [], _ => by simp [sanFrom, blank]
  | c :: s, h => by
    have hc : c ≠ '\n' := fun e => h (by simp [e])
    have hs : '\n' ∉ s := fun e => h (by simp [e])
    rw [sanFrom, if_neg hc]
    exact blank_cons (Or.inl rfl) (sanFrom_line_blank s hs)

theorem sanFrom_string_plain : ∀ (s rest : Str), '"' ∉ s → '\\' ∉ s → '\n' ∉ s →
    sanFrom State.String (s ++ '"' :: rest)
      = List.replicate s.length ' ' ++ ' ' :: sanFrom State.Normal rest
  | [], rest, _, _, _ => by simp [sanFrom]
  | c :: s, rest, h1, h2, h3 => by
    have a1 : c ≠ '"' := fun e => h1 (by simp [e])
    have a2 : c ≠ '\\' := fun e => h2 (by simp [e])
    have a3 : c ≠ '\n' := fun e => h3 (by simp [e])
    have ih := sanFrom_string_plain s rest (fun e => h1 (by simp [e]))
      (fun e => h2 (by simp [e])) (fun e => h3 (by simp [e]))
    rw [List.cons_append, sanFrom, if_neg a2, if_neg a1, if_neg a3, ih]
    simp [List.replicate_succ]

theorem sanFrom_block_blank : ∀ s : Str, ¬ (['*', '/'] <:+: s) →
    blank (sanFrom State.BlockComment (s ++ ['*', '/']))
  | [], _ => by simp [sanFrom, blank]
  | [c], _ => by
    have ih := sanFrom_block_blank [] (by simp)
    simp only [List.nil_append] at ih
    simp only [List.cons_append, List.nil_append]
    rw [sanFrom]
    split_ifs with h1 h2
    · exact absurd h1.2 (by decide)
    · exact blank_cons (Or.inr rfl) ih
    · exact blank_cons (Or.inl rfl) ih
  | c :: d :: s, h => by
    have hs : ¬ (['*', '/'] <:+: d :: s) := fun e => h (List.IsInfix.trans e (List.suffix_cons c _).isInfix)
    have ih := sanFrom_block_blank (d :: s) hs
    simp only [List.cons_append] at ih ⊢
    rw [sanFrom]
    split_ifs with h1 h2
    · obtain ⟨rfl, rfl⟩ := h1
      exact absurd (List.prefix_append ['*', '/'] s).isInfix h
    · exact blank_cons (Or.inr rfl) ih
    · exact blank_cons (Or.inl rfl) ih


theorem sanitize_line_comment_blank (s : Str) (h : '\n' ∉ s) :
    blank (SanitizeKeepLayout ("//".toList ++ s)) := by
  rw [SanitizeKeepLayout_eq]
  show blank (sanFrom State.Normal ('/' :: '/' :: s))
  rw [sanFrom]
  simp only [true_and, if_true]
  exact blank_cons (Or.inl rfl) (blank_cons (Or.inl rfl) (sanFrom_line_blank s h))

theorem sanitize_string_blank (s : Str) (h1 : '"' ∉ s) (h2 : '\\' ∉ s) (h3 : '\n' ∉ s) :
    blank (SanitizeKeepLayout ("\"".toList ++ s ++ "\"".toList)) := by
  rw [SanitizeKeepLayout_eq]
  show blank (sanFrom State.Normal ('"' :: s ++ ['"']))
  rw [List.cons_append, sanFrom_normal_dquote, sanFrom_string_plain s [] h1 h2 h3, sanFrom_nil]
  refine blank_cons (Or.inl rfl) ?_
  intro y hy
  rcases List.mem_append.mp hy with h | h
  · exact Or.inl (List.eq_of_mem_replicate h)
  · exact Or.inl (by simpa using h)

theorem sanitize_block_comment_blank (s : Str) (h : ¬ ("*/".toList <:+: s)) :
    blank (SanitizeKeepLayout ("/*".toList ++ s ++ "*/".toList)) := by
  rw [SanitizeKeepLayout_eq]
  show blank (sanFrom State.Normal ('/' :: '*' :: s ++ ['*', '/']))
  simp only [List.cons_append]
  rw [sanFrom]
  simp only [true_and, if_true]
  have : ¬ ('*' = '/') := by decide
  simp only [this, if_false]
  exact blank_cons (Or.inl rfl) (blank_cons (Or.inl rfl) (sanFrom_block_blank s h))

theorem bannedFindings_blank (fp raw : Str) (h : blank (SanitizeKeepLayout raw)) :
    bannedFindings fp raw = some [] := by
  unfold bannedFindings
  rw [FindBannedFunctionCalls_blank fp raw h]
  rfl

/-- C5: with the default banned list, the banned-function rule on the sanitized buffers of
`// strcpy(a,b)`, `"strcpy(a,b)"` and `/* strcpy(a,b) */` gives no finding and on
`strcpy(a,b)` exactly one; and for every `s` the buffers `//s` (no newline in `s`), `"s"`
(no quote, backslash or newline in `s`) and `/*s*/` (no `*/` in `s`) give no finding. -/
theorem banned_rule_suppressed_in_comments_and_strings (fp : Str) :
    bannedFindings fp "// strcpy(a,b)".toList = some [] ∧
    bannedFindings fp "\"strcpy(a,b)\"".toList = some [] ∧
    bannedFindings fp "/* strcpy(a,b) */".toList = some [] ∧
    bannedFindings fp "strcpy(a,b)".toList =
      some [⟨fp, 1, 1, "CG0001".toList, Severity.High,
        "banned function call detected: strcpy".toList, "strcpy(a,b)".toList⟩] ∧
    (∀ s : Str, '\n' ∉ s → bannedFindings fp ("//".toList ++ s) = some []) ∧
    (∀ s : Str, '"' ∉ s → '\\' ∉ s → '\n' ∉ s →
      bannedFindings fp ("\"".toList ++ s ++ "\"".toList) = some []) ∧
    (∀ s : Str, ¬ ("*/".toList <:+: s) →
      bannedFindings fp ("/*".toList ++ s ++ "*/".toList) = some []) := by
  refine ⟨?_, ?_, ?_, rfl, ?_, ?_, ?_⟩
  · exact bannedFindings_blank fp _ (by decide)
  · exact bannedFindings_blank fp _ (by decide)
  · exact bannedFindings_blank fp _ (by decide)
  · exact fun s h => bannedFindings_blank fp _ (sanitize_line_comment_blank s h)
  · exact fun s h1 h2 h3 => bannedFindings_blank fp _ (sanitize_string_blank s h1 h2 h3)
  · exact fun s h => bannedFindings_blank fp _ (sanitize_block_comment_blank s h)

/-- C5 at `// gets(x)`, `"system(x)"` and `/* popen(x) / * */`. -/
theorem banned_rule_suppressed_in_comments_and_strings_witness :
    ('\n' ∉ " gets(x)".toList ∧
      bannedFindings [] ("//".toList ++ " gets(x)".toList) = some []) ∧
    (('"' ∉ "system(x)".toList ∧ '\\' ∉ "system(x)".toList ∧ '\n' ∉ "system(x)".toList) ∧
      bannedFindings [] ("\"".toList ++ "system(x)".toList ++ "\"".toList) = some []) ∧
    (¬ ("*/".toList <:+: " popen(x) / * ".toList) ∧
      bannedFindings [] ("/*".toList ++ " popen(x) / * ".toList ++ "*/".toList) = some []) :=
  ⟨⟨by decide, (banned_rule_suppressed_in_comments_and_strings []).2.2.2.2.1 _ (by decide)⟩,
   ⟨by decide, (banned_rule_suppressed_in_comments_and_strings []).2.2.2.2.2.1 _
      (by decide) (by decide) (by decide)⟩,
   ⟨by decide, (banned_rule_suppressed_in_comments_and_strings []).2.2.2.2.2.2 _ (by decide)⟩⟩

/-! ## Word boundaries of the call matcher (C6) -/

theorem identChars_sound : ∀ c ∈ identChars, IsIdentChar c = true := by decide

theorem ident_small : ∀ n, n < 128 → IsIdentChar (Char.ofNat n) = true → Char.ofNat n ∈ identChars := by
  decide

theorem IsIdentChar_lt (c : Char) (h : IsIdentChar c = true) : c.toNat < 128 := by
  simp only [IsIdentChar, decide_eq_true_eq] at h
  have e : ∀ a b : Char, a ≤ b ↔ a.toNat ≤ b.toNat := fun a b => Iff.rfl
  have e2 : ∀ a b : Char, a = b → a.toNat = b.toNat := fun a b h => by rw [h]
  rcases h with h | h | h | h
  · have := (e _ _).mp h.2; simp at this; omega
  · have := (e _ _).mp h.2; simp at this; omega
  · have := (e _ _).mp h.2; simp at this; omega
  · have := e2 _ _ h; simp at this; omega

theorem IsIdentChar_iff (c : Char) : IsIdentChar c = true ↔ c ∈ identChars := by
  constructor
  · intro h
    have := ident_small c.toNat (IsIdentChar_lt c h)
    rw [Char.ofNat_toNat] at this
    exact this h
  · exact identChars_sound c
/-- What `SkipSpaces.loop` returns when the fuel covers the rest of the buffer. -/
theorem SkipSpaces_loop_spec (s : Str) : ∀ (fuel i : Nat), s.length - i ≤ fuel →
    i ≤ SkipSpaces.loop s fuel i ∧
    (∀ k, i ≤ k → k < SkipSpaces.loop s fuel i → k < s.length ∧ isSpaceByte (charAt s k) = true) ∧
    (SkipSpaces.loop s fuel i < s.length → isSpaceByte (charAt s (SkipSpaces.loop s fuel i)) = false) := by
  intro fuel
  induction fuel with
  | zero =>
    intro i h
    simp only [SkipSpaces.loop]
    exact ⟨Nat.le_refl _, fun k h1 h2 => absurd h2 (by omega), fun h2 => absurd h2 (by omega)⟩
  | succ f ih =>
    intro i h
    simp only [SkipSpaces.loop]
    split_ifs with hc
    · obtain ⟨h1, h2, h3⟩ := ih (i + 1) (by omega)
      refine ⟨by omega, ?_, h3⟩
      intro k hk1 hk2
      rcases Nat.eq_or_lt_of_le hk1 with e | e
      · subst e; exact hc
      · exact h2 k e hk2
    · refine ⟨Nat.le_refl _, fun k h1 h2 => absurd h2 (by omega), ?_⟩
      intro hl
      by_contra hs
      exact hc ⟨hl, by simpa using hs⟩

theorem SkipSpaces_spec (s : Str) (i : Nat) :
    i ≤ SkipSpaces s i ∧
    (∀ k, i ≤ k → k < SkipSpaces s i → k < s.length ∧ isSpaceByte (charAt s k) = true) ∧
    (SkipSpaces s i < s.length → isSpaceByte (charAt s (SkipSpaces s i)) = false) :=
  SkipSpaces_loop_spec s (s.length - i) i (Nat.le_refl _)

/-- `SkipSpaces` stops at `j` exactly when `j` is the first non-whitespace offset from `i`. -/
theorem SkipSpaces_eq_of_first (s : Str) (i j : Nat) (hij : i ≤ j) (hj : j < s.length)
    (hns : isSpaceByte (charAt s j) = false)
    (hsp : ∀ k, i ≤ k → k < j → isSpaceByte (charAt s k) = true) : SkipSpaces s i = j := by
  obtain ⟨h1, h2, h3⟩ := SkipSpaces_spec s i
  rcases Nat.lt_trichotomy (SkipSpaces s i) j with h | h | h
  · have := h3 (by omega)
    rw [hsp _ h1 h] at this
    exact absurd this (by decide)
  · exact h
  · have := (h2 j hij h).2
    rw [hns] at this
    exact absurd this (by decide)

theorem LooksLikeCallAt_spec (s : Str) (p n : Nat) (h : p + n ≤ s.length) :
    LooksLikeCallAt s p n = true ↔
      (p = 0 ∨ IsIdentChar (charAt s (p - 1)) = false) ∧
      (p + n = s.length ∨ IsIdentChar (charAt s (p + n)) = false) ∧
      (∃ j, p + n ≤ j ∧ j < s.length ∧ charAt s j = '(' ∧
        ∀ k, p + n ≤ k → k < j → isSpaceByte (charAt s k) = true) := by
  have hb : IsWordBoundaryBefore s p = true ↔ (p = 0 ∨ IsIdentChar (charAt s (p - 1)) = false) := by
    unfold IsWordBoundaryBefore
    split_ifs with h0 <;> simp [h0]
  have ha : IsWordBoundaryAfter s (p + n) = true ↔
      (p + n = s.length ∨ IsIdentChar (charAt s (p + n)) = false) := by
    unfold IsWordBoundaryAfter
    split_ifs with h0
    · simp [Nat.le_antisymm h h0]
    · have : p + n ≠ s.length := by omega
      simp [this]
  have hc : (¬ (SkipSpaces s (p + n) ≥ s.length ∨ charAt s (SkipSpaces s (p + n)) ≠ '(')) ↔
      (∃ j, p + n ≤ j ∧ j < s.length ∧ charAt s j = '(' ∧
        ∀ k, p + n ≤ k → k < j → isSpaceByte (charAt s k) = true) := by
    obtain ⟨h1, h2, h3⟩ := SkipSpaces_spec s (p + n)
    constructor
    · intro hh
      push_neg at hh
      exact ⟨_, h1, hh.1, hh.2, fun k hk1 hk2 => (h2 k hk1 hk2).2⟩
    · rintro ⟨j, hj1, hj2, hj3, hj4⟩
      have := SkipSpaces_eq_of_first s (p + n) j hj1 hj2 (by rw [hj3]; decide) hj4
      rw [this]
      push_neg
      exact ⟨hj2, hj3⟩
  rw [← hb, ← ha, ← hc]
  unfold LooksLikeCallAt
  cases IsWordBoundaryBefore s p <;> cases IsWordBoundaryAfter s (p + n) <;> simp

theorem isSpaceByte_iff (c : Char) : isSpaceByte c = true ↔ c ∈ [' ', '\t', '\r', '\n'] := by
  simp [isSpaceByte]

theorem IsIdentChar_eq_false_iff (c : Char) : IsIdentChar c = false ↔ c ∉ identChars := by
  rw [← IsIdentChar_iff]; simp

/-- C6: for `p + n <= len(s)`, `LooksLikeCallAt s p n` holds iff (a) `p = 0` or `s[p-1]` is
not in `[A-Za-z0-9_]`, (b) `p + n = len(s)` or `s[p+n]` is not in `[A-Za-z0-9_]`, and (c) the
first byte at or after `p + n` that is not space, tab, CR or LF exists and is `(`.  `strcpy`
at offset 0 of `strcpy2(a,b)` is rejected, at offset 2 of `x.strcpy(a,b)` accepted. -/
theorem LooksLikeCallAt_word_boundary (s : Str) (p n : Nat) (h : p + n ≤ s.length) :
    (LooksLikeCallAt s p n = true ↔
      (p = 0 ∨ charAt s (p - 1) ∉ identChars) ∧
      (p + n = s.length ∨ charAt s (p + n) ∉ identChars) ∧
      (∃ j, p + n ≤ j ∧ j < s.length ∧ charAt s j = '(' ∧
        ∀ k, p + n ≤ k → k < j → charAt s k ∈ [' ', '\t', '\r', '\n'])) ∧
    LooksLikeCallAt "strcpy2(a,b)".toList 0 6 = false ∧
    LooksLikeCallAt "x.strcpy(a,b)".toList 2 6 = true := by
  refine ⟨?_, by decide, by decide⟩
  rw [LooksLikeCallAt_spec s p n h]
  simp only [IsIdentChar_eq_false_iff, isSpaceByte_iff]

/-- C6 at `system (x)`, offset 0, length 6: accepted through the space before `(`. -/
theorem LooksLikeCallAt_word_boundary_witness :
    0 + 6 ≤ "system (x)".toList.length ∧ LooksLikeCallAt "system (x)".toList 0 6 = true :=
  ⟨by decide, ((LooksLikeCallAt_word_boundary "system (x)".toList 0 6 (by decide)).1).mpr
    ⟨Or.inl rfl, Or.inr (by decide), 7, by decide, by decide, by decide, by decide⟩⟩

/-! ## The format parser (C7, C10) -/

theorem drop_eq_charAt_cons (l : Str) (i : Nat) (h : i < l.length) :
    l.drop i = charAt l i :: l.drop (i + 1) := by
  rw [charAt_eq_get l i h]
  exact List.drop_eq_getElem_cons h

theorem head?_drop_eq_some_iff (l : Str) (i : Nat) (x : Char) :
    (l.drop i).head? = some x ↔ (i < l.length ∧ charAt l i = x) := by
  by_cases h : i < l.length
  · rw [drop_eq_charAt_cons l i h]; simp [h]
  · rw [List.drop_eq_nil_of_le (by omega)]; simp [h]

theorem HasUnsafePercentS_width_eq (fmt : Str) : ∀ (fuel i : Nat) (w : Bool),
    fmt.length - i ≤ fuel →
    HasUnsafePercentS.width fmt fuel i w =
      (i + ((fmt.drop i).takeWhile isdigit).length,
        w || !((fmt.drop i).takeWhile isdigit).isEmpty) := by
  intro fuel
  induction fuel with
  | zero =>
    intro i w h
    rw [List.drop_eq_nil_of_le (by omega)]
    simp [HasUnsafePercentS.width]
  | succ f ih =>
    intro i w h
    simp only [HasUnsafePercentS.width]
    by_cases hi : i < fmt.length
    · rw [drop_eq_charAt_cons fmt i hi]
      by_cases hd : isdigit (charAt fmt i) = true
      · rw [if_pos ⟨hi, hd⟩, ih (i + 1) true (by omega), List.takeWhile_cons_of_pos hd]
        simp; omega
      · rw [if_neg (fun hh => hd hh.2), List.takeWhile_cons_of_neg hd]
        simp
    · rw [if_neg (fun hh => hi hh.1), List.drop_eq_nil_of_le (by omega)]
      simp

theorem drop_add_takeWhile (l : Str) (p : Char → Bool) :
    l.drop (l.takeWhile p).length = l.dropWhile p := by
  induction l with
  | nil => rfl
  | cons a l ih =>
    by_cases h : p a = true
    · simp [List.takeWhile_cons_of_pos h, List.dropWhile_cons_of_pos h, ih]
    · simp [List.takeWhile_cons_of_neg h, List.dropWhile_cons_of_neg h]


theorem skipModifier_drop (fmt : Str) (i3 : Nat) :
    skipModifier (fmt.drop i3) = fmt.drop (HasUnsafePercentS.modifier fmt i3) := by
  unfold HasUnsafePercentS.modifier
  by_cases hi : i3 < fmt.length
  · rw [drop_eq_charAt_cons fmt i3 hi]
    simp only [skipModifier, hi, true_and]
    by_cases hm : isLengthModifier (charAt fmt i3) = true
    · simp only [hm, if_true, head?_drop_eq_some_iff, and_assoc]
      split_ifs
      · rw [List.tail_drop]
      · rfl
    · simp only [hm]
      rw [if_neg (by simp), if_neg (by simp)]
      exact (drop_eq_charAt_cons fmt i3 hi).symm
  · rw [if_neg (fun h => hi h.1), List.drop_eq_nil_of_le (by omega)]
    rfl

/-- One specifier: what the loop does at a `%` that is not followed by `%`, given the cursor
`i2` after the optional `*`. -/
theorem HasUnsafePercentS_spec_eq (fmt : Str) (f i2 : Nat) (sup : Bool)
    (ih : ∀ i, HasUnsafePercentS.loop fmt f i = hasUnsafeFrom f (fmt.drop i)) :
    (if HasUnsafePercentS.modifier fmt
          (HasUnsafePercentS.width fmt (fmt.length - i2) i2 false).1 ≥ fmt.length then false
      else if charAt fmt (HasUnsafePercentS.modifier fmt
          (HasUnsafePercentS.width fmt (fmt.length - i2) i2 false).1) = 's' ∧ (!sup) = true ∧
          (!(HasUnsafePercentS.width fmt (fmt.length - i2) i2 false).2) = true then true
      else HasUnsafePercentS.loop fmt f (HasUnsafePercentS.modifier fmt
          (HasUnsafePercentS.width fmt (fmt.length - i2) i2 false).1 + 1)) =
    (match skipModifier ((fmt.drop i2).dropWhile isdigit) with
      | [] => false
      | conv :: r5 =>
        if conv = 's' ∧ (!sup) = true ∧ (!(!((fmt.drop i2).takeWhile isdigit).isEmpty)) = true
        then true else hasUnsafeFrom f r5) := by
  rw [HasUnsafePercentS_width_eq fmt _ i2 false (Nat.le_refl _)]
  simp only [Bool.false_or]
  rw [← drop_add_takeWhile (fmt.drop i2) isdigit, List.drop_drop, skipModifier_drop]
  generalize HasUnsafePercentS.modifier fmt (i2 + ((fmt.drop i2).takeWhile isdigit).length) = i4
  generalize (fmt.drop i2).takeWhile isdigit = tw
  by_cases h4 : i4 < fmt.length
  · rw [drop_eq_charAt_cons fmt i4 h4, if_neg (by omega)]
    simp only [ih]
  · rw [List.drop_eq_nil_of_le (by omega), if_pos (by omega)]

theorem HasUnsafePercentS_loop_eq (fmt : Str) : ∀ (fuel i : Nat),
    HasUnsafePercentS.loop fmt fuel i = hasUnsafeFrom fuel (fmt.drop i) := by
  intro fuel
  induction fuel with
  | zero => intro i; rfl
  | succ f ih =>
    intro i
    by_cases hi : i < fmt.length
    · rw [drop_eq_charAt_cons fmt i hi]
      simp only [HasUnsafePercentS.loop, hasUnsafeFrom, hi, if_true]
      by_cases hc : charAt fmt i = '%'
      · simp only [hc, ne_eq, not_true_eq_false, if_false, head?_drop_eq_some_iff]
        by_cases h2 : i + 1 < fmt.length ∧ charAt fmt (i + 1) = '%'
        · rw [if_pos h2, if_pos h2, ih, List.tail_drop]
        · rw [if_neg h2, if_neg h2]
          by_cases hs : i + 1 < fmt.length ∧ charAt fmt (i + 1) = '*'
          · simp only [hs, and_self, decide_True, if_true, List.tail_drop]
            exact HasUnsafePercentS_spec_eq fmt f (i + 1 + 1) true ih
          · simp only [hs, decide_False, if_false, Bool.false_eq_true]
            exact HasUnsafePercentS_spec_eq fmt f (i + 1) false ih
      · simp only [ne_eq, hc, not_false_eq_true, if_true]
        exact ih (i + 1)
    · rw [List.drop_eq_nil_of_le (by omega)]
      simp [HasUnsafePercentS.loop, hasUnsafeFrom, hi]

theorem HasUnsafePercentS_eq (fmt : Str) :
    HasUnsafePercentS fmt = hasUnsafeFrom fmt.length fmt := by
  unfold HasUnsafePercentS
  rw [HasUnsafePercentS_loop_eq]
  rfl


theorem decimalDigits_facts : ∀ d ∈ decimalDigits,
    isdigit d = true ∧ d ≠ 's' ∧ d ≠ '%' ∧ d ≠ '*' := by decide

theorem lengthModifiers_facts : ∀ m ∈ lengthModifiers,
    skipModifier m = [] ∧ skipModifier (m ++ ['s']) = ['s'] ∧
    (m ++ ['s']).head? ≠ some '%' ∧ (m ++ ['s']).head? ≠ some '*' ∧
    m.head? ≠ some '%' ∧ m.head? ≠ some '*' ∧
    (∀ x ∈ m.head?, isdigit x = false) ∧ (∀ x ∈ (m ++ ['s']).head?, isdigit x = false) ∧
    's' ∉ m := by decide

theorem takeWhile_digits (digits rest : Str) (hd : ∀ d ∈ digits, d ∈ decimalDigits)
    (hr : ∀ x ∈ rest.head?, isdigit x = false) :
    (digits ++ rest).takeWhile isdigit = digits ∧ (digits ++ rest).dropWhile isdigit = rest := by
  have h1 : ∀ d ∈ digits, isdigit d = true := fun d h => (decimalDigits_facts d (hd d h)).1
  have h2 : rest.takeWhile isdigit = [] ∧ rest.dropWhile isdigit = rest := by
    cases rest with
    | nil => exact ⟨rfl, rfl⟩
    | cons x xs =>
      have : isdigit x = false := hr x (by simp)
      simp [List.takeWhile_cons, List.dropWhile_cons, this]
  rw [List.takeWhile_append_of_pos h1, List.dropWhile_append_of_pos h1, h2.1, h2.2]
  simp

/-- The head of `digits ++ rest` is not `x` when no digit is `x` and the head of `rest` is
not `x`. -/
theorem head?_digits_ne (digits rest : Str) (x : Char)
    (hd : ∀ d ∈ digits, d ≠ x) (hr : rest.head? ≠ some x) :
    (digits ++ rest).head? ≠ some x := by
  cases digits with
  | nil => simpa using hr
  | cons d ds =>
    have := hd d (by simp)
    simpa using this

/-- The specifier body seen by the loop after `%`: the parse of `*`, width and modifier. -/
theorem hasUnsafeFrom_specifier (fuel : Nat) (star : Bool) (digits lenmod tail : Str)
    (hd : ∀ d ∈ digits, d ∈ decimalDigits)
    (h1 : (lenmod ++ tail).head? ≠ some '%') (h2 : (lenmod ++ tail).head? ≠ some '*')
    (h3 : ∀ x ∈ (lenmod ++ tail).head?, isdigit x = false) :
    hasUnsafeFrom (fuel + 1) (specifier star digits lenmod ++ tail) =
      match skipModifier (lenmod ++ tail) with
      | [] => false
      | conv :: r5 =>
        if conv = 's' ∧ star = false ∧ digits = [] then true else hasUnsafeFrom fuel r5 := by
  have e : specifier star digits lenmod ++ tail =
      '%' :: ((if star then ['*'] else []) ++ (digits ++ (lenmod ++ tail))) := by
    simp [specifier]
  rw [e]
  have hp : ∀ x, (∀ d ∈ digits, d ≠ x) → (lenmod ++ tail).head? ≠ some x →
      (digits ++ (lenmod ++ tail)).head? ≠ some x := fun x => head?_digits_ne digits _ x
  have hpc := hp '%' (fun d h => (decimalDigits_facts d (hd d h)).2.2.1) h1
  have hst := hp '*' (fun d h => (decimalDigits_facts d (hd d h)).2.2.2) h2
  obtain ⟨t1, t2⟩ := takeWhile_digits digits (lenmod ++ tail) hd h3
  cases star with
  | true =>
    simp only [hasUnsafeFrom, if_true, List.cons_append, List.nil_append, ne_eq,
      not_true_eq_false, if_false, List.head?_cons, List.tail_cons, t1, t2]
    simp [t2]
  | false =>
    simp only [hasUnsafeFrom, List.nil_append, ne_eq, not_true_eq_false, if_false,
      Bool.false_eq_true, hpc, hst, t1, t2, decide_False]
    cases digits <;> simp


theorem skipModifier_suffix (l : Str) : skipModifier l <:+ l := by
  cases l with
  | nil => exact List.suffix_refl _
  | cons c r =>
    simp only [skipModifier]
    split_ifs
    · exact (List.tail_suffix r).trans (List.suffix_cons c r)
    · exact List.suffix_cons c r
    · exact List.suffix_refl _

theorem hasUnsafeFrom_no_s_spec (f : Nat) (ih : ∀ l : Str, 's' ∉ l → hasUnsafeFrom f l = false)
    (sup w : Bool) (r2 : Str) (h : 's' ∉ r2) :
    (match skipModifier (r2.dropWhile isdigit) with
      | [] => false
      | conv :: r5 =>
        if conv = 's' ∧ (!sup) = true ∧ (!w) = true then true else hasUnsafeFrom f r5) = false := by
  split
  · rfl
  · rename_i conv r5 heq
    have hsuf : (conv :: r5) <:+ r2 := by
      rw [← heq]
      exact (skipModifier_suffix _).trans (List.dropWhile_suffix _)
    have hc : conv ≠ 's' := fun e => h (hsuf.subset (by simp [e]))
    have h5 : 's' ∉ r5 := fun e => h (hsuf.subset (List.mem_cons_of_mem _ e))
    simp [hc, ih r5 h5]

/-- A format without the byte `s` is never flagged. -/
theorem hasUnsafeFrom_no_s : ∀ (fuel : Nat) (l : Str), 's' ∉ l → hasUnsafeFrom fuel l = false := by
  intro fuel
  induction fuel with
  | zero => intro l _; rfl
  | succ f ih =>
    intro l hl
    cases l with
    | nil => rfl
    | cons c r =>
      have hr : 's' ∉ r := fun h => hl (List.mem_cons_of_mem _ h)
      have ht : 's' ∉ r.tail := fun h => hr ((List.tail_suffix r).subset h)
      simp only [hasUnsafeFrom]
      by_cases h1 : c ≠ '%'
      · rw [if_pos h1]; exact ih r hr
      · rw [if_neg h1]
        by_cases h2 : r.head? = some '%'
        · rw [if_pos h2]; exact ih r.tail ht
        · rw [if_neg h2]
          by_cases h3 : r.head? = some '*'
          · simp only [h3, decide_True, if_true]
            exact hasUnsafeFrom_no_s_spec f ih _ _ _ ht
          · simp only [h3, decide_False, Bool.false_eq_true, if_false]
            exact hasUnsafeFrom_no_s_spec f ih _ _ _ hr

theorem hasUnsafeFrom_nil (fuel : Nat) : hasUnsafeFrom fuel [] = false := by
  cases fuel <;> rfl

theorem HasUnsafePercentS_specifier_conv (star : Bool) (digits lenmod : Str) (c : Char)
    (hd : ∀ d ∈ digits, d ∈ decimalDigits) (hm : lenmod ∈ lengthModifiers) :
    HasUnsafePercentS (specifier star digits lenmod ++ [c]) = true ↔
      c = 's' ∧ star = false ∧ digits = [] := by
  rw [HasUnsafePercentS_eq]
  by_cases hc : c = 's'
  · subst hc
    obtain ⟨-, m2, m3, m4, -, -, -, m8, -⟩ := lengthModifiers_facts lenmod hm
    have hlen : (specifier star digits lenmod ++ ['s']).length
        = ((if star then ['*'] else []) ++ (digits ++ lenmod)).length + 1 + 1 := by
      simp [specifier]; omega
    rw [hlen, hasUnsafeFrom_specifier _ star digits lenmod ['s'] hd m3 m4 m8, m2]
    simp [hasUnsafeFrom_nil]
  · have hno : 's' ∉ specifier star digits lenmod ++ [c] := by
      obtain ⟨-, -, -, -, -, -, -, -, m9⟩ := lengthModifiers_facts lenmod hm
      intro h
      have hstar : 's' ∉ (if star then ['*'] else []) := by cases star <;> decide
      simp only [specifier, List.cons_append, List.mem_cons, List.mem_append,
        List.mem_singleton, List.not_mem_nil, or_false] at h
      rcases h with h | (h | h | h) | h
      · exact absurd h (by decide)
      · exact hstar h
      · exact (decimalDigits_facts _ (hd _ h)).2.1 rfl
      · exact m9 h
      · exact hc h.symm
    rw [hasUnsafeFrom_no_s _ _ hno]
    simp [hc]

/-- Literal text without `%` is skipped, one unit of fuel per byte. -/
theorem hasUnsafeFrom_literal (lit : Str) (h : '%' ∉ lit) (k : Nat) (X : Str) :
    hasUnsafeFrom (lit.length + k) (lit ++ X) = hasUnsafeFrom k X := by
  induction lit with
  | nil => simp
  | cons c lit ih =>
    have hc : c ≠ '%' := fun e => h (by simp [e])
    have hl : '%' ∉ lit := fun e => h (List.mem_cons_of_mem _ e)
    have : (c :: lit).length + k = (lit.length + k) + 1 := by simp; omega
    rw [this, List.cons_append]
    simp only [hasUnsafeFrom, ne_eq, hc, not_false_eq_true, if_true]
    exact ih hl

theorem hasUnsafe_truncated (lit : Str) (star : Bool) (digits lenmod : Str)
    (hl : '%' ∉ lit) (hd : ∀ d ∈ digits, d ∈ decimalDigits) (hm : lenmod ∈ lengthModifiers) :
    HasUnsafePercentS (lit ++ specifier star digits lenmod) = false := by
  rw [HasUnsafePercentS_eq, List.length_append, hasUnsafeFrom_literal lit hl]
  obtain ⟨m1, -, -, -, m5, m6, m7, -, -⟩ := lengthModifiers_facts lenmod hm
  have hlen : (specifier star digits lenmod).length
      = ((if star then ['*'] else []) ++ (digits ++ lenmod)).length + 1 := by
    simp [specifier]
  have := hasUnsafeFrom_specifier (((if star then ['*'] else []) ++ (digits ++ lenmod)).length)
    star digits lenmod [] hd (by simpa using m5) (by simpa using m6) (by simpa using m7)
  rw [List.append_nil] at this
  rw [hlen, this, List.append_nil, m1]

/-- C7: for a format that is exactly one specifier `%`, optional `*`, decimal digits, optional
length modifier and one conversion character `c`, `HasUnsafePercentS` is true iff `c` is `s`,
there is no `*` and there are no width digits; it is true for `%s` and `%ls` and false for
`%9s`, `%*s` and `%%s`. -/
theorem HasUnsafePercentS_single_specifier (star : Bool) (digits lenmod : Str) (c : Char)
    (hd : ∀ d ∈ digits, d ∈ decimalDigits) (hm : lenmod ∈ lengthModifiers) :
    (HasUnsafePercentS (specifier star digits lenmod ++ [c]) = true ↔
      c = 's' ∧ star = false ∧ digits = []) ∧
    HasUnsafePercentS "%s".toList = true ∧ HasUnsafePercentS "%ls".toList = true ∧
    HasUnsafePercentS "%9s".toList = false ∧ HasUnsafePercentS "%*s".toList = false ∧
    HasUnsafePercentS "%%s".toList = false :=
  ⟨HasUnsafePercentS_specifier_conv star digits lenmod c hd hm,
    by decide, by decide, by decide, by decide, by decide⟩

/-- C7 at `%lls` (flagged) and at `%*12hhs` (not flagged). -/
theorem HasUnsafePercentS_single_specifier_witness :
    ((∀ d ∈ ([] : Str), d ∈ decimalDigits) ∧ ['l', 'l'] ∈ lengthModifiers ∧
      HasUnsafePercentS (specifier false [] ['l', 'l'] ++ ['s']) = true) ∧
    ((∀ d ∈ ['1', '2'], d ∈ decimalDigits) ∧ ['h', 'h'] ∈ lengthModifiers ∧
      ¬ HasUnsafePercentS (specifier true ['1', '2'] ['h', 'h'] ++ ['s']) = true) :=
  ⟨⟨by decide, by decide,
      ((HasUnsafePercentS_single_specifier false [] ['l', 'l'] 's' (by decide) (by decide)).1).mpr
        ⟨rfl, rfl, rfl⟩⟩,
    ⟨by decide, by decide, fun h =>
      absurd (((HasUnsafePercentS_single_specifier true ['1', '2'] ['h', 'h'] 's'
        (by decide) (by decide)).1).mp h).2.1 (by decide)⟩⟩

/-- C10: a format made of literal text without `%` followed by an incomplete specifier (`%`,
optional `*`, digits, optional length modifier, then the end of the string) is not flagged;
so are `%`, `%*`, `%9`, `%l` and `abc%ll`. -/
theorem HasUnsafePercentS_truncated_specifier (lit : Str) (star : Bool) (digits lenmod : Str)
    (hl : '%' ∉ lit) (hd : ∀ d ∈ digits, d ∈ decimalDigits) (hm : lenmod ∈ lengthModifiers) :
    HasUnsafePercentS (lit ++ specifier star digits lenmod) = false ∧
    HasUnsafePercentS "%".toList = false ∧ HasUnsafePercentS "%*".toList = false ∧
    HasUnsafePercentS "%9".toList = false ∧ HasUnsafePercentS "%l".toList = false ∧
    HasUnsafePercentS "abc%ll".toList = false :=
  ⟨hasUnsafe_truncated lit star digits lenmod hl hd hm,
    by decide, by decide, by decide, by decide, by decide⟩

/-- C10 at `see %*12hh`. -/
theorem HasUnsafePercentS_truncated_specifier_witness :
    '%' ∉ "see ".toList ∧ (∀ d ∈ ['1', '2'], d ∈ decimalDigits) ∧
    ['h', 'h'] ∈ lengthModifiers ∧
    HasUnsafePercentS ("see ".toList ++ specifier true ['1', '2'] ['h', 'h']) = false :=
  ⟨by decide, by decide, by decide,
    (HasUnsafePercentS_truncated_specifier "see ".toList true ['1', '2'] ['h', 'h']
      (by decide) (by decide) (by decide)).1⟩

/-! ## The scanf format rule (C8, C9) -/

theorem FindScanfUnsafePercentS_loop_succ (fp raw sanitized : Str) (idx : LineIndex)
    (fuel pos : Nat) (out : ScanResult) :
    FindScanfUnsafePercentS.loop fp raw sanitized idx (fuel + 1) pos out =
      if pos < sanitized.length then
        match find sanitized "scanf".toList pos with
        | none => some out
        | some found =>
          FindScanfUnsafePercentS.loop fp raw sanitized idx fuel (found + 5)
            (FindScanfUnsafePercentS.visit fp raw sanitized idx found out)
      else some out := by
  rw [FindScanfUnsafePercentS.loop]
  simp only [FindScanfUnsafePercentS.visit]
  have e : "scanf".toList.length = 5 := rfl
  simp only [e]
  by_cases hp : pos < sanitized.length
  · simp only [hp, if_true]
    cases find sanitized "scanf".toList pos with
    | none => rfl
    | some found =>
      simp only []
      split_ifs <;> rfl
  · simp only [hp, if_false]

theorem LineIndex_Build_loop_eq (fuel : Nat) : ∀ (rest pre : Str) (starts : List Nat),
    rest.length ≤ fuel →
    LineIndex.Build.loop (pre ++ rest) fuel pre.length starts
      = starts ++ newlineStarts pre.length rest := by
  induction fuel with
  | zero =>
    intro rest pre starts h
    have : rest = [] := List.length_eq_zero.mp (by omega)
    subst this
    simp [LineIndex.Build.loop, newlineStarts]
  | succ f ih =>
    intro rest pre starts h
    cases rest with
    | nil => simp [LineIndex.Build.loop, newlineStarts]
    | cons c r =>
      have hr : r.length ≤ f := by simp at h; omega
      have step := fun st => ih r (pre ++ [c]) st hr
      simp only [List.append_assoc, List.singleton_append, List.length_append,
        List.length_singleton] at step
      simp only [LineIndex.Build.loop, List.length_append, List.length_cons,
        charAt_append_cons, newlineStarts, step]
      have : pre.length < pre.length + (r.length + 1) := by omega
      simp only [this, if_true]
      split_ifs <;> simp

theorem LineIndex_Build_eq (text : Str) :
    (LineIndex.Build text).line_starts = 0 :: newlineStarts 0 text := by
  have := LineIndex_Build_loop_eq text.length text [] [0] (Nat.le_refl _)
  simpa [LineIndex.Build] using this

theorem newlineStarts_gt : ∀ (r : Str) (i : Nat), ∀ x ∈ newlineStarts i r, i < x
  | [], _, x, h => by simp [newlineStarts] at h
  | c :: r, i, x, h => by
    simp only [newlineStarts] at h
    split_ifs at h
    · rcases List.mem_cons.mp h with e | e
      · omega
      · have := newlineStarts_gt r (i + 1) x e; omega
    · have := newlineStarts_gt r (i + 1) x h; omega

theorem newlineStarts_append_of_no_newline : ∀ (pre rest : Str) (i : Nat), '\n' ∉ pre →
    newlineStarts i (pre ++ rest) = newlineStarts (i + pre.length) rest
  | [], rest, i, _ => by simp
  | c :: pre, rest, i, h => by
    have hc : c ≠ '\n' := fun e => h (by simp [e])
    have hp : '\n' ∉ pre := fun e => h (List.mem_cons_of_mem _ e)
    have ih := newlineStarts_append_of_no_newline pre rest (i + 1) hp
    rw [List.cons_append, newlineStarts, if_neg hc, ih, List.length_cons]
    congr 1; omega

/-- When every later line start lies beyond `index`, the binary search stays on line 1. -/
theorem LineIndex_LineFromIndex_loop_first (tl : List Nat) (index : Nat)
    (h : ∀ x ∈ tl, index < x) : ∀ (fuel hi : Nat), hi ≤ tl.length + 1 →
    LineIndex.LineFromIndex.loop (0 :: tl) index fuel 0 hi = 0 := by
  intro fuel
  induction fuel with
  | zero => intro hi _; rfl
  | succ f ih =>
    intro hi hhi
    simp only [LineIndex.LineFromIndex.loop]
    split_ifs with h1 h2
    · exfalso
      have hm : 0 + (hi - 0) / 2 = (hi / 2 - 1) + 1 := by omega
      rw [hm, List.getD_cons_succ] at h2
      have hlt : hi / 2 - 1 < tl.length := by omega
      rw [List.getD_eq_getElem _ _ hlt] at h2
      have := h _ (List.getElem_mem hlt)
      omega
    · exact ih _ (by omega)
    · rfl

theorem LineIndex_first_line (text : Str) (index : Nat)
    (h : ∀ x ∈ newlineStarts 0 text, index < x) :
    (LineIndex.Build text).LineFromIndex index = 1 ∧
    (LineIndex.Build text).ColFromIndex index 1 = index + 1 := by
  unfold LineIndex.LineFromIndex LineIndex.ColFromIndex
  rw [LineIndex_Build_eq]
  constructor
  · simp only [List.isEmpty_cons, Bool.false_eq_true, if_false]
    rw [LineIndex_LineFromIndex_loop_first _ _ h _ _ (by simp)]
  · simp

theorem find_eq_some_iff (s name : Str) (pos p : Nat) :
    find s name pos = some p ↔
      pos ≤ p ∧ p ≤ s.length ∧ readsAt s name p ∧ ∀ q, pos ≤ q → q < p → ¬ readsAt s name q := by
  unfold find
  rw [List.find?_range'_eq_some, List.mem_range'_1]
  simp only [decide_eq_true_eq, Bool.not_eq_true', decide_eq_false_iff_not]
  constructor
  · rintro ⟨h1, ⟨h2, h3⟩, h4⟩
    exact ⟨h2, by omega, h1, h4⟩
  · rintro ⟨h1, h2, h3, h4⟩
    exact ⟨h3, ⟨h1, by omega⟩, h4⟩

theorem find_eq_none_iff (s name : Str) (pos : Nat) :
    find s name pos = none ↔ ∀ q, pos ≤ q → q ≤ s.length → ¬ readsAt s name q := by
  unfold find
  rw [List.find?_range'_eq_none]
  simp only [Bool.not_eq_true', decide_eq_false_iff_not]
  constructor
  · intro h q h1 h2
    exact h q h1 (by omega)
  · intro h q h1 h2
    exact h q h1 (by omega)


theorem SkipSpaces_of_not_space (s : Str) (i : Nat) (h : i < s.length)
    (hc : isSpaceByte (charAt s i) = false) : SkipSpaces s i = i :=
  SkipSpaces_eq_of_first s i i (Nat.le_refl _) h hc (fun k h1 h2 => absurd h2 (by omega))

/-- Reading a literal whose content has no backslash, quote or newline: the loop returns the
content and stops after the closing quote. -/
theorem ReadStringLiteralAt_loop_plain : ∀ (fmt pre rest out : Str) (fuel : Nat),
    '"' ∉ fmt → '\\' ∉ fmt → '\n' ∉ fmt → fmt.length < fuel →
    ReadStringLiteralAt.loop (pre ++ (fmt ++ '"' :: rest)) fuel pre.length out
      = (out ++ fmt, pre.length + fmt.length + 1)
  | [], pre, rest, out, fuel, _, _, _, hf => by
    obtain ⟨f, rfl⟩ : ∃ f, fuel = f + 1 := ⟨fuel - 1, by simp at hf; omega⟩
    simp [ReadStringLiteralAt.loop, charAt_append_cons]
  | c :: fmt, pre, rest, out, fuel, h1, h2, h3, hf => by
    obtain ⟨f, rfl⟩ : ∃ f, fuel = f + 1 := ⟨fuel - 1, by simp at hf; omega⟩
    have a1 : c ≠ '"' := fun e => h1 (by simp [e])
    have a2 : c ≠ '\\' := fun e => h2 (by simp [e])
    have a3 : c ≠ '\n' := fun e => h3 (by simp [e])
    have ih := ReadStringLiteralAt_loop_plain fmt (pre ++ [c]) rest (out ++ [c]) f
      (fun e => h1 (List.mem_cons_of_mem _ e)) (fun e => h2 (List.mem_cons_of_mem _ e))
      (fun e => h3 (List.mem_cons_of_mem _ e)) (by simp at hf; omega)
    simp only [List.append_assoc, List.singleton_append, List.length_append,
      List.length_singleton] at ih
    simp only [ReadStringLiteralAt.loop, List.cons_append, charAt_append_cons, a1, a2, a3,
      if_false, List.length_append, List.length_cons, ih]
    have : pre.length < pre.length + (fmt.length + (rest.length + 1) + 1) := by omega
    simp only [this, if_true]
    congr 1; omega

theorem ReadStringLiteralAt_plain (pre fmt rest : Str)
    (h1 : '"' ∉ fmt) (h2 : '\\' ∉ fmt) (h3 : '\n' ∉ fmt) :
    ReadStringLiteralAt (pre ++ '"' :: (fmt ++ '"' :: rest)) pre.length
      = (fmt, pre.length + fmt.length + 2) := by
  unfold ReadStringLiteralAt
  rw [if_neg (by simp [charAt_append_cons])]
  have e : pre ++ '"' :: (fmt ++ '"' :: rest) = (pre ++ ['"']) ++ (fmt ++ '"' :: rest) := by simp
  have := ReadStringLiteralAt_loop_plain fmt (pre ++ ['"']) rest []
    ((pre ++ '"' :: (fmt ++ '"' :: rest)).length - (pre.length + 1)) h1 h2 h3
    (by simp; omega)
  rw [← e] at this
  simp only [List.length_append, List.length_singleton, List.nil_append] at this ⊢
  rw [this]
  congr 1
  omega


theorem sanFrom_scanf_prefix (X : Str) :
    sanFrom State.Normal ("scanf(".toList ++ X) = "scanf(".toList ++ sanFrom State.Normal X := by
  show sanFrom State.Normal ('s' :: 'c' :: 'a' :: 'n' :: 'f' :: '(' :: X) = _
  rw [sanFrom_normal_copy 's' _ (by decide) (by decide) (by simp),
    sanFrom_normal_copy 'c' _ (by decide) (by decide) (by simp),
    sanFrom_normal_copy 'a' _ (by decide) (by decide) (by simp),
    sanFrom_normal_copy 'n' _ (by decide) (by decide) (by simp),
    sanFrom_normal_copy 'f' _ (by decide) (by decide) (by simp),
    sanFrom_normal_copy '(' _ (by decide) (by decide) (by simp)]
  rfl

theorem FindScanfUnsafePercentS_visit_scanfCall (fp fmt rest : Str) (hne : fmt ≠ [])
    (h1 : '"' ∉ fmt) (h2 : '\\' ∉ fmt) (h3 : '\n' ∉ fmt) (out : ScanResult) :
    FindScanfUnsafePercentS.visit fp (scanfCall fmt rest)
        (SanitizeKeepLayout (scanfCall fmt rest)) (LineIndex.Build (scanfCall fmt rest)) 0 out =
      if HasUnsafePercentS fmt then
        AddFinding out fp 1 7 "CG0002".toList Severity.High
          "scanf format uses %s without width (potential overflow)".toList
          ((LineIndex.Build (scanfCall fmt rest)).LineText (scanfCall fmt rest) 1)
      else out := by
  have hraw : scanfCall fmt rest = "scanf(".toList ++ '"' :: (fmt ++ '"' :: rest) := by
    simp [scanfCall]
  have hS : SanitizeKeepLayout (scanfCall fmt rest) =
      "scanf(".toList ++ sanFrom State.Normal ('"' :: (fmt ++ '"' :: rest)) := by
    rw [SanitizeKeepLayout_eq, hraw, sanFrom_scanf_prefix]
  have hcall : LooksLikeCallAt (SanitizeKeepLayout (scanfCall fmt rest)) 0 5 = true := by
    rw [hS]
    have hlen : 5 < ("scanf(".toList ++ sanFrom State.Normal ('"' :: (fmt ++ '"' :: rest))).length := by
      simp
    have hch : charAt ("scanf(".toList ++ sanFrom State.Normal ('"' :: (fmt ++ '"' :: rest))) 5 = '(' := rfl
    have hsk := SkipSpaces_of_not_space _ 5 hlen (by rw [hch]; decide)
    unfold LooksLikeCallAt IsWordBoundaryBefore IsWordBoundaryAfter
    simp only [Nat.zero_add, hsk, hch, if_true]
    have hge : ¬ (5 ≥ ("scanf(".toList ++
        sanFrom State.Normal ('"' :: (fmt ++ '"' :: rest))).length) := by omega
    have hid : IsIdentChar '(' = false := by decide
    simp [hge, hid]
  have hlen5 : 5 < (scanfCall fmt rest).length := by simp [scanfCall]
  have hlen6 : 6 < (scanfCall fmt rest).length := by simp [scanfCall]
  have hc5 : charAt (scanfCall fmt rest) 5 = '(' := by rw [hraw]; rfl
  have hc6 : charAt (scanfCall fmt rest) 6 = '"' := by rw [hraw]; rfl
  have hs5 := SkipSpaces_of_not_space _ 5 hlen5 (by rw [hc5]; decide)
  have hs6 := SkipSpaces_of_not_space _ 6 hlen6 (by rw [hc6]; decide)
  have hread : (ReadStringLiteralAt (scanfCall fmt rest) 6).1 = fmt := by
    rw [hraw]
    have := ReadStringLiteralAt_plain "scanf(".toList fmt rest h1 h2 h3
    have e6 : "scanf(".toList.length = 6 := rfl
    rw [e6] at this
    rw [this]
  have hline : ∀ x ∈ newlineStarts 0 (scanfCall fmt rest), 6 < x := by
    have e : scanfCall fmt rest = ("scanf(\"".toList ++ fmt) ++ '"' :: rest := rfl
    have hno : '\n' ∉ "scanf(\"".toList ++ fmt := by
      intro hm
      rcases List.mem_append.mp hm with hm | hm
      · exact absurd hm (by decide)
      · exact h3 hm
    rw [e, newlineStarts_append_of_no_newline _ _ 0 hno]
    intro x hx
    have := newlineStarts_gt _ _ x hx
    simp at this
    omega
  obtain ⟨hl, hcol⟩ := LineIndex_first_line (scanfCall fmt rest) 6 hline
  have hemp : fmt.isEmpty = false := by
    cases fmt with
    | nil => exact absurd rfl hne
    | cons _ _ => rfl
  unfold FindScanfUnsafePercentS.visit
  simp only [hcall, Bool.not_true, Bool.false_eq_true, if_false, Nat.zero_add, hs5, hc5, hs6,
    hc6, hread, hemp, hl, hcol, ne_eq, not_true_eq_false, or_false]
  rw [if_neg (by omega), if_neg (by omega)]


theorem FindScanfUnsafePercentS_loop_done (fp raw S : Str) (idx : LineIndex)
    (fuel pos : Nat) (out : ScanResult) (hf : 0 < fuel)
    (hnone : ∀ q, pos ≤ q → ¬ readsAt S "scanf".toList q) :
    FindScanfUnsafePercentS.loop fp raw S idx fuel pos out = some out := by
  obtain ⟨f, rfl⟩ : ∃ f, fuel = f + 1 := ⟨fuel - 1, by omega⟩
  rw [FindScanfUnsafePercentS_loop_succ]
  have : find S "scanf".toList pos = none :=
    (find_eq_none_iff _ _ _).mpr (fun q h1 _ => hnone q h1)
  rw [this]
  split_ifs <;> rfl

theorem scanfFindings_scanfCall (fp fmt rest : Str) (hne : fmt ≠ [])
    (h1 : '"' ∉ fmt) (h2 : '\\' ∉ fmt) (h3 : '\n' ∉ fmt)
    (honly : ∀ p, readsAt (SanitizeKeepLayout (scanfCall fmt rest)) "scanf".toList p → p = 0) :
    scanfFindings fp (scanfCall fmt rest) =
      some (if HasUnsafePercentS fmt then
        [⟨fp, 1, 7, "CG0002".toList, Severity.High,
          "scanf format uses %s without width (potential overflow)".toList,
          (LineIndex.Build (scanfCall fmt rest)).LineText (scanfCall fmt rest) 1⟩]
      else []) := by
  have hraw : scanfCall fmt rest = "scanf(".toList ++ '"' :: (fmt ++ '"' :: rest) := by
    simp [scanfCall]
  have hS : SanitizeKeepLayout (scanfCall fmt rest) =
      "scanf(".toList ++ sanFrom State.Normal ('"' :: (fmt ++ '"' :: rest)) := by
    rw [SanitizeKeepLayout_eq, hraw, sanFrom_scanf_prefix]
  have hr0 : readsAt (SanitizeKeepLayout (scanfCall fmt rest)) "scanf".toList 0 := by
    rw [hS]; rfl
  have hlen : 0 < (SanitizeKeepLayout (scanfCall fmt rest)).length := by
    rw [hS]; simp
  have hfind : find (SanitizeKeepLayout (scanfCall fmt rest)) "scanf".toList 0 = some 0 :=
    (find_eq_some_iff _ _ _ _).mpr ⟨Nat.le_refl _, Nat.zero_le _, hr0, fun q _ hq => absurd hq (by omega)⟩
  unfold scanfFindings FindScanfUnsafePercentS
  rw [FindScanfUnsafePercentS_loop_succ, if_pos hlen, hfind]
  simp only []
  rw [FindScanfUnsafePercentS_loop_done _ _ _ _ _ _ _ hlen
    (fun q hq hr => absurd (honly q hr) (by omega)),
    FindScanfUnsafePercentS_visit_scanfCall fp fmt rest hne h1 h2 h3]
  split_ifs <;> rfl


/-- `SkipSpaces` returns `j` when everything from `i` up to `j` is whitespace and `j` is the
end of the buffer or holds a byte that is not whitespace. -/
theorem SkipSpaces_eq (s : Str) (i j : Nat) (hij : i ≤ j) (hj : j ≤ s.length)
    (hns : j < s.length → isSpaceByte (charAt s j) = false)
    (hsp : ∀ k, i ≤ k → k < j → isSpaceByte (charAt s k) = true) : SkipSpaces s i = j := by
  obtain ⟨h1, h2, h3⟩ := SkipSpaces_spec s i
  rcases Nat.lt_trichotomy (SkipSpaces s i) j with h | h | h
  · have := h3 (by omega)
    rw [hsp _ h1 h] at this
    exact absurd this (by decide)
  · exact h
  · have hh := h2 j hij h
    rw [hns hh.1] at hh
    exact absurd hh.2 (by decide)

/-- A name without a space that the sanitized buffer reads at `p` is read by the raw buffer
at `p` as well. -/
theorem readsAt_of_sanitized (raw name : Str) (p : Nat) (hn : ' ' ∉ name)
    (h : readsAt (SanitizeKeepLayout raw) name p) : readsAt raw name p := by
  unfold readsAt at h ⊢
  have hr := List.forall₂_take name.length (List.forall₂_drop p (sanitize_rel raw))
  rw [h] at hr
  generalize (raw.drop p).take name.length = X at hr
  clear h
  induction hr with
  | nil => rfl
  | @cons a b l1 l2 hab _ ih =>
    have hb : b ≠ ' ' := fun e => hn (by simp [e])
    have : b = a := hab.1.resolve_right hb
    rw [this, ih (fun e => hn (List.mem_cons_of_mem _ e))]

theorem FindScanfUnsafePercentS_loop_unchanged (fp raw S : Str) (idx : LineIndex)
    (out : ScanResult)
    (hv : ∀ found, readsAt S "scanf".toList found →
      FindScanfUnsafePercentS.visit fp raw S idx found out = out) :
    ∀ (fuel pos : Nat), 0 < fuel → S.length < fuel + pos →
    FindScanfUnsafePercentS.loop fp raw S idx fuel pos out = some out := by
  intro fuel
  induction fuel with
  | zero => intro pos h; exact absurd h (by omega)
  | succ f ih =>
    intro pos _ hf
    rw [FindScanfUnsafePercentS_loop_succ]
    split_ifs with hp
    · cases hfind : find S "scanf".toList pos with
      | none => rfl
      | some found =>
        obtain ⟨h1, -, h3, -⟩ := (find_eq_some_iff _ _ _ _).mp hfind
        simp only []
        rw [hv found h3]
        exact ih (found + 5) (by omega) (by omega)
    · rfl

theorem scanfFindings_non_literal (fp raw : Str) (p a b : Nat)
    (honly : ∀ q, readsAt raw "scanf".toList q → q = p)
    (ha : p + 5 ≤ a) (hws1 : ∀ k, p + 5 ≤ k → k < a → charAt raw k ∈ [' ', '\t', '\r', '\n'])
    (ha2 : a < raw.length) (hopen : charAt raw a = '(')
    (hab : a < b) (hws2 : ∀ k, a < k → k < b → charAt raw k ∈ [' ', '\t', '\r', '\n'])
    (hb : b < raw.length → charAt raw b ∉ [' ', '\t', '\r', '\n', '"']) :
    scanfFindings fp raw = some [] := by
  have hble : b ≤ raw.length := by
    by_contra hcon
    have := hws2 raw.length ha2 (by omega)
    rw [charAt_of_le raw _ (Nat.le_refl _)] at this
    exact absurd this (by decide)
  have hsa : SkipSpaces raw (p + 5) = a :=
    SkipSpaces_eq raw (p + 5) a ha (by omega) (fun _ => by rw [hopen]; decide)
      (fun k h1 h2 => (isSpaceByte_iff _).mpr (hws1 k h1 h2))
  have hsb : SkipSpaces raw (a + 1) = b :=
    SkipSpaces_eq raw (a + 1) b hab hble
      (fun h => by
        have := hb h
        cases hsp : isSpaceByte (charAt raw b) with
        | false => rfl
        | true =>
          have h2 := (isSpaceByte_iff _).mp hsp
          exact absurd (List.mem_append_left ['"'] h2) this)
      (fun k h1 h2 => (isSpaceByte_iff _).mpr (hws2 k h1 h2))
  have hv : ∀ found, readsAt (SanitizeKeepLayout raw) "scanf".toList found →
      FindScanfUnsafePercentS.visit fp raw (SanitizeKeepLayout raw) (LineIndex.Build raw) found
        ScanResult.empty = ScanResult.empty := by
    intro found hr
    have := honly found (readsAt_of_sanitized raw _ found (by decide) hr)
    subst this
    unfold FindScanfUnsafePercentS.visit
    simp only [hsa, hsb, hopen]
    have hq : b ≥ raw.length ∨ charAt raw b ≠ '"' := by
      by_cases h : b < raw.length
      · right
        intro e
        exact hb h (by rw [e]; decide)
      · left; omega
    simp only [hq, if_true]
    split_ifs <;> rfl
  unfold scanfFindings FindScanfUnsafePercentS
  rw [FindScanfUnsafePercentS_loop_unchanged fp raw _ _ _ hv _ _ (by omega) (by omega)]
  rfl


theorem readsAt_lt (s name : Str) (p : Nat) (hn : name ≠ []) (h : readsAt s name p) :
    p < s.length := by
  by_contra hp
  unfold readsAt at h
  rw [List.drop_eq_nil_of_le (by omega)] at h
  exact hn (by simpa using h.symm)

/-- C8: for a raw buffer `scanf("` + `fmt` + `"` + `rest` with `fmt` non-empty and free of
quote, backslash and newline, whose sanitized buffer reads `scanf` only at offset 0, the
format rule gives exactly one finding (CG0002, line 1, column 7: the opening quote) when
`HasUnsafePercentS fmt` and none otherwise; `scanf("%s%s", a, b);` gives exactly one. -/
theorem scanf_rule_one_finding_per_call (fp fmt rest : Str) (hne : fmt ≠ [])
    (h1 : '"' ∉ fmt) (h2 : '\\' ∉ fmt) (h3 : '\n' ∉ fmt)
    (honly : ∀ p, readsAt (SanitizeKeepLayout (scanfCall fmt rest)) "scanf".toList p → p = 0) :
    scanfFindings fp (scanfCall fmt rest) =
      some (if HasUnsafePercentS fmt then
        [⟨fp, 1, 7, "CG0002".toList, Severity.High,
          "scanf format uses %s without width (potential overflow)".toList,
          (LineIndex.Build (scanfCall fmt rest)).LineText (scanfCall fmt rest) 1⟩]
      else []) ∧
    scanfFindings fp "scanf(\"%s%s\", a, b);".toList =
      some [⟨fp, 1, 7, "CG0002".toList, Severity.High,
        "scanf format uses %s without width (potential overflow)".toList,
        "scanf(\"%s%s\", a, b);".toList⟩] :=
  ⟨scanfFindings_scanfCall fp fmt rest hne h1 h2 h3 honly, rfl⟩

/-- C8 at `scanf("%9s %s", a, b); // scanf("%s")`: one finding for two specifiers, and the
call in the comment is not seen. -/
theorem scanf_rule_one_finding_per_call_witness :
    ("%9s %s".toList ≠ [] ∧ '"' ∉ "%9s %s".toList ∧ '\\' ∉ "%9s %s".toList ∧
      '\n' ∉ "%9s %s".toList ∧
      ∀ p, readsAt (SanitizeKeepLayout
        (scanfCall "%9s %s".toList ", a, b); // scanf(\"%s\")".toList)) "scanf".toList p →
        p = 0) ∧
    scanfFindings [] (scanfCall "%9s %s".toList ", a, b); // scanf(\"%s\")".toList) =
      some (if HasUnsafePercentS "%9s %s".toList then
        [⟨[], 1, 7, "CG0002".toList, Severity.High,
          "scanf format uses %s without width (potential overflow)".toList,
          (LineIndex.Build (scanfCall "%9s %s".toList ", a, b); // scanf(\"%s\")".toList)).LineText
            (scanfCall "%9s %s".toList ", a, b); // scanf(\"%s\")".toList) 1⟩]
      else []) :=
  have honly : ∀ p, readsAt (SanitizeKeepLayout
      (scanfCall "%9s %s".toList ", a, b); // scanf(\"%s\")".toList)) "scanf".toList p →
      p = 0 := fun p hp =>
    (by decide : ∀ q, q < (SanitizeKeepLayout
        (scanfCall "%9s %s".toList ", a, b); // scanf(\"%s\")".toList)).length →
      readsAt (SanitizeKeepLayout
        (scanfCall "%9s %s".toList ", a, b); // scanf(\"%s\")".toList)) "scanf".toList q → q = 0)
      p (readsAt_lt _ _ p (by decide) hp) hp
  ⟨⟨by decide, by decide, by decide, by decide, honly⟩,
    (scanf_rule_one_finding_per_call [] "%9s %s".toList ", a, b); // scanf(\"%s\")".toList
      (by decide) (by decide) (by decide) (by decide) honly).1⟩

/-- C9: when the only occurrence of `scanf` in the raw buffer (at `p`) is followed by
whitespace, `(` at `a`, whitespace, and then at `b` the end of the buffer or a byte that is
neither whitespace nor a double quote, the format rule gives no finding, whatever follows;
so does `scanf(fmt, "%s");`. -/
theorem scanf_rule_non_literal_format (fp raw : Str) (p a b : Nat)
    (honly : ∀ q, readsAt raw "scanf".toList q → q = p)
    (ha : p + 5 ≤ a) (hws1 : ∀ k, p + 5 ≤ k → k < a → charAt raw k ∈ [' ', '\t', '\r', '\n'])
    (ha2 : a < raw.length) (hopen : charAt raw a = '(')
    (hab : a < b) (hws2 : ∀ k, a < k → k < b → charAt raw k ∈ [' ', '\t', '\r', '\n'])
    (hb : b < raw.length → charAt raw b ∉ [' ', '\t', '\r', '\n', '"']) :
    scanfFindings fp raw = some [] ∧
    scanfFindings fp "scanf(fmt, \"%s\");".toList = some [] :=
  ⟨scanfFindings_non_literal fp raw p a b honly ha hws1 ha2 hopen hab hws2 hb, rfl⟩

/-- C9 at `n = scanf ( buf, "%s");` with `scanf` at 4, `(` at 10 and `b` of `buf` at 12. -/
theorem scanf_rule_non_literal_format_witness :
    ((∀ q, readsAt "n = scanf ( buf, \"%s\");".toList "scanf".toList q → q = 4) ∧
      charAt "n = scanf ( buf, \"%s\");".toList 10 = '(' ∧
      charAt "n = scanf ( buf, \"%s\");".toList 12 ∉ [' ', '\t', '\r', '\n', '"']) ∧
    scanfFindings [] "n = scanf ( buf, \"%s\");".toList = some [] :=
  have honly : ∀ q, readsAt "n = scanf ( buf, \"%s\");".toList "scanf".toList q → q = 4 :=
    fun q hq =>
      (by decide : ∀ r, r < "n = scanf ( buf, \"%s\");".toList.length →
        readsAt "n = scanf ( buf, \"%s\");".toList "scanf".toList r → r = 4)
        q (readsAt_lt _ _ q (by decide) hq) hq
  ⟨⟨honly, by decide, by decide⟩,
    (scanf_rule_non_literal_format [] "n = scanf ( buf, \"%s\");".toList 4 10 12 honly
      (by decide) (by decide) (by decide) (by decide) (by decide)
      (fun k h1 h2 => by
        have : k = 11 := by omega
        subst this
        decide)
      (fun _ => by decide)).1⟩

/-! ## The supplied fuel is enough -/

theorem skipModifier_length_le (l : Str) : (skipModifier l).length ≤ l.length :=
  (skipModifier_suffix l).length_le

theorem hasUnsafeFrom_fuel_congr : ∀ (f1 f2 : Nat) (l : Str), l.length ≤ f1 → l.length ≤ f2 →
    hasUnsafeFrom f1 l = hasUnsafeFrom f2 l := by
  intro f1
  induction f1 with
  | zero =>
    intro f2 l h1 _
    have : l = [] := List.length_eq_zero.mp (by omega)
    subst this
    rw [hasUnsafeFrom_nil, hasUnsafeFrom_nil]
  | succ f ih =>
    intro f2 l h1 h2
    cases l with
    | nil => rw [hasUnsafeFrom_nil, hasUnsafeFrom_nil]
    | cons c r =>
      obtain ⟨g, rfl⟩ : ∃ g, f2 = g + 1 := ⟨f2 - 1, by simp at h2; omega⟩
      have hr1 : r.length ≤ f := by simp at h1; omega
      have hr2 : r.length ≤ g := by simp at h2; omega
      have ht : r.tail.length ≤ r.length := (List.tail_suffix r).length_le
      have key : ∀ (sup w : Bool) (r2 : Str), r2.length ≤ r.length →
          (match skipModifier (r2.dropWhile isdigit) with
            | [] => false
            | conv :: r5 =>
              if conv = 's' ∧ (!sup) = true ∧ (!w) = true then true else hasUnsafeFrom f r5) =
          (match skipModifier (r2.dropWhile isdigit) with
            | [] => false
            | conv :: r5 =>
              if conv = 's' ∧ (!sup) = true ∧ (!w) = true then true else hasUnsafeFrom g r5) := by
        intro sup w r2 h2l
        have hlen := (skipModifier_length_le (r2.dropWhile isdigit)).trans
          (List.dropWhile_suffix (l := r2) isdigit).length_le
        split
        · rfl
        · rename_i conv r5 heq
          rw [heq] at hlen
          simp only [List.length_cons] at hlen
          rw [ih g r5 (by omega) (by omega)]
      simp only [hasUnsafeFrom]
      by_cases hc : c ≠ '%'
      · rw [if_pos hc, if_pos hc]; exact ih g r hr1 hr2
      · rw [if_neg hc, if_neg hc]
        by_cases hp : r.head? = some '%'
        · rw [if_pos hp, if_pos hp]; exact ih g r.tail (by omega) (by omega)
        · rw [if_neg hp, if_neg hp]
          by_cases hs : r.head? = some '*'
          · simp only [hs, decide_True, if_true]
            exact key _ _ _ ht
          · simp only [hs, decide_False, Bool.false_eq_true, if_false]
            exact key _ _ _ (Nat.le_refl _)

/-- More fuel than `fmt.size()` does not change the answer of `HasUnsafePercentS`: the loop
leaves through its own exit, not by running out of fuel. -/
theorem HasUnsafePercentS_fuel (fmt : Str) (fuel : Nat) (h : fmt.length ≤ fuel) :
    HasUnsafePercentS.loop fmt fuel 0 = HasUnsafePercentS fmt := by
  unfold HasUnsafePercentS
  rw [HasUnsafePercentS_loop_eq, HasUnsafePercentS_loop_eq]
  exact hasUnsafeFrom_fuel_congr _ _ _ h (Nat.le_refl _)

/-- More fuel than `hi - lo` does not change the result of the binary search. -/
theorem LineIndex_LineFromIndex_loop_fuel (ls : List Nat) (index : Nat) :
    ∀ (f1 f2 lo hi : Nat), hi - lo ≤ f1 → hi - lo ≤ f2 →
    LineIndex.LineFromIndex.loop ls index f1 lo hi
      = LineIndex.LineFromIndex.loop ls index f2 lo hi := by
  intro f1
  induction f1 with
  | zero =>
    intro f2 lo hi h1 _
    cases f2 with
    | zero => rfl
    | succ g =>
      simp only [LineIndex.LineFromIndex.loop]
      rw [if_neg (by omega)]
  | succ f ih =>
    intro f2 lo hi h1 h2
    cases f2 with
    | zero =>
      simp only [LineIndex.LineFromIndex.loop]
      rw [if_neg (by omega)]
    | succ g =>
      simp only [LineIndex.LineFromIndex.loop]
      split_ifs with hlt hle
      · exact ih g _ _ (by omega) (by omega)
      · exact ih g _ _ (by omega) (by omega)
      · rfl

/-- More fuel than the number of unread bytes does not change what `ReadStringLiteralAt`
returns. -/
theorem ReadStringLiteralAt_loop_fuel (raw : Str) :
    ∀ (f1 f2 i : Nat) (out : Str), raw.length - i ≤ f1 → raw.length - i ≤ f2 →
    ReadStringLiteralAt.loop raw f1 i out = ReadStringLiteralAt.loop raw f2 i out := by
  intro f1
  induction f1 with
  | zero =>
    intro f2 i out h1 _
    cases f2 with
    | zero => rfl
    | succ g =>
      simp only [ReadStringLiteralAt.loop]
      rw [if_neg (by omega)]
  | succ f ih =>
    intro f2 i out h1 h2
    cases f2 with
    | zero =>
      simp only [ReadStringLiteralAt.loop]
      rw [if_neg (by omega)]
    | succ g =>
      simp only [ReadStringLiteralAt.loop]
      split_ifs
      · exact ih g _ _ (by omega) (by omega)
      · exact ih g _ _ (by omega) (by omega)
      · rfl
      · rfl
      · exact ih g _ _ (by omega) (by omega)
      · rfl

/-! ## Comments and unterminated literals (C18, C19, C20) -/

theorem sanFrom_normal_line_open (Y : Str) :
    sanFrom State.Normal ('/' :: '/' :: Y) = ' ' :: ' ' :: sanFrom State.LineComment Y := by
  rw [sanFrom]; simp

theorem sanFrom_normal_block_open (Y : Str) :
    sanFrom State.Normal ('/' :: '*' :: Y) = ' ' :: ' ' :: sanFrom State.BlockComment Y := by
  rw [sanFrom]
  have : ¬ ('*' = '/') := by decide
  simp [this]

theorem sanFrom_line_until_newline : ∀ (s t : Str), '\n' ∉ s →
    sanFrom State.LineComment (s ++ '\n' :: t)
      = List.replicate s.length ' ' ++ '\n' :: sanFrom State.Normal t
  | [], t, _ => by simp [sanFrom]
  | c :: s, t, h => by
    have hc : c ≠ '\n' := fun e => h (by simp [e])
    have ih := sanFrom_line_until_newline s t (fun e => h (List.mem_cons_of_mem _ e))
    rw [List.cons_append, sanFrom, if_neg hc, ih]
    simp [List.replicate_succ]

theorem sanFrom_string_until_newline : ∀ (s t : Str) (st : State),
    st = State.String ∨ st = State.StringEscape → '"' ∉ s → '\n' ∉ s →
    sanFrom st (s ++ '\n' :: t)
      = List.replicate s.length ' ' ++ '\n' :: sanFrom State.Normal t
  | [], t, st, hst, _, _ => by
    rcases hst with rfl | rfl <;> simp [sanFrom]
  | c :: s, t, st, hst, h1, h2 => by
    have a1 : c ≠ '"' := fun e => h1 (by simp [e])
    have a2 : c ≠ '\n' := fun e => h2 (by simp [e])
    have ih := fun st' hst' => sanFrom_string_until_newline s t st' hst'
      (fun e => h1 (List.mem_cons_of_mem _ e)) (fun e => h2 (List.mem_cons_of_mem _ e))
    rcases hst with rfl | rfl
    · rw [List.cons_append, sanFrom]
      by_cases hb : c = '\\'
      · rw [if_pos hb, ih _ (Or.inr rfl)]; simp [List.replicate_succ]
      · rw [if_neg hb, if_neg a1, if_neg a2, ih _ (Or.inl rfl)]; simp [List.replicate_succ]
    · rw [List.cons_append, sanFrom, if_neg a2, ih _ (Or.inl rfl)]; simp [List.replicate_succ]

theorem sanFrom_block_unclosed : ∀ s : Str, ¬ (['*', '/'] <:+: s) →
    sanFrom State.BlockComment s = s.map placeholder
  | [], _ => by simp [sanFrom]
  | [c], _ => by
    rw [sanFrom]
    simp only [placeholder, List.map_cons, List.map_nil]
    split_ifs <;> rfl
  | c :: d :: s, h => by
    have hs : ¬ (['*', '/'] <:+: d :: s) :=
      fun e => h (List.IsInfix.trans e (List.suffix_cons c _).isInfix)
    have ih := sanFrom_block_unclosed (d :: s) hs
    rw [sanFrom]
    split_ifs with h1 h2
    · obtain ⟨rfl, rfl⟩ := h1
      exact absurd (List.prefix_append ['*', '/'] s).isInfix h
    · rw [ih]; simp [placeholder, h2]
    · rw [ih]; simp [placeholder, h2]

/-- C18: for `s` without newline and any `t`, sanitizing `//` + `s` + newline + `t` gives
`2 + len(s)` spaces, the newline, and the sanitized `t`. -/
theorem line_comment_ends_at_newline (s t : Str) (h : '\n' ∉ s) :
    SanitizeKeepLayout ("//".toList ++ s ++ "\n".toList ++ t) =
      List.replicate (2 + s.length) ' ' ++ "\n".toList ++ SanitizeKeepLayout t := by
  rw [SanitizeKeepLayout_eq, SanitizeKeepLayout_eq]
  show sanFrom State.Normal (('/' :: '/' :: s) ++ ['\n'] ++ t) = _
  simp only [List.cons_append, List.append_assoc, List.singleton_append, List.nil_append]
  rw [sanFrom_normal_line_open, sanFrom_line_until_newline s t h]
  have : 2 + s.length = s.length + 1 + 1 := by omega
  rw [this]
  rfl

/-- C18 at a comment that holds a quote, `/*` and a trailing backslash, followed by a call. -/
theorem line_comment_ends_at_newline_witness :
    '\n' ∉ " \"a /* b\\".toList ∧
    SanitizeKeepLayout ("//".toList ++ " \"a /* b\\".toList ++ "\n".toList ++ "gets(x);".toList) =
      List.replicate (2 + " \"a /* b\\".toList.length) ' ' ++ "\n".toList ++
        SanitizeKeepLayout "gets(x);".toList :=
  ⟨by decide, line_comment_ends_at_newline " \"a /* b\\".toList "gets(x);".toList (by decide)⟩

/-- C19: for `s` without double quote and newline (backslashes allowed, also a trailing one)
and any `t`, sanitizing `"` + `s` + newline + `t` gives `1 + len(s)` spaces, the newline, and
the sanitized `t`. -/
theorem unterminated_string_ends_at_newline (s t : Str) (h1 : '"' ∉ s) (h2 : '\n' ∉ s) :
    SanitizeKeepLayout ("\"".toList ++ s ++ "\n".toList ++ t) =
      List.replicate (1 + s.length) ' ' ++ "\n".toList ++ SanitizeKeepLayout t := by
  rw [SanitizeKeepLayout_eq, SanitizeKeepLayout_eq]
  show sanFrom State.Normal (('"' :: s) ++ ['\n'] ++ t) = _
  simp only [List.cons_append, List.append_assoc, List.singleton_append, List.nil_append]
  rw [sanFrom_normal_dquote, sanFrom_string_until_newline s t _ (Or.inl rfl) h1 h2]
  have : 1 + s.length = s.length + 1 := by omega
  rw [this]
  rfl

/-- C19 at a literal that ends in a backslash, followed by a call on the next line. -/
theorem unterminated_string_ends_at_newline_witness :
    ('"' ∉ "a\\\\b\\".toList ∧ '\n' ∉ "a\\\\b\\".toList) ∧
    SanitizeKeepLayout ("\"".toList ++ "a\\\\b\\".toList ++ "\n".toList ++ "gets(x);".toList) =
      List.replicate (1 + "a\\\\b\\".toList.length) ' ' ++ "\n".toList ++
        SanitizeKeepLayout "gets(x);".toList :=
  ⟨⟨by decide, by decide⟩,
    unterminated_string_ends_at_newline "a\\\\b\\".toList "gets(x);".toList
      (by decide) (by decide)⟩

/-- C20: for `s` without the sequence `*/`, the sanitized `/*` + `s` is two spaces followed
by, for every byte of `s`, a newline where `s` has a newline and a space elsewhere. -/
theorem unclosed_block_comment_consumes_rest (s : Str) (h : ¬ ("*/".toList <:+: s)) :
    SanitizeKeepLayout ("/*".toList ++ s) = ' ' :: ' ' :: s.map placeholder := by
  rw [SanitizeKeepLayout_eq]
  show sanFrom State.Normal ('/' :: '*' :: s) = _
  rw [sanFrom_normal_block_open, sanFrom_block_unclosed s h]

/-- C20 at `/*/ gets(x);` newline `"* /`: the `/` after the opener does not close. -/
theorem unclosed_block_comment_consumes_rest_witness :
    ¬ ("*/".toList <:+: "/ gets(x);\n\"* /".toList) ∧
    SanitizeKeepLayout ("/*".toList ++ "/ gets(x);\n\"* /".toList) =
      ' ' :: ' ' :: "/ gets(x);\n\"* /".toList.map placeholder :=
  ⟨by decide, unclosed_block_comment_consumes_rest "/ gets(x);\n\"* /".toList (by decide)⟩

/-! ## The line index (C12, C13) -/

/-- The invariant of the binary search: with `line_starts[lo] <= index` and `index` below
`line_starts[hi]` (or `hi` the size), the loop returns such a `lo` with `hi = lo + 1`. -/
theorem LineIndex_LineFromIndex_loop_spec (ls : List Nat) (o : Nat) :
    ∀ (fuel lo hi : Nat), hi - lo ≤ fuel → lo < hi → hi ≤ ls.length →
    ls.getD lo 0 ≤ o → (hi = ls.length ∨ o < ls.getD hi 0) →
    LineIndex.LineFromIndex.loop ls o fuel lo hi < ls.length ∧
    ls.getD (LineIndex.LineFromIndex.loop ls o fuel lo hi) 0 ≤ o ∧
    (LineIndex.LineFromIndex.loop ls o fuel lo hi + 1 = ls.length ∨
      o < ls.getD (LineIndex.LineFromIndex.loop ls o fuel lo hi + 1) 0) := by
  intro fuel
  induction fuel with
  | zero => intro lo hi h1 h2; exact absurd h1 (by omega)
  | succ f ih =>
    intro lo hi hf hlt hhi hlo hup
    simp only [LineIndex.LineFromIndex.loop]
    split_ifs with h1 h2
    · exact ih _ _ (by omega) (by omega) hhi h2 hup
    · exact ih _ _ (by omega) (by omega) (by omega) hlo (Or.inr (by omega))
    · have e : hi = lo + 1 := by omega
      subst e
      exact ⟨by omega, hlo, hup⟩

theorem newlineStarts_pairwise : ∀ (r : Str) (i : Nat),
    List.Pairwise (· < ·) (newlineStarts i r)
  | [], _ => by simp [newlineStarts]
  | c :: r, i => by
    simp only [newlineStarts]
    split_ifs
    · refine List.Pairwise.cons ?_ (newlineStarts_pairwise r (i + 1))
      intro x hx
      exact newlineStarts_gt r (i + 1) x hx
    · exact newlineStarts_pairwise r (i + 1)

/-- The line starts of `LineIndex::Build` are strictly increasing. -/
theorem LineIndex_Build_sorted (text : Str) :
    List.Pairwise (· < ·) (LineIndex.Build text).line_starts := by
  rw [LineIndex_Build_eq]
  exact List.Pairwise.cons (fun x hx => newlineStarts_gt text 0 x hx)
    (newlineStarts_pairwise text 0)

theorem getD_mono_of_pairwise (ls : List Nat) (h : List.Pairwise (· < ·) ls)
    (i j : Nat) (hij : i ≤ j) (hj : j < ls.length) : ls.getD i 0 ≤ ls.getD j 0 := by
  rcases Nat.eq_or_lt_of_le hij with e | e
  · subst e; exact Nat.le_refl _
  · rw [List.getD_eq_getElem _ _ hj, List.getD_eq_getElem _ _ (by omega : i < ls.length)]
    exact Nat.le_of_lt (List.pairwise_iff_getElem.mp h i j (by omega) hj e)

theorem LineIndex_LineFromIndex_spec (text : Str) (o : Nat) :
    1 ≤ (LineIndex.Build text).LineFromIndex o ∧
    (LineIndex.Build text).LineFromIndex o ≤ (LineIndex.Build text).line_starts.length ∧
    (LineIndex.Build text).line_starts.getD ((LineIndex.Build text).LineFromIndex o - 1) 0 ≤ o ∧
    ((LineIndex.Build text).LineFromIndex o = (LineIndex.Build text).line_starts.length ∨
      o < (LineIndex.Build text).line_starts.getD ((LineIndex.Build text).LineFromIndex o) 0) := by
  have hls := LineIndex_Build_eq text
  unfold LineIndex.LineFromIndex
  rw [hls]
  simp only [List.isEmpty_cons, Bool.false_eq_true, if_false]
  obtain ⟨h1, h2, h3⟩ := LineIndex_LineFromIndex_loop_spec (0 :: newlineStarts 0 text) o
    (0 :: newlineStarts 0 text).length 0 (0 :: newlineStarts 0 text).length
    (by omega) (by simp) (Nat.le_refl _) (by simp) (Or.inl rfl)
  refine ⟨by omega, by omega, ?_, ?_⟩
  · simpa using h2
  · exact h3

/-- The line with the properties of `LineIndex_LineFromIndex_spec` is unique. -/
theorem LineIndex_line_unique (text : Str) (o L1 L2 : Nat)
    (a1 : 1 ≤ L1) (a2 : L1 ≤ (LineIndex.Build text).line_starts.length)
    (a3 : (LineIndex.Build text).line_starts.getD (L1 - 1) 0 ≤ o)
    (a4 : L1 = (LineIndex.Build text).line_starts.length ∨
      o < (LineIndex.Build text).line_starts.getD L1 0)
    (b1 : 1 ≤ L2) (b2 : L2 ≤ (LineIndex.Build text).line_starts.length)
    (b3 : (LineIndex.Build text).line_starts.getD (L2 - 1) 0 ≤ o)
    (b4 : L2 = (LineIndex.Build text).line_starts.length ∨
      o < (LineIndex.Build text).line_starts.getD L2 0) : L1 = L2 := by
  have hs := LineIndex_Build_sorted text
  rcases Nat.lt_trichotomy L1 L2 with h | h | h
  · have := getD_mono_of_pairwise _ hs L1 (L2 - 1) (by omega) (by omega)
    rcases a4 with e | e <;> omega
  · exact h
  · have := getD_mono_of_pairwise _ hs L2 (L1 - 1) (by omega) (by omega)
    rcases b4 with e | e <;> omega

/-- C12: with `idx = LineIndex::Build(text)` and `count = len(idx.line_starts)`, the line
`L = idx.LineFromIndex(o)` satisfies `1 <= L <= count`, `line_starts[L-1] <= o`, and
`L == count` or `o < line_starts[L]`; it is the only line with these properties. -/
theorem LineFromIndex_greatest_line_start (text : Str) (o : Nat) :
    1 ≤ (LineIndex.Build text).LineFromIndex o ∧
    (LineIndex.Build text).LineFromIndex o ≤ (LineIndex.Build text).line_starts.length ∧
    (LineIndex.Build text).line_starts.getD ((LineIndex.Build text).LineFromIndex o - 1) 0 ≤ o ∧
    ((LineIndex.Build text).LineFromIndex o = (LineIndex.Build text).line_starts.length ∨
      o < (LineIndex.Build text).line_starts.getD ((LineIndex.Build text).LineFromIndex o) 0) ∧
    ∀ L, 1 ≤ L → L ≤ (LineIndex.Build text).line_starts.length →
      (LineIndex.Build text).line_starts.getD (L - 1) 0 ≤ o →
      (L = (LineIndex.Build text).line_starts.length ∨
        o < (LineIndex.Build text).line_starts.getD L 0) →
      L = (LineIndex.Build text).LineFromIndex o := by
  obtain ⟨h1, h2, h3, h4⟩ := LineIndex_LineFromIndex_spec text o
  exact ⟨h1, h2, h3, h4, fun L a1 a2 a3 a4 =>
    LineIndex_line_unique text o L _ a1 a2 a3 a4 h1 h2 h3 h4⟩

/-- C12 at the text `ab`, newline, `cd`, newline, `e` and offset 4: line 2 is the answer. -/
theorem LineFromIndex_greatest_line_start_witness :
    (1 ≤ 2 ∧ 2 ≤ (LineIndex.Build "ab\ncd\ne".toList).line_starts.length ∧
      (LineIndex.Build "ab\ncd\ne".toList).line_starts.getD (2 - 1) 0 ≤ 4 ∧
      (2 = (LineIndex.Build "ab\ncd\ne".toList).line_starts.length ∨
        4 < (LineIndex.Build "ab\ncd\ne".toList).line_starts.getD 2 0)) ∧
    2 = (LineIndex.Build "ab\ncd\ne".toList).LineFromIndex 4 :=
  ⟨⟨by decide, by decide, by decide, by decide⟩,
    (LineFromIndex_greatest_line_start "ab\ncd\ne".toList 4).2.2.2.2 2
      (by decide) (by decide) (by decide) (by decide)⟩

theorem readsAt_newline_iff (s : Str) (q : Nat) :
    readsAt s ['\n'] q ↔ (q < s.length ∧ charAt s q = '\n') := by
  unfold readsAt
  by_cases h : q < s.length
  · rw [drop_eq_charAt_cons s q h]
    simp [h]
  · rw [List.drop_eq_nil_of_le (by omega)]
    simp [h]

theorem charAt_drop (s : Str) (i k : Nat) : charAt (s.drop i) k = charAt s (i + k) := by
  unfold charAt
  simp [List.getD_eq_getElem?_getD, List.getElem?_drop]

/-- Where `find` of a newline stops: after the longest newline-free prefix of the text from
`start`, and `npos` when that prefix reaches the end of the text. -/
theorem find_newline (text : Str) (start : Nat) (hs : start ≤ text.length) :
    (match find text ['\n'] start with
      | none => text.length
      | some e => e) = start + ((text.drop start).takeWhile (fun c => c ≠ '\n')).length := by
  have hdec := List.takeWhile_append_dropWhile (fun c => decide (c ≠ '\n')) (text.drop start)
  generalize hA : (text.drop start).takeWhile (fun c => c ≠ '\n') = A at hdec ⊢
  generalize hB : (text.drop start).dropWhile (fun c => c ≠ '\n') = B at hdec
  have hAno : ∀ k, k < A.length → charAt text (start + k) ≠ '\n' := by
    intro k hk
    rw [← charAt_drop, ← hdec]
    have : charAt (A ++ B) k = A.get ⟨k, hk⟩ := by
      rw [charAt_eq_get _ k (by simp; omega)]
      simp [List.getElem_append_left hk]
    rw [this]
    have hm : A.get ⟨k, hk⟩ ∈ (text.drop start).takeWhile (fun c => c ≠ '\n') := by
      rw [hA]; exact List.get_mem _ _ _
    simpa using List.mem_takeWhile_imp hm
  have hlen : text.length = start + (A.length + B.length) := by
    have := congrArg List.length hdec
    simp at this
    omega
  cases B with
  | nil =>
    have hnone : find text ['\n'] start = none := by
      rw [find_eq_none_iff]
      intro q hq1 hq2 hr
      rw [readsAt_newline_iff] at hr
      have := hAno (q - start) (by simp at hlen; omega)
      rw [show start + (q - start) = q by omega] at this
      exact this hr.2
    rw [hnone]
    simp only [List.length_nil, Nat.add_zero] at hlen
    exact hlen
  | cons b B' =>
    have hb : b = '\n' := by
      have := List.head_dropWhile_not (fun c => decide (c ≠ '\n')) (text.drop start)
        (by rw [hB]; simp)
      simp only [hB, List.head_cons] at this
      simpa using this
    have hfind : find text ['\n'] start = some (start + A.length) := by
      rw [find_eq_some_iff]
      refine ⟨by omega, by omega, ?_, ?_⟩
      · rw [readsAt_newline_iff]
        refine ⟨by simp at hlen; omega, ?_⟩
        rw [← charAt_drop, ← hdec, charAt_append_cons, hb]
      · intro q hq1 hq2 hr
        rw [readsAt_newline_iff] at hr
        have := hAno (q - start) (by omega)
        rw [show start + (q - start) = q by omega] at this
        exact this hr.2
    rw [hfind]


theorem newlineStarts_le : ∀ (r : Str) (i : Nat), ∀ x ∈ newlineStarts i r, x ≤ i + r.length
  | [], _, x, h => by simp [newlineStarts] at h
  | c :: r, i, x, h => by
    simp only [newlineStarts] at h
    simp only [List.length_cons]
    split_ifs at h
    · rcases List.mem_cons.mp h with e | e
      · omega
      · have := newlineStarts_le r (i + 1) x e; omega
    · have := newlineStarts_le r (i + 1) x h; omega

/-- Every line start of `LineIndex::Build` is an offset of the text or its end. -/
theorem LineIndex_Build_start_le (text : Str) (k : Nat)
    (hk : k < (LineIndex.Build text).line_starts.length) :
    (LineIndex.Build text).line_starts.getD k 0 ≤ text.length := by
  have hall : ∀ x ∈ (LineIndex.Build text).line_starts, x ≤ text.length := by
    rw [LineIndex_Build_eq]
    intro x hx
    rcases List.mem_cons.mp hx with e | e
    · omega
    · have := newlineStarts_le text 0 _ e; omega
  rw [List.getD_eq_getElem _ _ hk]
  exact hall _ (List.getElem_mem hk)

/-- The slice that `LineText` returns for a line that starts at `start`. -/
theorem lineText_slice (text : Str) (start : Nat) (hs : start ≤ text.length) :
    (text.drop start).take
      ((if (match find text ['\n'] start with
              | none => text.length
              | some e => e) > start ∧
            charAt text ((match find text ['\n'] start with
              | none => text.length
              | some e => e) - 1) = '\r'
        then (match find text ['\n'] start with
              | none => text.length
              | some e => e) - 1
        else (match find text ['\n'] start with
              | none => text.length
              | some e => e)) - start) = stripCR (lineSlice text start) := by
  rw [find_newline text start hs]
  unfold stripCR lineSlice
  have hpre := List.takeWhile_prefix (l := text.drop start) (fun c => decide (c ≠ '\n'))
  generalize (text.drop start).takeWhile (fun c => c ≠ '\n') = A at hpre ⊢
  obtain ⟨B, hB⟩ := hpre
  have hlast : ∀ hpos : A.length > 0,
      charAt text (start + A.length - 1) = A.get ⟨A.length - 1, by omega⟩ := by
    intro hpos
    have e1 : start + A.length - 1 = start + (A.length - 1) := by omega
    rw [e1, ← charAt_drop, ← hB, charAt_eq_get _ _ (by simp; omega)]
    simp [List.getElem_append_left (by omega : A.length - 1 < A.length)]
  have hcond : (start + A.length > start ∧ charAt text (start + A.length - 1) = '\r') ↔
      A.getLast? = some '\r' := by
    rw [List.getLast?_eq_getElem?]
    by_cases hpos : A.length > 0
    · rw [hlast hpos, List.getElem?_eq_getElem (by omega)]
      simp; omega
    · have : A = [] := List.length_eq_zero.mp (by omega)
      subst this
      simp
  by_cases hc : A.getLast? = some '\r'
  · rw [if_pos (hcond.mpr hc), if_pos hc, List.dropLast_eq_take]
    have e2 : start + A.length - 1 - start = A.length - 1 := by omega
    rw [e2, ← hB, List.take_append_of_le_length (by omega)]
  · rw [if_neg (fun h => hc (hcond.mp h)), if_neg hc]
    have e2 : start + A.length - start = A.length := by omega
    rw [e2, ← hB]
    simp

theorem stripCR_subset (s : Str) : ∀ x ∈ stripCR s, x ∈ s := by
  intro x hx
  unfold stripCR at hx
  split_ifs at hx
  · exact (List.dropLast_subset _) hx
  · exact hx

theorem LineIndex_LineText_spec (text : Str) (line : Nat) :
    (1 ≤ line → line ≤ (LineIndex.Build text).line_starts.length →
      (LineIndex.Build text).LineText text line =
        stripCR (lineSlice text ((LineIndex.Build text).line_starts.getD (line - 1) 0)) ∧
      '\n' ∉ (LineIndex.Build text).LineText text line) ∧
    ((line = 0 ∨ line > (LineIndex.Build text).line_starts.length) →
      (LineIndex.Build text).LineText text line = []) := by
  constructor
  · intro h1 h2
    have hs := LineIndex_Build_start_le text (line - 1) (by omega)
    have key : (LineIndex.Build text).LineText text line =
        stripCR (lineSlice text ((LineIndex.Build text).line_starts.getD (line - 1) 0)) := by
      unfold LineIndex.LineText
      rw [if_neg (by omega)]
      exact lineText_slice text _ hs
    refine ⟨key, ?_⟩
    rw [key]
    intro hmem
    have := List.mem_takeWhile_imp (stripCR_subset _ _ hmem)
    simp at this
  · intro h
    unfold LineIndex.LineText
    rw [if_pos h]

/-- C13: with `idx = LineIndex::Build(text)`, for a line in `1..len(line_starts)` the result
of `idx.LineText(text, line)` is the slice of `text` from `line_starts[line-1]` up to the next
newline or the end of the text, with one trailing carriage return removed if the slice ends in
one, and it holds no newline; for line 0 or a line beyond the last it is empty. -/
theorem LineText_is_line_slice (text : Str) (line : Nat) :
    (1 ≤ line → line ≤ (LineIndex.Build text).line_starts.length →
      (LineIndex.Build text).LineText text line =
        stripCR (lineSlice text ((LineIndex.Build text).line_starts.getD (line - 1) 0)) ∧
      '\n' ∉ (LineIndex.Build text).LineText text line) ∧
    ((line = 0 ∨ line > (LineIndex.Build text).line_starts.length) →
      (LineIndex.Build text).LineText text line = []) :=
  LineIndex_LineText_spec text line

/-- C13 at a text with a CR LF line ending: line 2 is `cd` followed by one CR, and line 9 is
out of range. -/
theorem LineText_is_line_slice_witness :
    ((1 ≤ 2 ∧ 2 ≤ (LineIndex.Build "ab\r\ncd\r\r\nxyz".toList).line_starts.length) ∧
      (LineIndex.Build "ab\r\ncd\r\r\nxyz".toList).LineText "ab\r\ncd\r\r\nxyz".toList 2 =
        "cd\r".toList) ∧
    ((9 = 0 ∨ 9 > (LineIndex.Build "ab\r\ncd\r\r\nxyz".toList).line_starts.length) ∧
      (LineIndex.Build "ab\r\ncd\r\r\nxyz".toList).LineText "ab\r\ncd\r\r\nxyz".toList 9 = []) :=
  ⟨⟨⟨by decide, by decide⟩,
      ((LineText_is_line_slice "ab\r\ncd\r\r\nxyz".toList 2).1 (by decide) (by decide)).1.trans
        (by decide)⟩,
    ⟨by decide, (LineText_is_line_slice "ab\r\ncd\r\r\nxyz".toList 9).2 (by decide)⟩⟩

/-! ## Termination and trace of the search loops (C17, C11) -/

/-- One iteration of the search loop of `FindBannedFunctionCalls`: it leaves, or it goes on
from `found + name.size()` whether or not the occurrence was accepted. -/
theorem FindBannedFunctionCalls_loop_succ (fp raw sanitized : Str) (idx : LineIndex)
    (name : Str) (fuel pos : Nat) (out : ScanResult) :
    FindBannedFunctionCalls.loop fp raw sanitized idx name (fuel + 1) pos out =
      if pos < sanitized.length then
        match find sanitized name pos with
        | none => some out
        | some found =>
          FindBannedFunctionCalls.loop fp raw sanitized idx name fuel (found + name.length)
            (FindBannedFunctionCalls.visit fp raw sanitized idx name found out)
      else some out := by
  rw [FindBannedFunctionCalls.loop]
  by_cases hp : pos < sanitized.length
  · rw [if_pos hp, if_pos hp]
    cases find sanitized name pos with
    | none => rfl
    | some found => rfl
  · rw [if_neg hp, if_neg hp]

/-- The cursor moves forward: an occurrence found from `pos` ends after `pos`. -/
theorem find_advances (s name : Str) (hne : name ≠ []) (pos found : Nat)
    (h : find s name pos = some found) : pos < found + name.length := by
  have h1 := ((find_eq_some_iff _ _ _ _).mp h).1
  have : 0 < name.length := List.length_pos.mpr hne
  omega

theorem FindBannedFunctionCalls_loop_isSome (fp raw sanitized : Str) (idx : LineIndex)
    (name : Str) (hne : name ≠ []) : ∀ (fuel pos : Nat) (out : ScanResult),
    sanitized.length - pos < fuel →
    (FindBannedFunctionCalls.loop fp raw sanitized idx name fuel pos out).isSome = true := by
  intro fuel
  induction fuel with
  | zero => intro pos out h; exact absurd h (by omega)
  | succ f ih =>
    intro pos out hf
    rw [FindBannedFunctionCalls_loop_succ]
    split_ifs with hp
    · cases hfind : find sanitized name pos with
      | none => rfl
      | some found =>
        have := find_advances sanitized name hne pos found hfind
        exact ih _ _ (by omega)
    · rfl

theorem FindScanfUnsafePercentS_loop_isSome (fp raw sanitized : Str) (idx : LineIndex) :
    ∀ (fuel pos : Nat) (out : ScanResult), sanitized.length - pos < fuel →
    (FindScanfUnsafePercentS.loop fp raw sanitized idx fuel pos out).isSome = true := by
  intro fuel
  induction fuel with
  | zero => intro pos out h; exact absurd h (by omega)
  | succ f ih =>
    intro pos out hf
    rw [FindScanfUnsafePercentS_loop_succ]
    split_ifs with hp
    · cases hfind : find sanitized "scanf".toList pos with
      | none => rfl
      | some found =>
        have := find_advances sanitized "scanf".toList (by decide) pos found hfind
        have e : "scanf".toList.length = 5 := rfl
        exact ih _ _ (by omega)
    · rfl

/-- The result of the search loop: the findings at the accepted offsets are appended, the
finding counter grows by their number, the other counters are untouched. -/
theorem FindBannedFunctionCalls_loop_trace (fp raw sanitized : Str) (idx : LineIndex)
    (name : Str) : ∀ (fuel pos : Nat) (out out1 : ScanResult),
    FindBannedFunctionCalls.loop fp raw sanitized idx name fuel pos out = some out1 →
    out1 = { findings := out.findings ++
                (callSites sanitized name fuel pos).map (bannedFindingAt fp raw idx name),
             stats := { out.stats with
                findings := out.stats.findings + (callSites sanitized name fuel pos).length } } := by
  intro fuel
  induction fuel with
  | zero => intro pos out out1 h; simp [FindBannedFunctionCalls.loop] at h
  | succ f ih =>
    intro pos out out1 h
    rw [FindBannedFunctionCalls_loop_succ] at h
    simp only [callSites]
    split_ifs at h ⊢ with hp
    · cases hfind : find sanitized name pos with
      | none =>
        rw [hfind] at h
        simp only [Option.some.injEq] at h
        subst h
        simp
      | some found =>
        rw [hfind] at h
        simp only at h ⊢
        have := ih _ _ _ h
        rw [this]
        unfold FindBannedFunctionCalls.visit
        split_ifs
        · simp [AddFinding, bannedFindingAt, Nat.add_assoc, Nat.add_comm 1]
        · simp
    · simp only [Option.some.injEq] at h
      subst h
      simp


theorem callSites_mem (sanitized name : Str) : ∀ (fuel pos p : Nat),
    p ∈ callSites sanitized name fuel pos →
    pos ≤ p ∧ readsAt sanitized name p ∧ LooksLikeCallAt sanitized p name.length = true := by
  intro fuel
  induction fuel with
  | zero => intro pos p h; simp [callSites] at h
  | succ f ih =>
    intro pos p h
    simp only [callSites] at h
    split_ifs at h with hp
    · cases hfind : find sanitized name pos with
      | none => rw [hfind] at h; simp at h
      | some found =>
        rw [hfind] at h
        simp only at h
        obtain ⟨h1, -, h3, -⟩ := (find_eq_some_iff _ _ _ _).mp hfind
        rcases List.mem_append.mp h with hm | hm
        · split_ifs at hm with hc
          · have : p = found := by simpa using hm
            subst this
            exact ⟨h1, h3, hc⟩
          · simp at hm
        · obtain ⟨a, b, c⟩ := ih _ _ hm
          exact ⟨by omega, b, c⟩
    · simp at h

theorem callSites_sorted (sanitized name : Str) (hne : name ≠ []) : ∀ (fuel pos : Nat),
    List.Pairwise (· < ·) (callSites sanitized name fuel pos) := by
  intro fuel
  induction fuel with
  | zero => intro pos; simp [callSites]
  | succ f ih =>
    intro pos
    simp only [callSites]
    split_ifs with hp
    · cases hfind : find sanitized name pos with
      | none => simp
      | some found =>
        simp only
        have hpos : 0 < name.length := List.length_pos.mpr hne
        rw [List.pairwise_append]
        refine ⟨?_, ih _, ?_⟩
        · split_ifs <;> simp
        · intro a ha b hb
          have hb1 := (callSites_mem sanitized name _ _ b hb).1
          split_ifs at ha
          · have : a = found := by simpa using ha
            omega
          · simp at ha
    · simp

/-- The banned-function findings for one file, as a list: for every name of the list in
turn, the findings at its call sites. -/
theorem FindBannedFunctionCalls_names_trace (fp raw sanitized : Str) (idx : LineIndex) :
    ∀ (banned : List Str) (out out1 : ScanResult),
    FindBannedFunctionCalls.names fp raw sanitized idx banned out = some out1 →
    out1 = { findings := out.findings ++ banned.flatMap (fun name =>
                (callSites sanitized name (sanitized.length + 1) 0).map
                  (bannedFindingAt fp raw idx name)),
             stats := { out.stats with
                findings := out.stats.findings + (banned.flatMap (fun name =>
                  (callSites sanitized name (sanitized.length + 1) 0).map
                    (bannedFindingAt fp raw idx name))).length } } := by
  intro banned
  induction banned with
  | nil =>
    intro out out1 h
    simp only [FindBannedFunctionCalls.names, Option.some.injEq] at h
    subst h
    simp
  | cons name rest ih =>
    intro out out1 h
    simp only [FindBannedFunctionCalls.names] at h
    cases hl : FindBannedFunctionCalls.loop fp raw sanitized idx name (sanitized.length + 1) 0 out with
    | none => rw [hl] at h; simp at h
    | some out2 =>
      rw [hl] at h
      simp only at h
      have h2 := FindBannedFunctionCalls_loop_trace fp raw sanitized idx name _ _ _ _ hl
      have h3 := ih _ _ h
      rw [h3, h2]
      simp [List.flatMap_cons, Nat.add_assoc]

/-- Line and column of a finding give back its offset. -/
theorem line_column_offset (text : Str) (p : Nat) :
    (LineIndex.Build text).line_starts.getD ((LineIndex.Build text).LineFromIndex p - 1) 0 +
      (LineIndex.Build text).ColFromIndex p ((LineIndex.Build text).LineFromIndex p) - 1 = p := by
  obtain ⟨h1, h2, h3, -⟩ := LineIndex_LineFromIndex_spec text p
  unfold LineIndex.ColFromIndex
  rw [if_neg (by omega)]
  simp only
  rw [if_pos h3]
  omega

/-- C17: for a non-empty name, what `find` returns from cursor `pos` ends after `pos`; an
iteration of either search loop leaves or goes on from `found + len(name)` whether or not the
occurrence was accepted; and with one unit of fuel per test of the loop condition,
`len(buffer) - pos + 1` units are enough from cursor `pos`: at most `len(buffer)` iterations
of the body and the final test. -/
theorem search_loops_terminate (fp raw sanitized : Str) (idx : LineIndex) (name : Str)
    (hne : name ≠ []) :
    (∀ pos found, find sanitized name pos = some found → pos < found + name.length) ∧
    (∀ fuel pos out,
      FindBannedFunctionCalls.loop fp raw sanitized idx name (fuel + 1) pos out =
        if pos < sanitized.length then
          match find sanitized name pos with
          | none => some out
          | some found =>
            FindBannedFunctionCalls.loop fp raw sanitized idx name fuel (found + name.length)
              (FindBannedFunctionCalls.visit fp raw sanitized idx name found out)
        else some out) ∧
    (∀ fuel pos out, sanitized.length - pos < fuel →
      (FindBannedFunctionCalls.loop fp raw sanitized idx name fuel pos out).isSome = true) ∧
    (∀ pos found, find sanitized "scanf".toList pos = some found → pos < found + 5) ∧
    (∀ fuel pos out,
      FindScanfUnsafePercentS.loop fp raw sanitized idx (fuel + 1) pos out =
        if pos < sanitized.length then
          match find sanitized "scanf".toList pos with
          | none => some out
          | some found =>
            FindScanfUnsafePercentS.loop fp raw sanitized idx fuel (found + 5)
              (FindScanfUnsafePercentS.visit fp raw sanitized idx found out)
        else some out) ∧
    (∀ fuel pos out, sanitized.length - pos < fuel →
      (FindScanfUnsafePercentS.loop fp raw sanitized idx fuel pos out).isSome = true) :=
  ⟨fun pos found h => find_advances sanitized name hne pos found h,
    fun fuel pos out => FindBannedFunctionCalls_loop_succ fp raw sanitized idx name fuel pos out,
    FindBannedFunctionCalls_loop_isSome fp raw sanitized idx name hne,
    fun pos found h => find_advances sanitized "scanf".toList (by decide) pos found h,
    fun fuel pos out => FindScanfUnsafePercentS_loop_succ fp raw sanitized idx fuel pos out,
    FindScanfUnsafePercentS_loop_isSome fp raw sanitized idx⟩

/-- C17 at the buffer `aaaa` and the name `aa`, whose occurrences overlap: five units of fuel
are enough from cursor 0. -/
theorem search_loops_terminate_witness :
    "aa".toList ≠ [] ∧ "aaaa".toList.length - 0 < 5 ∧
    (FindBannedFunctionCalls.loop [] "aaaa".toList "aaaa".toList (LineIndex.Build "aaaa".toList)
      "aa".toList 5 0 ScanResult.empty).isSome = true :=
  ⟨by decide, by decide,
    (search_loops_terminate [] "aaaa".toList "aaaa".toList (LineIndex.Build "aaaa".toList)
      "aa".toList (by decide)).2.2.1 5 0 ScanResult.empty (by decide)⟩

/-- C11: the findings that `FindBannedFunctionCalls` appends are, for every name of the list
in turn, the findings at the offsets where the search accepted that name; for a name without
a space and such an offset `p`, the raw buffer reads the name at `p` and the reported line
`L` and column `C` satisfy `line_starts[L-1] + C - 1 = p`.  For the buffer `abc`, newline,
`def(gets(x));`, newline, the single finding reports line 2, column 5. -/
theorem banned_finding_line_column (banned : List Str) (fp raw : Str)
    (out out1 : ScanResult) (hsp : ∀ name ∈ banned, ' ' ∉ name)
    (h : FindBannedFunctionCalls banned fp raw (SanitizeKeepLayout raw) out = some out1) :
    out1.findings = out.findings ++ banned.flatMap (fun name =>
      (callSites (SanitizeKeepLayout raw) name ((SanitizeKeepLayout raw).length + 1) 0).map
        (bannedFindingAt fp raw (LineIndex.Build raw) name)) ∧
    (∀ name ∈ banned,
      ∀ p ∈ callSites (SanitizeKeepLayout raw) name ((SanitizeKeepLayout raw).length + 1) 0,
        readsAt raw name p ∧
        (LineIndex.Build raw).line_starts.getD
            ((bannedFindingAt fp raw (LineIndex.Build raw) name p).line - 1) 0 +
          (bannedFindingAt fp raw (LineIndex.Build raw) name p).column - 1 = p) ∧
    bannedFindings fp "abc\ndef(gets(x));\n".toList =
      some [⟨fp, 2, 5, "CG0001".toList, Severity.High,
        "banned function call detected: gets".toList, "def(gets(x));".toList⟩] := by
  refine ⟨?_, ?_, rfl⟩
  · have := FindBannedFunctionCalls_names_trace fp raw _ _ banned out out1 h
    rw [this]
  · intro name hn p hp
    obtain ⟨-, h2, -⟩ := callSites_mem _ _ _ _ _ hp
    exact ⟨readsAt_of_sanitized raw name p (hsp name hn) h2, line_column_offset raw p⟩

/-- C11 at the buffer `x = gets(y);`: the finding for `gets` at offset 4. -/
theorem banned_finding_line_column_witness :
    ((∀ name ∈ defaultBanned, ' ' ∉ name) ∧
      FindBannedFunctionCalls defaultBanned [] "x = gets(y);".toList
        (SanitizeKeepLayout "x = gets(y);".toList) ScanResult.empty =
        some ⟨[bannedFindingAt [] "x = gets(y);".toList (LineIndex.Build "x = gets(y);".toList)
          "gets".toList 4], ⟨0, 0, 0, 1⟩⟩) ∧
    readsAt "x = gets(y);".toList "gets".toList 4 ∧
    (LineIndex.Build "x = gets(y);".toList).line_starts.getD
        ((bannedFindingAt [] "x = gets(y);".toList (LineIndex.Build "x = gets(y);".toList)
          "gets".toList 4).line - 1) 0 +
      (bannedFindingAt [] "x = gets(y);".toList (LineIndex.Build "x = gets(y);".toList)
          "gets".toList 4).column - 1 = 4 :=
  ⟨⟨by decide, by decide⟩,
    (banned_finding_line_column defaultBanned [] "x = gets(y);".toList ScanResult.empty _
      (by decide) (by decide : FindBannedFunctionCalls defaultBanned [] "x = gets(y);".toList
        (SanitizeKeepLayout "x = gets(y);".toList) ScanResult.empty =
        some ⟨[bannedFindingAt [] "x = gets(y);".toList (LineIndex.Build "x = gets(y);".toList)
          "gets".toList 4], ⟨0, 0, 0, 1⟩⟩)).2.1 "gets".toList (by decide) 4 (by decide)⟩

/-! ## What ScanFile appends, and in which order (C15) -/

theorem FindScanfUnsafePercentS_visit_eq (fp raw sanitized : Str) (idx : LineIndex)
    (found : Nat) (out : ScanResult) :
    FindScanfUnsafePercentS.visit fp raw sanitized idx found out =
      if scanfFlagged raw sanitized found then
        { findings := out.findings ++ [scanfFindingAt fp raw idx (quoteAt raw found)],
          stats := { out.stats with findings := out.stats.findings + 1 } }
      else out := by
  unfold FindScanfUnsafePercentS.visit scanfFlagged quoteAt
  by_cases h1 : LooksLikeCallAt sanitized found 5 = true
  · by_cases h2 : SkipSpaces raw (found + 5) < raw.length
    · by_cases h3 : charAt raw (SkipSpaces raw (found + 5)) = '('
      · by_cases h4 : SkipSpaces raw (SkipSpaces raw (found + 5) + 1) < raw.length
        · by_cases h5 : charAt raw (SkipSpaces raw (SkipSpaces raw (found + 5) + 1)) = '"'
          · have n2 : ¬ (SkipSpaces raw (found + 5) ≥ raw.length) := by omega
            have n4 : ¬ (SkipSpaces raw (SkipSpaces raw (found + 5) + 1) ≥ raw.length) := by omega
            simp only [h1, h2, h3, h4, h5, n2, n4, Bool.not_true, Bool.false_eq_true, if_false,
              ne_eq, not_true_eq_false, or_self, decide_True, Bool.true_and, Bool.and_true]
            cases (ReadStringLiteralAt raw (SkipSpaces raw (SkipSpaces raw (found + 5) + 1))).1.isEmpty
            · cases HasUnsafePercentS (ReadStringLiteralAt raw (SkipSpaces raw (SkipSpaces raw (found + 5) + 1))).1
              · simp
              · simp [AddFinding, scanfFindingAt]
            · simp
          · simp [h1, h2, h3, h4, h5]
        · have : SkipSpaces raw (SkipSpaces raw (found + 5) + 1) ≥ raw.length := by omega
          simp [h1, h2, h3, h4, this]
      · simp [h1, h2, h3]
    · have : SkipSpaces raw (found + 5) ≥ raw.length := by omega
      simp [h1, h2, this]
  · simp [h1]

theorem FindScanfUnsafePercentS_loop_trace (fp raw sanitized : Str) (idx : LineIndex) :
    ∀ (fuel pos : Nat) (out out1 : ScanResult),
    FindScanfUnsafePercentS.loop fp raw sanitized idx fuel pos out = some out1 →
    out1 = { findings := out.findings ++ (scanfSites raw sanitized fuel pos).map
                (fun found => scanfFindingAt fp raw idx (quoteAt raw found)),
             stats := { out.stats with
                findings := out.stats.findings + (scanfSites raw sanitized fuel pos).length } } := by
  intro fuel
  induction fuel with
  | zero => intro pos out out1 h; simp [FindScanfUnsafePercentS.loop] at h
  | succ f ih =>
    intro pos out out1 h
    rw [FindScanfUnsafePercentS_loop_succ] at h
    simp only [scanfSites]
    split_ifs at h ⊢ with hp
    · cases hfind : find sanitized "scanf".toList pos with
      | none =>
        rw [hfind] at h
        simp only [Option.some.injEq] at h
        subst h
        simp
      | some found =>
        rw [hfind] at h
        simp only at h ⊢
        have := ih _ _ _ h
        rw [this, FindScanfUnsafePercentS_visit_eq]
        split_ifs
        · simp [Nat.add_assoc, Nat.add_comm 1]
        · simp
    · simp only [Option.some.injEq] at h
      subst h
      simp

/-- What `ScanFile` does to the result when the read succeeds: the two counters grow, and the
findings of the banned-function rule and then of the scanf rule are appended. -/
theorem ScanFile_trace (options : ScanOptions) (banned : List Str) (fp raw : Str)
    (out out1 : ScanResult) (h : ScanFile options banned fp (some raw) out = some out1) :
    out1 = { findings := out.findings ++ bannedPart options banned fp raw ++
                scanfPart options fp raw,
             stats := { files_seen := out.stats.files_seen,
                        files_scanned := out.stats.files_scanned + 1,
                        bytes_scanned := out.stats.bytes_scanned + raw.length,
                        findings := out.stats.findings +
                          (bannedPart options banned fp raw).length +
                          (scanfPart options fp raw).length } } := by
  unfold ScanFile at h
  simp only at h
  unfold bannedPart scanfPart
  cases hb : options.check_banned_functions <;> cases hs : options.check_scanf_unsafe_percent_s <;>
    simp only [hb, hs, Bool.false_eq_true, if_false, if_true] at h ⊢
  · simp only [Option.some.injEq] at h
    subst h
    simp
  · unfold FindScanfUnsafePercentS at h
    rw [FindScanfUnsafePercentS_loop_trace _ _ _ _ _ _ _ _ h]
    simp
  · cases hf : FindBannedFunctionCalls banned fp raw (SanitizeKeepLayout raw)
        { findings := out.findings,
          stats := { files_seen := out.stats.files_seen,
                     files_scanned := out.stats.files_scanned + 1,
                     bytes_scanned := out.stats.bytes_scanned + raw.length,
                     findings := out.stats.findings } } with
    | none => rw [hf] at h; simp at h
    | some out2 =>
      rw [hf] at h
      simp only [Option.some.injEq] at h
      subst h
      unfold FindBannedFunctionCalls at hf
      rw [FindBannedFunctionCalls_names_trace _ _ _ _ _ _ _ hf]
      simp
  · cases hf : FindBannedFunctionCalls banned fp raw (SanitizeKeepLayout raw)
        { findings := out.findings,
          stats := { files_seen := out.stats.files_seen,
                     files_scanned := out.stats.files_scanned + 1,
                     bytes_scanned := out.stats.bytes_scanned + raw.length,
                     findings := out.stats.findings } } with
    | none => rw [hf] at h; simp at h
    | some out2 =>
      rw [hf] at h
      simp only at h
      unfold FindScanfUnsafePercentS at h
      rw [FindScanfUnsafePercentS_loop_trace _ _ _ _ _ _ _ _ h]
      unfold FindBannedFunctionCalls at hf
      rw [FindBannedFunctionCalls_names_trace _ _ _ _ _ _ _ hf]
      simp [Nat.add_assoc]

theorem bannedPart_severityRule (options : ScanOptions) (banned : List Str) (fp raw : Str) :
    ∀ f ∈ bannedPart options banned fp raw,
      f.rule_id = "CG0001".toList ∧ ∃ name ∈ banned,
        f.message = "banned function call detected: ".toList ++ name ∧
        f.severity = bannedSeverity name := by
  intro f hf
  unfold bannedPart at hf
  split_ifs at hf
  · obtain ⟨name, hn, hm⟩ := List.mem_flatMap.mp hf
    obtain ⟨p, -, rfl⟩ := List.mem_map.mp hm
    exact ⟨rfl, name, hn, rfl, rfl⟩
  · simp at hf

theorem scanfPart_severityRule (options : ScanOptions) (fp raw : Str) :
    ∀ f ∈ scanfPart options fp raw,
      f.rule_id = "CG0002".toList ∧ f.severity = Severity.High := by
  intro f hf
  unfold scanfPart at hf
  split_ifs at hf
  · obtain ⟨p, -, rfl⟩ := List.mem_map.mp hf
    exact ⟨rfl, rfl⟩
  · simp at hf

theorem col_of_line (text : Str) (p : Nat) :
    (LineIndex.Build text).ColFromIndex p ((LineIndex.Build text).LineFromIndex p) =
      p - (LineIndex.Build text).line_starts.getD ((LineIndex.Build text).LineFromIndex p - 1) 0
        + 1 := by
  obtain ⟨h1, h2, h3, -⟩ := LineIndex_LineFromIndex_spec text p
  unfold LineIndex.ColFromIndex
  rw [if_neg (by omega)]
  simp only
  rw [if_pos h3]

/-- A later offset is reported at a later (line, column). -/
theorem line_column_mono (text : Str) (p q : Nat) (h : p < q) :
    (LineIndex.Build text).LineFromIndex p < (LineIndex.Build text).LineFromIndex q ∨
    ((LineIndex.Build text).LineFromIndex p = (LineIndex.Build text).LineFromIndex q ∧
      (LineIndex.Build text).ColFromIndex p ((LineIndex.Build text).LineFromIndex p) <
        (LineIndex.Build text).ColFromIndex q ((LineIndex.Build text).LineFromIndex q)) := by
  obtain ⟨a1, a2, a3, a4⟩ := LineIndex_LineFromIndex_spec text p
  obtain ⟨b1, b2, b3, b4⟩ := LineIndex_LineFromIndex_spec text q
  have hs := LineIndex_Build_sorted text
  rw [col_of_line, col_of_line]
  rcases Nat.lt_trichotomy ((LineIndex.Build text).LineFromIndex p)
      ((LineIndex.Build text).LineFromIndex q) with hl | hl | hl
  · exact Or.inl hl
  · right
    refine ⟨hl, ?_⟩
    rw [hl] at a3 ⊢
    omega
  · exfalso
    have := getD_mono_of_pairwise _ hs ((LineIndex.Build text).LineFromIndex q)
      ((LineIndex.Build text).LineFromIndex p - 1) (by omega) (by omega)
    rcases b4 with e | e <;> omega

theorem scanfSites_mem (raw sanitized : Str) : ∀ (fuel pos x : Nat),
    x ∈ scanfSites raw sanitized fuel pos →
    pos ≤ x ∧ readsAt sanitized "scanf".toList x ∧ scanfFlagged raw sanitized x = true := by
  intro fuel
  induction fuel with
  | zero => intro pos x h; simp [scanfSites] at h
  | succ f ih =>
    intro pos x h
    simp only [scanfSites] at h
    split_ifs at h with hp
    · cases hfind : find sanitized "scanf".toList pos with
      | none => rw [hfind] at h; simp at h
      | some found =>
        rw [hfind] at h
        simp only at h
        obtain ⟨h1, -, h3, -⟩ := (find_eq_some_iff _ _ _ _).mp hfind
        rcases List.mem_append.mp h with hm | hm
        · split_ifs at hm with hc
          · have : x = found := by simpa using hm
            subst this
            exact ⟨h1, h3, hc⟩
          · simp at hm
        · obtain ⟨a, b, c⟩ := ih _ _ hm
          exact ⟨by omega, b, c⟩
    · simp at h

theorem scanfSites_gap (raw sanitized : Str) : ∀ (fuel pos : Nat),
    List.Pairwise (fun a b => a + 5 ≤ b) (scanfSites raw sanitized fuel pos) := by
  intro fuel
  induction fuel with
  | zero => intro pos; simp [scanfSites]
  | succ f ih =>
    intro pos
    simp only [scanfSites]
    split_ifs with hp
    · cases hfind : find sanitized "scanf".toList pos with
      | none => simp
      | some found =>
        simp only
        rw [List.pairwise_append]
        refine ⟨?_, ih _, ?_⟩
        · split_ifs <;> simp
        · intro a ha b hb
          have hb1 := (scanfSites_mem raw sanitized _ _ b hb).1
          split_ifs at ha
          · have : a = found := by simpa using ha
            omega
          · simp at ha
    · simp

theorem charAt_of_readsAt_scanf (s : Str) (p : Nat) (h : readsAt s "scanf".toList p) :
    charAt s p = 's' := by
  unfold readsAt at h
  have hp : p < s.length := by
    by_contra hc
    rw [List.drop_eq_nil_of_le (by omega)] at h
    simp at h
  rw [drop_eq_charAt_cons s p hp] at h
  simp at h
  exact h.1

/-- The opening quote tested for an accepted `scanf` lies before every later occurrence of
`scanf`: between the name and the quote the raw buffer holds only whitespace and `(`. -/
theorem quoteAt_lt_next (raw : Str) (a b : Nat)
    (hf : scanfFlagged raw (SanitizeKeepLayout raw) a = true)
    (hb : readsAt (SanitizeKeepLayout raw) "scanf".toList b) (hab : a + 5 ≤ b) :
    quoteAt raw a < b := by
  have hs : charAt raw b = 's' :=
    charAt_of_readsAt_scanf raw b (readsAt_of_sanitized raw _ b (by decide) hb)
  unfold scanfFlagged at hf
  simp only [Bool.and_eq_true, decide_eq_true_eq] at hf
  obtain ⟨⟨⟨⟨⟨⟨-, h2⟩, h3⟩, h4⟩, h5⟩, -⟩, -⟩ := hf
  unfold quoteAt at h4 h5 ⊢
  obtain ⟨i1, i2, -⟩ := SkipSpaces_spec raw (a + 5)
  obtain ⟨j1, j2, -⟩ := SkipSpaces_spec raw (SkipSpaces raw (a + 5) + 1)
  by_contra hcon
  have hle : b ≤ SkipSpaces raw (SkipSpaces raw (a + 5) + 1) := by omega
  have notsp : isSpaceByte 's' = false := by decide
  rcases Nat.lt_trichotomy b (SkipSpaces raw (a + 5)) with c | c | c
  · have := (i2 b hab c).2
    rw [hs, notsp] at this
    exact absurd this (by decide)
  · rw [c, h3] at hs
    exact absurd hs (by decide)
  · rcases Nat.eq_or_lt_of_le hle with d | d
    · rw [d, h5] at hs
      exact absurd hs (by decide)
    · have := (j2 b (by omega) d).2
      rw [hs, notsp] at this
      exact absurd this (by decide)

theorem lt_quoteAt (raw : Str) (b : Nat) : b < quoteAt raw b := by
  unfold quoteAt
  have h1 := (SkipSpaces_spec raw (b + 5)).1
  have h2 := (SkipSpaces_spec raw (SkipSpaces raw (b + 5) + 1)).1
  omega

theorem scanfSites_quote_sorted (raw : Str) (fuel pos : Nat) :
    List.Pairwise (fun a b => quoteAt raw a < quoteAt raw b)
      (scanfSites raw (SanitizeKeepLayout raw) fuel pos) := by
  have hg := scanfSites_gap raw (SanitizeKeepLayout raw) fuel pos
  have hm := scanfSites_mem raw (SanitizeKeepLayout raw) fuel pos
  generalize scanfSites raw (SanitizeKeepLayout raw) fuel pos = l at hg hm
  induction hg with
  | nil => exact List.Pairwise.nil
  | @cons a l ha _ ih =>
    refine List.Pairwise.cons ?_ (ih (fun x hx => hm x (List.mem_cons_of_mem _ hx)))
    intro b hb
    have h1 := quoteAt_lt_next raw a b (hm a (List.mem_cons_self _ _)).2.2
      (hm b (List.mem_cons_of_mem _ hb)).2.1 (ha b hb)
    have h2 := lt_quoteAt raw b
    omega

theorem callSites_lineCol_sorted (fp raw : Str) (name : Str) (hne : name ≠ [])
    (fuel pos : Nat) :
    List.Pairwise lineColLt ((callSites (SanitizeKeepLayout raw) name fuel pos).map
      (bannedFindingAt fp raw (LineIndex.Build raw) name)) := by
  rw [List.pairwise_map]
  exact (callSites_sorted (SanitizeKeepLayout raw) name hne fuel pos).imp
    (fun hab => line_column_mono raw _ _ hab)

theorem scanfPart_lineCol_sorted (options : ScanOptions) (fp raw : Str) :
    List.Pairwise lineColLt (scanfPart options fp raw) := by
  unfold scanfPart
  split_ifs
  · rw [List.pairwise_map]
    exact (scanfSites_quote_sorted raw _ _).imp (fun hab => line_column_mono raw _ _ hab)
  · exact List.Pairwise.nil

/-- C15, as the code has it: the findings that `ScanFile` appends are the banned-function
findings (all CG0001) followed by the format-string findings (all CG0002); the CG0001
findings are grouped by banned name in the order of the banned list; within one banned name,
and within CG0002, the findings appear in increasing order of match offset, and so of
(line, column). -/
theorem discovery_order_by_rule_and_name (options : ScanOptions) (banned : List Str)
    (fp raw : Str) (out out1 : ScanResult) (hne : ∀ name ∈ banned, name ≠ [])
    (h : ScanFile options banned fp (some raw) out = some out1) :
    out1.findings =
      out.findings ++ bannedPart options banned fp raw ++ scanfPart options fp raw ∧
    (∀ f ∈ bannedPart options banned fp raw, f.rule_id = "CG0001".toList) ∧
    (∀ f ∈ scanfPart options fp raw, f.rule_id = "CG0002".toList) ∧
    (∀ name ∈ banned,
      List.Pairwise (· < ·)
        (callSites (SanitizeKeepLayout raw) name ((SanitizeKeepLayout raw).length + 1) 0) ∧
      List.Pairwise lineColLt
        ((callSites (SanitizeKeepLayout raw) name ((SanitizeKeepLayout raw).length + 1) 0).map
          (bannedFindingAt fp raw (LineIndex.Build raw) name))) ∧
    List.Pairwise (fun a b => a < b ∧ quoteAt raw a < quoteAt raw b)
      (scanfSites raw (SanitizeKeepLayout raw) ((SanitizeKeepLayout raw).length + 1) 0) ∧
    List.Pairwise lineColLt (scanfPart options fp raw) := by
  refine ⟨?_, ?_, ?_, ?_, ?_, scanfPart_lineCol_sorted options fp raw⟩
  · rw [ScanFile_trace options banned fp raw out out1 h]
  · exact fun f hf => (bannedPart_severityRule options banned fp raw f hf).1
  · exact fun f hf => (scanfPart_severityRule options fp raw f hf).1
  · exact fun name hn => ⟨callSites_sorted _ name (hne name hn) _ _,
      callSites_lineCol_sorted fp raw name (hne name hn) _ _⟩
  · exact List.Pairwise.and
      ((scanfSites_gap raw _ _ _).imp (fun hab => by omega))
      (scanfSites_quote_sorted raw _ _)

/-- C15 fails as stated at `strcpy(a,b); gets(x);`: both findings are CG0001, and the one
for `gets` (offset 13, column 14) comes before the one for `strcpy` (offset 0, column 1). -/
theorem discovery_order_counterexample :
    ∃ r f g, ScanFile ⟨true, true⟩ defaultBanned "a.c".toList
        (some "strcpy(a,b); gets(x);".toList) ScanResult.empty = some r ∧
      r.findings = [f, g] ∧
      f = bannedFindingAt "a.c".toList "strcpy(a,b); gets(x);".toList
        (LineIndex.Build "strcpy(a,b); gets(x);".toList) "gets".toList 13 ∧
      g = bannedFindingAt "a.c".toList "strcpy(a,b); gets(x);".toList
        (LineIndex.Build "strcpy(a,b); gets(x);".toList) "strcpy".toList 0 ∧
      f.rule_id = g.rule_id ∧ f.line = g.line ∧ f.column = 14 ∧ g.column = 1 :=
  ⟨_, _, _, by rfl, by rfl, rfl, rfl, by decide, by decide, by decide, by decide⟩

/-- C15 as amended, at a buffer with `strcpy`, `gets` and an unsafe `scanf`. -/
theorem discovery_order_by_rule_and_name_witness :
    (∀ name ∈ defaultBanned, name ≠ []) ∧
    ∃ out1, ScanFile ⟨true, true⟩ defaultBanned "a.c".toList
        (some "strcpy(a,b); gets(x);\nscanf(\"%s\", p);".toList) ScanResult.empty = some out1 ∧
      out1.findings = ScanResult.empty.findings ++
        bannedPart ⟨true, true⟩ defaultBanned "a.c".toList
          "strcpy(a,b); gets(x);\nscanf(\"%s\", p);".toList ++
        scanfPart ⟨true, true⟩ "a.c".toList
          "strcpy(a,b); gets(x);\nscanf(\"%s\", p);".toList :=
  ⟨by decide, by
    cases hx : ScanFile ⟨true, true⟩ defaultBanned "a.c".toList
        (some "strcpy(a,b); gets(x);\nscanf(\"%s\", p);".toList) ScanResult.empty with
    | none => exact absurd hx (by decide)
    | some out1 =>
      exact ⟨out1, rfl, (discovery_order_by_rule_and_name ⟨true, true⟩ defaultBanned
        "a.c".toList "strcpy(a,b); gets(x);\nscanf(\"%s\", p);".toList ScanResult.empty out1
        (by decide) hx).1⟩⟩

/-! ## Severity (C14) -/

theorem ScanFile_severityRule (options : ScanOptions) (banned : List Str) (p : Str)
    (content : Option Str) (out out1 : ScanResult)
    (h0 : ∀ f ∈ out.findings, severityRule f)
    (h : ScanFile options banned p content out = some out1) :
    ∀ f ∈ out1.findings, severityRule f := by
  cases content with
  | none =>
    simp only [ScanFile, Option.some.injEq] at h
    subst h; exact h0
  | some raw =>
    rw [ScanFile_trace options banned p raw out out1 h]
    intro f hf
    simp only [List.mem_append] at hf
    rcases hf with (hf | hf) | hf
    · exact h0 f hf
    · obtain ⟨a, name, -, b, c⟩ := bannedPart_severityRule options banned p raw f hf
      exact Or.inl ⟨a, name, b, c⟩
    · exact Or.inr (scanfPart_severityRule options p raw f hf)

theorem Run_loop_severityRule (options : ScanOptions) (banned : List Str) :
    ∀ (entries : List DirEntry) (out r : ScanResult),
    (∀ f ∈ out.findings, severityRule f) →
    Run.loop options banned entries out = some r → ∀ f ∈ r.findings, severityRule f := by
  intro entries
  induction entries with
  | nil =>
    intro out r h0 h
    simp only [Run.loop, Option.some.injEq] at h
    subst h; exact h0
  | cons e rest ih =>
    intro out r h0 h
    simp only [Run.loop] at h
    split_ifs at h
    · exact ih out r h0 h
    · exact ih _ r (by exact h0) h
    · exact ih _ r (by exact h0) h
    · cases hs : ScanFile options banned e.path e.content
          { findings := out.findings,
            stats := { files_seen := out.stats.files_seen + 1,
                       files_scanned := out.stats.files_scanned,
                       bytes_scanned := out.stats.bytes_scanned,
                       findings := out.stats.findings } } with
      | none => rw [hs] at h; simp at h
      | some out2 =>
        rw [hs] at h
        simp only at h
        exact ih out2 r (ScanFile_severityRule options banned e.path e.content _ out2
          (by exact h0) hs) h

theorem severityRule_stable (f g : Finding) (hf : severityRule f) (hg : severityRule g)
    (hr : f.rule_id = g.rule_id) (hm : f.message = g.message) : f.severity = g.severity := by
  have hne : "CG0001".toList ≠ "CG0002".toList := by decide
  rcases hf with ⟨f1, n1, f2, f3⟩ | ⟨f1, f3⟩ <;> rcases hg with ⟨g1, n2, g2, g3⟩ | ⟨g1, g3⟩
  · have : n1 = n2 := List.append_cancel_left (by rw [← f2, ← g2, hm])
    rw [f3, g3, this]
  · exact absurd (by rw [← f1, ← g1, hr]) hne
  · exact absurd (by rw [← f1, ← g1, hr]) hne.symm
  · rw [f3, g3]

theorem Run_severity_stable (options : ScanOptions) (banned : List Str) (root_ok : Bool)
    (entries : List DirEntry) (r : ScanResult)
    (h : Run options banned root_ok entries = some r) :
    (∀ f ∈ r.findings, severityRule f) ∧
    ∀ f ∈ r.findings, ∀ g ∈ r.findings, f.rule_id = g.rule_id → f.message = g.message →
      f.severity = g.severity := by
  have hall : ∀ f ∈ r.findings, severityRule f := by
    unfold Run at h
    split_ifs at h
    · simp only [Option.some.injEq] at h
      subst h
      intro f hf
      simp [ScanResult.empty] at hf
    · exact Run_loop_severityRule options banned entries _ r
        (by intro f hf; simp [ScanResult.empty] at hf) h
  exact ⟨hall, fun f hf g hg hr hm => severityRule_stable f g (hall f hf) (hall g hg) hr hm⟩

/-- The severity table of the banned-function rule, written out: `bannedSeverity` is High for
the five names gets, strcpy, strcat, sprintf, vsprintf and Medium for every other name. -/
theorem bannedSeverity_table (name : Str) :
    (name ∈ ["gets".toList, "strcpy".toList, "strcat".toList, "sprintf".toList,
        "vsprintf".toList] → bannedSeverity name = Severity.High) ∧
    (name ∉ ["gets".toList, "strcpy".toList, "strcat".toList, "sprintf".toList,
        "vsprintf".toList] → bannedSeverity name = Severity.Medium) := by
  unfold bannedSeverity
  constructor
  · intro h
    simp only [List.mem_cons, List.mem_singleton, List.not_mem_nil, or_false] at h
    rw [if_pos h]
  · intro h
    simp only [List.mem_cons, List.mem_singleton, List.not_mem_nil, or_false] at h
    rw [if_neg h]

/-- C14, as the code has it: every finding of a run is either a CG0001 finding whose message
is `banned function call detected: ` followed by a name, with severity High when the name is
one of gets, strcpy, strcat, sprintf, vsprintf and Medium for any other name, or a CG0002
finding with severity High; and any two findings that carry the same rule identifier and the
same message carry the same severity, for every file content and every position. -/
theorem severity_stable_per_rule_and_name (options : ScanOptions) (banned : List Str)
    (root_ok : Bool) (entries : List DirEntry) (r : ScanResult)
    (h : Run options banned root_ok entries = some r) :
    (∀ f ∈ r.findings,
      (f.rule_id = "CG0001".toList ∧
        ∃ name, f.message = "banned function call detected: ".toList ++ name ∧
          (name ∈ ["gets".toList, "strcpy".toList, "strcat".toList, "sprintf".toList,
              "vsprintf".toList] → f.severity = Severity.High) ∧
          (name ∉ ["gets".toList, "strcpy".toList, "strcat".toList, "sprintf".toList,
              "vsprintf".toList] → f.severity = Severity.Medium)) ∨
      (f.rule_id = "CG0002".toList ∧ f.severity = Severity.High)) ∧
    ∀ f ∈ r.findings, ∀ g ∈ r.findings, f.rule_id = g.rule_id → f.message = g.message →
      f.severity = g.severity := by
  have hs := Run_severity_stable options banned root_ok entries r h
  refine ⟨fun f hf => ?_, hs.2⟩
  rcases hs.1 f hf with ⟨h1, name, h2, h3⟩ | h1
  · exact Or.inl ⟨h1, name, h2,
      fun hm => h3.trans ((bannedSeverity_table name).1 hm),
      fun hm => h3.trans ((bannedSeverity_table name).2 hm)⟩
  · exact Or.inr h1

/-- C14 fails as stated at a file `gets(x); system(y);`: two CG0001 findings, one High and
one Medium. -/
theorem severity_stability_counterexample :
    ∃ r f g, Run ⟨true, true⟩ defaultBanned true
        [⟨false, true, true, "a.c".toList, some "gets(x); system(y);".toList⟩] = some r ∧
      f ∈ r.findings ∧ g ∈ r.findings ∧ f.rule_id = g.rule_id ∧
      f.severity = Severity.High ∧ g.severity = Severity.Medium :=
  ⟨_, bannedFindingAt "a.c".toList "gets(x); system(y);".toList
        (LineIndex.Build "gets(x); system(y);".toList) "gets".toList 0,
      bannedFindingAt "a.c".toList "gets(x); system(y);".toList
        (LineIndex.Build "gets(x); system(y);".toList) "system".toList 9,
      by rfl, by decide, by decide, by decide, by decide, by decide⟩

/-- C14 as amended, at a run over two files that both call `gets` and `system`: the four
findings are CG0001, High for `gets` and Medium for `system`. -/
theorem severity_stable_per_rule_and_name_witness :
    (Run ⟨true, true⟩ defaultBanned true
        [⟨false, true, true, "a.c".toList, some "gets(x); system(y);".toList⟩,
         ⟨false, true, true, "b.c".toList, some "\n system(gets(z));".toList⟩]).map
      (fun r => r.findings.map (fun f => (f.file_path, f.rule_id, f.message.drop 31, f.severity))) =
      some [("a.c".toList, "CG0001".toList, "gets".toList, Severity.High),
            ("a.c".toList, "CG0001".toList, "system".toList, Severity.Medium),
            ("b.c".toList, "CG0001".toList, "gets".toList, Severity.High),
            ("b.c".toList, "CG0001".toList, "system".toList, Severity.Medium)] ∧
    ∃ r, Run ⟨true, true⟩ defaultBanned true
        [⟨false, true, true, "a.c".toList, some "gets(x); system(y);".toList⟩,
         ⟨false, true, true, "b.c".toList, some "\n system(gets(z));".toList⟩] = some r ∧
      (∀ f ∈ r.findings,
        (f.rule_id = "CG0001".toList ∧
          ∃ name, f.message = "banned function call detected: ".toList ++ name ∧
            (name ∈ ["gets".toList, "strcpy".toList, "strcat".toList, "sprintf".toList,
                "vsprintf".toList] → f.severity = Severity.High) ∧
            (name ∉ ["gets".toList, "strcpy".toList, "strcat".toList, "sprintf".toList,
                "vsprintf".toList] → f.severity = Severity.Medium)) ∨
        (f.rule_id = "CG0002".toList ∧ f.severity = Severity.High)) ∧
      ∀ f ∈ r.findings, ∀ g ∈ r.findings, f.rule_id = g.rule_id → f.message = g.message →
        f.severity = g.severity := by
  refine ⟨by decide, ?_⟩
  cases hx : Run ⟨true, true⟩ defaultBanned true
      [⟨false, true, true, "a.c".toList, some "gets(x); system(y);".toList⟩,
       ⟨false, true, true, "b.c".toList, some "\n system(gets(z));".toList⟩] with
  | none => exact absurd hx (by decide)
  | some r =>
    exact ⟨r, rfl, severity_stable_per_rule_and_name ⟨true, true⟩ defaultBanned true _ r hx⟩

/-! ## Statistics consistency (C16) -/

theorem AddFinding_stats (out : ScanResult) (fp : Str) (line col : Nat) (rule : Str)
    (sev : Severity) (msg text : Str) (h : out.stats.findings = out.findings.length) :
    (AddFinding out fp line col rule sev msg text).stats.findings =
      (AddFinding out fp line col rule sev msg text).findings.length ∧
    (AddFinding out fp line col rule sev msg text).stats.files_seen = out.stats.files_seen ∧
    (AddFinding out fp line col rule sev msg text).stats.files_scanned =
      out.stats.files_scanned := by
  simp [AddFinding, h]

/-- `ScanFile` keeps the statistics consistent when the entry of the file has been counted:
the file counter may then grow by one. -/
theorem ScanFile_consistent (options : ScanOptions) (banned : List Str) (p : Str)
    (content : Option Str) (out out1 : ScanResult)
    (h1 : out.stats.findings = out.findings.length)
    (h2 : out.stats.files_scanned < out.stats.files_seen)
    (h : ScanFile options banned p content out = some out1) : statsConsistent out1 := by
  cases content with
  | none =>
    simp only [ScanFile, Option.some.injEq] at h
    subst h
    exact ⟨h1, Nat.le_of_lt h2⟩
  | some raw =>
    rw [ScanFile_trace options banned p raw out out1 h]
    constructor
    · simp [h1, Nat.add_assoc]
    · simp only; omega

theorem runSteps_consistent (options : ScanOptions) (banned : List Str) :
    ∀ (steps : List RunStep) (out r : ScanResult), inRunOrder steps = true →
    statsConsistent out → runSteps options banned steps out = some r → statsConsistent r := by
  intro steps
  induction steps using inRunOrder.induct with
  | case1 =>
    intro out r _ hc h
    simp only [runSteps, Option.some.injEq] at h
    subst h; exact hc
  | case2 p content rest =>
    intro out r ho
    simp [inRunOrder] at ho
  | case3 p content rest ih =>
    intro out r ho hc h
    simp only [inRunOrder] at ho
    simp only [runSteps, RunStep.apply] at h
    cases hs : ScanFile options banned p content
        { findings := out.findings,
          stats := { files_seen := out.stats.files_seen + 1,
                     files_scanned := out.stats.files_scanned,
                     bytes_scanned := out.stats.bytes_scanned,
                     findings := out.stats.findings } } with
    | none => rw [hs] at h; simp at h
    | some out2 =>
      rw [hs] at h
      simp only at h
      have := ScanFile_consistent options banned p content _ out2 (by exact hc.1)
        (by exact Nat.lt_succ_of_le hc.2) hs
      exact ih out2 r ho this h
  | case4 rest hnot ih =>
    intro out r ho hc h
    have ho2 : inRunOrder rest = true := by
      cases rest with
      | nil => rfl
      | cons s rest2 =>
        cases s with
        | scanFile p c => exact absurd rfl (hnot p c rest2)
        | count => simpa [inRunOrder] using ho
        | addFinding a b c d e f g => simpa [inRunOrder] using ho
    simp only [runSteps, RunStep.apply] at h
    exact ih _ r ho2 (by exact ⟨hc.1, Nat.le_succ_of_le hc.2⟩) h
  | case5 fp line col rule sev msg text rest ih =>
    intro out r ho hc h
    simp only [inRunOrder] at ho
    simp only [runSteps, RunStep.apply] at h
    obtain ⟨a1, a2, a3⟩ := AddFinding_stats out fp line col rule sev msg text hc.1
    exact ih _ r ho ⟨a1, by rw [a2, a3]; exact hc.2⟩ h

theorem Run_loop_eq_runSteps (options : ScanOptions) (banned : List Str) :
    ∀ (entries : List DirEntry) (out : ScanResult),
    Run.loop options banned entries out = runSteps options banned (stepsOf entries) out := by
  intro entries
  induction entries with
  | nil => intro out; rfl
  | cons e rest ih =>
    intro out
    simp only [Run.loop, stepsOf]
    by_cases h1 : e.iter_error = true
    · simp only [h1, if_true]; exact ih out
    · simp only [h1, Bool.false_eq_true, if_false]
      by_cases h2 : (!e.is_regular_file) = true
      · simp only [h2, if_true, runSteps, RunStep.apply]; exact ih _
      · simp only [h2, Bool.false_eq_true, if_false]
        by_cases h3 : (!e.text_extension) = true
        · simp only [h3, if_true, runSteps, RunStep.apply]; exact ih _
        · simp only [h3, Bool.false_eq_true, if_false, runSteps, RunStep.apply]
          cases ScanFile options banned e.path e.content
              { findings := out.findings,
                stats := { files_seen := out.stats.files_seen + 1,
                           files_scanned := out.stats.files_scanned,
                           bytes_scanned := out.stats.bytes_scanned,
                           findings := out.stats.findings } } with
          | none => rfl
          | some out2 => exact ih out2

theorem stepsOf_inRunOrder : ∀ entries : List DirEntry, inRunOrder (stepsOf entries) = true
  | [] => rfl
  | e :: rest => by
    have ih := stepsOf_inRunOrder rest
    simp only [stepsOf]
    split_ifs
    · exact ih
    · cases hr : stepsOf rest with
      | nil => rfl
      | cons s r2 =>
        rw [hr] at ih
        cases s <;> simp [inRunOrder] at ih ⊢ <;> exact ih
    · cases hr : stepsOf rest with
      | nil => rfl
      | cons s r2 =>
        rw [hr] at ih
        cases s <;> simp [inRunOrder] at ih ⊢ <;> exact ih
    · simpa [inRunOrder] using ih

/-- A sequence of steps in the order of `Run` stays in that order when it is cut short. -/
theorem inRunOrder_prefix : ∀ (a b : List RunStep), inRunOrder (a ++ b) = true →
    inRunOrder a = true := by
  intro a
  induction a using inRunOrder.induct with
  | case1 => intro b _; rfl
  | case2 p content rest => intro b h; simp [inRunOrder] at h
  | case3 p content rest ih =>
    intro b h
    simp only [List.cons_append, inRunOrder] at h ⊢
    exact ih b h
  | case4 rest hnot ih =>
    intro b h
    cases rest with
    | nil => rfl
    | cons s rest2 =>
      cases s with
      | scanFile p c => exact absurd rfl (hnot p c rest2)
      | count =>
        simp only [List.cons_append, inRunOrder] at h ⊢
        exact ih b (by simpa [inRunOrder] using h)
      | addFinding a1 a2 a3 a4 a5 a6 a7 =>
        simp only [List.cons_append, inRunOrder] at h ⊢
        exact ih b (by simpa [inRunOrder] using h)
  | case5 fp line col rule sev msg text rest ih =>
    intro b h
    simp only [List.cons_append, inRunOrder] at h ⊢
    exact ih b h

theorem Run_consistent (options : ScanOptions) (banned : List Str) (root_ok : Bool)
    (entries : List DirEntry) (r : ScanResult)
    (h : Run options banned root_ok entries = some r) : statsConsistent r := by
  have h0 : statsConsistent ScanResult.empty := ⟨rfl, Nat.le_refl _⟩
  unfold Run at h
  split_ifs at h
  · simp only [Option.some.injEq] at h
    subst h; exact h0
  · rw [Run_loop_eq_runSteps] at h
    exact runSteps_consistent options banned _ _ _ (stepsOf_inRunOrder entries) h0 h

/-- The finding counter follows the finding list through every sequence of steps, in any
order. -/
theorem runSteps_findings_count (options : ScanOptions) (banned : List Str) :
    ∀ (steps : List RunStep) (out r : ScanResult),
    out.stats.findings = out.findings.length →
    runSteps options banned steps out = some r → r.stats.findings = r.findings.length := by
  intro steps
  induction steps with
  | nil =>
    intro out r h0 h
    simp only [runSteps, Option.some.injEq] at h
    subst h; exact h0
  | cons step rest ih =>
    intro out r h0 h
    simp only [runSteps] at h
    cases hs : step.apply options banned out with
    | none => rw [hs] at h; simp at h
    | some out1 =>
      rw [hs] at h
      simp only at h
      refine ih out1 r ?_ h
      cases step with
      | count =>
        simp only [RunStep.apply, Option.some.injEq] at hs
        subst hs; exact h0
      | scanFile p content =>
        simp only [RunStep.apply] at hs
        cases content with
        | none =>
          simp only [ScanFile, Option.some.injEq] at hs
          subst hs; exact h0
        | some raw =>
          rw [ScanFile_trace options banned p raw out out1 hs]
          simp [h0, Nat.add_assoc]
      | addFinding fp line col rule sev msg text =>
        simp only [RunStep.apply, Option.some.injEq] at hs
        subst hs
        exact (AddFinding_stats out fp line col rule sev msg text h0).1

/-- C16: from the empty result, after any sequence of the steps of `Run` (counting a
directory entry, `ScanFile` on a readable or unreadable file, `AddFinding`) taken in the order
in which `Run` takes them, that is with every `ScanFile` directly after the count of its
entry, `stats.findings` is the length of the finding list and
`stats.files_scanned <= stats.files_seen`; the first of the two holds for the steps in any
order.  The loop of `Run` performs such a sequence, every initial part of such a sequence is
one, and so the result of `Run` is consistent. -/
theorem stats_consistency_invariant (options : ScanOptions) (banned : List Str) :
    statsConsistent ScanResult.empty ∧
    (∀ steps r, inRunOrder steps = true →
      runSteps options banned steps ScanResult.empty = some r → statsConsistent r) ∧
    (∀ steps r, runSteps options banned steps ScanResult.empty = some r →
      r.stats.findings = r.findings.length) ∧
    (∀ entries, inRunOrder (stepsOf entries) = true ∧
      ∀ out, Run.loop options banned entries out
        = runSteps options banned (stepsOf entries) out) ∧
    (∀ a b, inRunOrder (a ++ b) = true → inRunOrder a = true) ∧
    (∀ root_ok entries r, Run options banned root_ok entries = some r → statsConsistent r) :=
  ⟨⟨rfl, Nat.le_refl _⟩,
    fun steps r ho h =>
      runSteps_consistent options banned steps _ r ho ⟨rfl, Nat.le_refl _⟩ h,
    fun steps r h => runSteps_findings_count options banned steps _ r rfl h,
    fun entries => ⟨stepsOf_inRunOrder entries, Run_loop_eq_runSteps options banned entries⟩,
    inRunOrder_prefix,
    fun root_ok entries r h => Run_consistent options banned root_ok entries r h⟩

/-- C16 at the steps: count, scan a file with two findings, count, count, scan an unreadable
file, add a finding. -/
theorem stats_consistency_invariant_witness :
    inRunOrder [RunStep.count, RunStep.scanFile "a.c".toList (some "gets(x); system(y);".toList),
      RunStep.count, RunStep.count, RunStep.scanFile "b.c".toList none,
      RunStep.addFinding "c.c".toList 1 1 "CG0001".toList Severity.High [] []] = true ∧
    (runSteps ⟨true, true⟩ defaultBanned
        [RunStep.count, RunStep.scanFile "a.c".toList (some "gets(x); system(y);".toList),
         RunStep.count, RunStep.count, RunStep.scanFile "b.c".toList none,
         RunStep.addFinding "c.c".toList 1 1 "CG0001".toList Severity.High [] []]
        ScanResult.empty).map (fun r => (r.stats.files_seen, r.stats.files_scanned,
          r.stats.findings, r.findings.length)) = some (3, 1, 3, 3) ∧
    ∃ r, runSteps ⟨true, true⟩ defaultBanned
        [RunStep.count, RunStep.scanFile "a.c".toList (some "gets(x); system(y);".toList),
         RunStep.count, RunStep.count, RunStep.scanFile "b.c".toList none,
         RunStep.addFinding "c.c".toList 1 1 "CG0001".toList Severity.High [] []]
        ScanResult.empty = some r ∧ statsConsistent r := by
  refine ⟨by decide, by decide, ?_⟩
  cases hx : runSteps ⟨true, true⟩ defaultBanned
      [RunStep.count, RunStep.scanFile "a.c".toList (some "gets(x); system(y);".toList),
       RunStep.count, RunStep.count, RunStep.scanFile "b.c".toList none,
       RunStep.addFinding "c.c".toList 1 1 "CG0001".toList Severity.High [] []]
      ScanResult.empty with
  | none => exact absurd hx (by decide)
  | some r =>
    exact ⟨r, rfl,
      (stats_consistency_invariant ⟨true, true⟩ defaultBanned).2.1 _ r (by decide) hx⟩

/-! ## The literal reader (C21) -/

theorem literalLen_nil : literalLen [] = 0 := by rw [literalLen]

theorem literalLen_single (c : Char) :
    literalLen [c] = if c = '"' ∨ c = '\n' then 0 else 1 := by rw [literalLen]

theorem literalLen_cons_cons (c d : Char) (rest : Str) :
    literalLen (c :: d :: rest) =
      if c = '\\' then 2 + literalLen rest
      else if c = '"' ∨ c = '\n' then 0
      else 1 + literalLen (d :: rest) := by rw [literalLen]

theorem literalLen_le_aux : ∀ n (l : Str), l.length ≤ n → literalLen l ≤ l.length := by
  intro n
  induction n with
  | zero =>
    intro l hl
    cases l with
    | nil => simp [literalLen_nil]
    | cons a t => simp at hl
  | succ n ih =>
    intro l hl
    match l, hl with
    | [], _ => simp [literalLen_nil]
    | [c], _ => rw [literalLen_single]; split_ifs <;> simp
    | c :: d :: rest, hl =>
      rw [literalLen_cons_cons]
      simp only [List.length_cons] at hl ⊢
      have h1 := ih rest (by omega)
      have h2 := ih (d :: rest) (by simp only [List.length_cons]; omega)
      simp only [List.length_cons] at h2
      split_ifs <;> omega

theorem literalLen_le (l : Str) : literalLen l ≤ l.length :=
  literalLen_le_aux l.length l (Nat.le_refl _)

theorem literalLen_drop_pair (raw : Str) (j : Nat) (hj1 : j + 1 < raw.length)
    (hb : charAt raw j = '\\') :
    literalLen (raw.drop j) = literalLen (raw.drop (j + 2)) + 2 := by
  rw [drop_eq_charAt_cons raw j (by omega), drop_eq_charAt_cons raw (j + 1) hj1,
    literalLen_cons_cons, if_pos hb, Nat.add_comm]

theorem literalLen_drop_stop (raw : Str) (j : Nat) (hj : j < raw.length)
    (hs : charAt raw j = '"' ∨ charAt raw j = '\n') :
    literalLen (raw.drop j) = 0 := by
  have hb : charAt raw j ≠ '\\' := by
    rcases hs with h | h <;> rw [h] <;> decide
  by_cases hj1 : j + 1 < raw.length
  · rw [drop_eq_charAt_cons raw j hj, drop_eq_charAt_cons raw (j + 1) hj1,
      literalLen_cons_cons, if_neg hb, if_pos hs]
  · rw [drop_eq_charAt_cons raw j hj, List.drop_eq_nil_of_le (by omega),
      literalLen_single, if_pos hs]

theorem literalLen_drop_byte (raw : Str) (j : Nat) (hj : j < raw.length)
    (hb : ¬ (j + 1 < raw.length ∧ charAt raw j = '\\'))
    (hs : ¬ (charAt raw j = '"' ∨ charAt raw j = '\n')) :
    literalLen (raw.drop j) = literalLen (raw.drop (j + 1)) + 1 := by
  by_cases hj1 : j + 1 < raw.length
  · have hb2 : charAt raw j ≠ '\\' := fun h => hb ⟨hj1, h⟩
    rw [drop_eq_charAt_cons raw j hj, drop_eq_charAt_cons raw (j + 1) hj1,
      literalLen_cons_cons, if_neg hb2, if_neg hs, ← drop_eq_charAt_cons raw (j + 1) hj1]
    omega
  · rw [drop_eq_charAt_cons raw j hj, List.drop_eq_nil_of_le (by omega),
      literalLen_single, if_neg hs, literalLen_nil]

/-- What the loop of `ReadStringLiteralAt` returns from cursor `j` when the fuel covers the
rest of the buffer: the content up to the literal end is appended verbatim. -/
theorem ReadStringLiteralAt_loop_spec (raw : Str) :
    ∀ (fuel j : Nat) (out : Str), raw.length - j ≤ fuel →
      ReadStringLiteralAt.loop raw fuel j out =
        (out ++ (raw.drop j).take (literalLen (raw.drop j)),
          if charAt raw (j + literalLen (raw.drop j)) = '"'
          then j + literalLen (raw.drop j) + 1 else j + literalLen (raw.drop j)) := by
  intro fuel
  induction fuel with
  | zero =>
    intro j out h
    have hj : raw.length ≤ j := by omega
    rw [List.drop_eq_nil_of_le hj, literalLen_nil]
    simp only [ReadStringLiteralAt.loop, List.take_nil, List.append_nil, Nat.add_zero]
    rw [charAt_of_le raw j hj, if_neg (by decide)]
  | succ fuel ih =>
    intro j out h
    by_cases hj : j < raw.length
    · rw [ReadStringLiteralAt.loop, if_pos hj]
      simp only []
      have e1 := drop_eq_charAt_cons raw j hj
      by_cases hb : charAt raw j = '\\'
      · rw [if_pos hb]
        by_cases hj1 : j + 1 < raw.length
        · rw [if_pos hj1, ih (j + 2) _ (by omega), literalLen_drop_pair raw j hj1 hb]
          have e2 := drop_eq_charAt_cons raw (j + 1) hj1
          rw [e1, e2, hb]
          have e3 : j + 2 + literalLen (raw.drop (j + 2)) =
              j + (literalLen (raw.drop (j + 2)) + 2) := by omega
          rw [e3]
          simp only [List.take_succ_cons, List.append_assoc, List.cons_append, List.nil_append]
        · have hs : ¬ (charAt raw j = '"' ∨ charAt raw j = '\n') := by
            rw [hb]; decide
          rw [if_neg hj1, ih (j + 1) _ (by omega),
            literalLen_drop_byte raw j hj (fun h => hj1 h.1) hs]
          rw [e1, hb]
          have e3 : j + 1 + literalLen (raw.drop (j + 1)) =
              j + (literalLen (raw.drop (j + 1)) + 1) := by omega
          rw [e3]
          simp only [List.take_succ_cons, List.append_assoc, List.cons_append, List.nil_append]
      · rw [if_neg hb]
        by_cases hq : charAt raw j = '"'
        · rw [if_pos hq, literalLen_drop_stop raw j hj (Or.inl hq)]
          simp only [List.take_zero, List.append_nil, Nat.add_zero]
          rw [if_pos hq]
        · rw [if_neg hq]
          by_cases hn : charAt raw j = '\n'
          · rw [if_pos hn, literalLen_drop_stop raw j hj (Or.inr hn)]
            simp only [List.take_zero, List.append_nil, Nat.add_zero]
            rw [if_neg hq]
          · have hs : ¬ (charAt raw j = '"' ∨ charAt raw j = '\n') := by tauto
            rw [if_neg hn, ih (j + 1) _ (by omega),
              literalLen_drop_byte raw j hj (fun h => hb h.2) hs]
            have e3 : j + 1 + literalLen (raw.drop (j + 1)) =
                j + (literalLen (raw.drop (j + 1)) + 1) := by omega
            rw [e3]
            conv_rhs => rw [e1]
            simp only [List.take_succ_cons, List.append_assoc, List.cons_append, List.nil_append]
    · have hj2 : raw.length ≤ j := by omega
      rw [ReadStringLiteralAt.loop, if_neg hj]
      rw [List.drop_eq_nil_of_le hj2, literalLen_nil]
      simp only [List.take_nil, List.append_nil, Nat.add_zero]
      rw [charAt_of_le raw j hj2, if_neg (by decide)]

theorem literalLen_cons_byte (c : Char) (l : Str) (hb : c ≠ '\\') (hq : c ≠ '"')
    (hn : c ≠ '\n') : literalLen (c :: l) = literalLen l + 1 := by
  have hs : ¬ (c = '"' ∨ c = '\n') := by tauto
  cases l with
  | nil => rw [literalLen_single, if_neg hs, literalLen_nil]
  | cons d rest => rw [literalLen_cons_cons, if_neg hb, if_neg hs, Nat.add_comm]

theorem literalLen_cons_stop (c : Char) (l : Str) (hs : c = '"' ∨ c = '\n') :
    literalLen (c :: l) = 0 := by
  have hb : c ≠ '\\' := by rcases hs with h | h <;> rw [h] <;> decide
  cases l with
  | nil => rw [literalLen_single, if_pos hs]
  | cons d rest => rw [literalLen_cons_cons, if_neg hb, if_pos hs]

theorem stopsAt_cons_succ (c : Char) (l : Str) (k : Nat) :
    stopsAt (c :: l) (k + 1) ↔ stopsAt l k := by
  unfold stopsAt charAt
  simp only [List.length_cons, Nat.add_le_add_iff_right, List.getD_cons_succ]

theorem stopsAt_zero (l : Str) : stopsAt l 0 → literalLen l = 0 := by
  intro h
  cases l with
  | nil => exact literalLen_nil
  | cons c rest =>
    unfold stopsAt charAt at h
    simp only [List.length_cons, Nat.le_zero_eq, Nat.add_one_ne_zero, List.getD_cons_zero,
      false_or] at h
    exact literalLen_cons_stop c rest h

theorem Stepped_literalLen_aux : ∀ n (l : Str), l.length ≤ n → Stepped l (literalLen l) := by
  intro n
  induction n with
  | zero =>
    intro l hl
    cases l with
    | nil => rw [literalLen_nil]; exact Stepped.here _
    | cons a t => simp at hl
  | succ n ih =>
    intro l hl
    match l, hl with
    | [], _ => rw [literalLen_nil]; exact Stepped.here _
    | [c], _ =>
      by_cases hs : c = '"' ∨ c = '\n'
      · rw [literalLen_cons_stop c [] hs]; exact Stepped.here _
      · by_cases hb : c = '\\'
        · subst hb; exact Stepped.lone
        · rw [literalLen_cons_byte c [] hb (by tauto) (by tauto), literalLen_nil]
          exact Stepped.byte c [] 0 hb (by tauto) (by tauto) (Stepped.here _)
    | c :: d :: rest, hl =>
      simp only [List.length_cons] at hl
      by_cases hb : c = '\\'
      · subst hb
        rw [literalLen_cons_cons, if_pos rfl, Nat.add_comm]
        exact Stepped.pair d rest _ (ih rest (by omega))
      · by_cases hs : c = '"' ∨ c = '\n'
        · rw [literalLen_cons_stop c _ hs]; exact Stepped.here _
        · rw [literalLen_cons_byte c _ hb (by tauto) (by tauto)]
          exact Stepped.byte c _ _ hb (by tauto) (by tauto)
            (ih (d :: rest) (by simp only [List.length_cons]; omega))

theorem Stepped_literalLen (l : Str) : Stepped l (literalLen l) :=
  Stepped_literalLen_aux l.length l (Nat.le_refl _)

theorem stopsAt_literalLen_aux : ∀ n (l : Str), l.length ≤ n → stopsAt l (literalLen l) := by
  intro n
  induction n with
  | zero =>
    intro l hl
    cases l with
    | nil => rw [literalLen_nil]; exact Or.inl (Nat.le_refl _)
    | cons a t => simp at hl
  | succ n ih =>
    intro l hl
    match l, hl with
    | [], _ => rw [literalLen_nil]; exact Or.inl (Nat.le_refl _)
    | [c], _ =>
      by_cases hs : c = '"' ∨ c = '\n'
      · rw [literalLen_cons_stop c [] hs]; exact Or.inr hs
      · rw [literalLen_single, if_neg hs]; exact Or.inl (Nat.le_refl _)
    | c :: d :: rest, hl =>
      simp only [List.length_cons] at hl
      by_cases hb : c = '\\'
      · subst hb
        rw [literalLen_cons_cons, if_pos rfl, Nat.add_comm]
        exact (stopsAt_cons_succ _ _ _).mpr ((stopsAt_cons_succ _ _ _).mpr (ih rest (by omega)))
      · by_cases hs : c = '"' ∨ c = '\n'
        · rw [literalLen_cons_stop c _ hs]; exact Or.inr hs
        · rw [literalLen_cons_byte c _ hb (by tauto) (by tauto)]
          exact (stopsAt_cons_succ _ _ _).mpr
            (ih (d :: rest) (by simp only [List.length_cons]; omega))

theorem stopsAt_literalLen (l : Str) : stopsAt l (literalLen l) :=
  stopsAt_literalLen_aux l.length l (Nat.le_refl _)

/-- Every offset reached by stepping is at most `literalLen`, and equals it when the text
stops there. -/
theorem Stepped_first (l : Str) (k : Nat) (h : Stepped l k) :
    k ≤ literalLen l ∧ (stopsAt l k → k = literalLen l) := by
  induction h with
  | here l => exact ⟨Nat.zero_le _, fun hs => (stopsAt_zero l hs).symm⟩
  | pair c l k _ ih =>
    rw [literalLen_cons_cons, if_pos rfl]
    refine ⟨by omega, fun hs => ?_⟩
    have := ih.2 ((stopsAt_cons_succ _ _ _).mp ((stopsAt_cons_succ _ _ _).mp hs))
    omega
  | lone =>
    rw [literalLen_single, if_neg (by decide)]
    exact ⟨Nat.le_refl _, fun _ => rfl⟩
  | byte c l k hb hq hn _ ih =>
    rw [literalLen_cons_byte c l hb hq hn]
    refine ⟨by omega, fun hs => ?_⟩
    have := ih.2 ((stopsAt_cons_succ _ _ _).mp hs)
    omega

/-- C21: when `raw[i]` is a double quote, `ReadStringLiteralAt` returns the slice
`raw[i+1 .. e)` and leaves the cursor at `e + 1` when `raw[e]` is a double quote and at `e`
otherwise, where `e = literalEnd raw i` lies in `(i, size]`, is reached from `i + 1` by
stepping over escape pairs, holds a double quote or a newline or is the end of the buffer,
and is the only such offset: every offset reached by stepping is at most `e`, and one that
holds a double quote or a newline or is the end equals `e`.  Reading `"a\"b"` at 0 returns
the four bytes a, backslash, quote, b with the cursor at 6. -/
theorem ReadStringLiteralAt_reads_verbatim (raw : Str) (i : Nat) (hi : i < raw.length)
    (hq : charAt raw i = '"') :
    (ReadStringLiteralAt raw i).1 = (raw.drop (i + 1)).take (literalEnd raw i - (i + 1)) ∧
    (ReadStringLiteralAt raw i).2 =
      (if charAt raw (literalEnd raw i) = '"' then literalEnd raw i + 1
       else literalEnd raw i) ∧
    i < literalEnd raw i ∧ literalEnd raw i ≤ raw.length ∧
    (literalEnd raw i = raw.length ∨ charAt raw (literalEnd raw i) = '"' ∨
      charAt raw (literalEnd raw i) = '\n') ∧
    Stepped (raw.drop (i + 1)) (literalEnd raw i - (i + 1)) ∧
    (∀ k, Stepped (raw.drop (i + 1)) k →
      i + 1 + k ≤ literalEnd raw i ∧
      ((raw.length ≤ i + 1 + k ∨ charAt raw (i + 1 + k) = '"' ∨
          charAt raw (i + 1 + k) = '\n') → i + 1 + k = literalEnd raw i)) ∧
    ReadStringLiteralAt "\"a\\\"b\"".toList 0 = (['a', '\\', '"', 'b'], 6) := by
  have hR : ReadStringLiteralAt raw i =
      ((raw.drop (i + 1)).take (literalLen (raw.drop (i + 1))),
        if charAt raw (i + 1 + literalLen (raw.drop (i + 1))) = '"'
        then i + 1 + literalLen (raw.drop (i + 1)) + 1
        else i + 1 + literalLen (raw.drop (i + 1))) := by
    unfold ReadStringLiteralAt
    rw [if_neg (by rw [not_or]; exact ⟨by omega, fun h => h hq⟩),
      ReadStringLiteralAt_loop_spec raw _ (i + 1) [] (Nat.le_refl _)]
    rfl
  have hlen := literalLen_le (raw.drop (i + 1))
  rw [List.length_drop] at hlen
  have hsub : literalEnd raw i - (i + 1) = literalLen (raw.drop (i + 1)) := by
    unfold literalEnd; omega
  have hstop := stopsAt_literalLen (raw.drop (i + 1))
  unfold stopsAt at hstop
  rw [List.length_drop, charAt_drop] at hstop
  refine ⟨by rw [hR, hsub], by rw [hR]; rfl, by unfold literalEnd; omega,
    by unfold literalEnd; omega, ?_, by rw [hsub]; exact Stepped_literalLen _, ?_, by decide⟩
  · unfold literalEnd
    rcases hstop with h | h
    · left; omega
    · right; exact h
  · intro k hk
    have h := Stepped_first _ k hk
    refine ⟨by unfold literalEnd; omega, fun hs => ?_⟩
    have : k = literalLen (raw.drop (i + 1)) := by
      apply h.2
      unfold stopsAt
      rw [List.length_drop, charAt_drop]
      rcases hs with h1 | h1
      · left; omega
      · right; exact h1
    unfold literalEnd; omega

/-- C21 at a literal with an escaped quote and an escaped newline that ends at a raw newline:
the end is offset 8 and the cursor stays there. -/
theorem ReadStringLiteralAt_reads_verbatim_witness :
    (0 < "\"a\\\"b\\\nc\nd\"".toList.length ∧ charAt "\"a\\\"b\\\nc\nd\"".toList 0 = '"') ∧
    literalEnd "\"a\\\"b\\\nc\nd\"".toList 0 = 8 ∧
    (ReadStringLiteralAt "\"a\\\"b\\\nc\nd\"".toList 0).1 =
      ("\"a\\\"b\\\nc\nd\"".toList.drop (0 + 1)).take
        (literalEnd "\"a\\\"b\\\nc\nd\"".toList 0 - (0 + 1)) ∧
    (ReadStringLiteralAt "\"a\\\"b\\\nc\nd\"".toList 0).2 =
      (if charAt "\"a\\\"b\\\nc\nd\"".toList (literalEnd "\"a\\\"b\\\nc\nd\"".toList 0) = '"'
       then literalEnd "\"a\\\"b\\\nc\nd\"".toList 0 + 1
       else literalEnd "\"a\\\"b\\\nc\nd\"".toList 0) :=
  ⟨⟨by decide, by decide⟩, by decide,
    (ReadStringLiteralAt_reads_verbatim "\"a\\\"b\\\nc\nd\"".toList 0 (by decide) (by decide)).1,
    (ReadStringLiteralAt_reads_verbatim "\"a\\\"b\\\nc\nd\"".toList 0
      (by decide) (by decide)).2.1⟩

/-! ## Completeness of the cursor search (C22) -/

theorem readsAt_charAt_mem (s name : Str) (p k : Nat) (h : readsAt s name p)
    (hk : k < name.length) : charAt s (p + k) ∈ name := by
  unfold readsAt at h
  have h1 : charAt s (p + k) = charAt name k := by
    rw [← charAt_drop]
    conv_rhs => rw [← h]
    unfold charAt
    simp only [List.getD_eq_getElem?_getD, List.getElem?_take, if_pos hk]
  rw [h1, charAt_eq_get name k hk]
  exact List.get_mem _ _ _

/-- An occurrence that starts inside another occurrence of a name of identifier characters
has an identifier character before it, so it is not a call site. -/
theorem LooksLikeCallAt_overlap (s name : Str) (hid : ∀ c ∈ name, c ∈ identChars)
    (found q n : Nat) (h : readsAt s name found) (h1 : found < q)
    (h2 : q < found + name.length) : LooksLikeCallAt s q n = false := by
  have hm := readsAt_charAt_mem s name found (q - 1 - found) h (by omega)
  have e : found + (q - 1 - found) = q - 1 := by omega
  rw [e] at hm
  have hi : IsIdentChar (charAt s (q - 1)) = true := (IsIdentChar_iff _).mpr (hid _ hm)
  have hb : IsWordBoundaryBefore s q = false := by
    unfold IsWordBoundaryBefore
    rw [if_neg (show ¬ q = 0 by omega), hi]
    rfl
  unfold LooksLikeCallAt
  rw [hb]
  rfl

/-- The converse of `callSites_mem`: with enough fuel the loop visits every accepted
occurrence at or after the cursor. -/
theorem callSites_complete (sanitized name : Str) (hne : name ≠ [])
    (hid : ∀ c ∈ name, c ∈ identChars) : ∀ (fuel pos p : Nat),
    sanitized.length - pos < fuel → pos ≤ p → readsAt sanitized name p →
    LooksLikeCallAt sanitized p name.length = true →
    p ∈ callSites sanitized name fuel pos := by
  intro fuel
  induction fuel with
  | zero => intro pos p h; exact absurd h (by omega)
  | succ f ih =>
    intro pos p hf hpos hr hc
    have hp := readsAt_lt sanitized name p hne hr
    have hlen : 0 < name.length := List.length_pos.mpr hne
    simp only [callSites]
    rw [if_pos (by omega)]
    cases hfind : find sanitized name pos with
    | none =>
      exact absurd hr ((find_eq_none_iff _ _ _).mp hfind p hpos (by omega))
    | some found =>
      simp only
      obtain ⟨g1, g2, g3, g4⟩ := (find_eq_some_iff _ _ _ _).mp hfind
      have hle : found ≤ p := by
        by_contra hlt
        exact g4 p hpos (by omega) hr
      rw [List.mem_append]
      by_cases heq : found = p
      · left; rw [heq, if_pos hc]; exact List.mem_singleton.mpr rfl
      · right
        have hge : found + name.length ≤ p := by
          by_contra hlt
          have := LooksLikeCallAt_overlap sanitized name hid found p name.length g3
            (by omega) (by omega)
          rw [this] at hc
          exact absurd hc (by decide)
        have hfl := readsAt_lt sanitized name found hne g3
        exact ih (found + name.length) p (by omega) hge hr hc

theorem callSites_eq_allCallSites (sanitized name : Str) (hne : name ≠ [])
    (hid : ∀ c ∈ name, c ∈ identChars) :
    callSites sanitized name (sanitized.length + 1) 0 = allCallSites sanitized name := by
  have s1 := callSites_sorted sanitized name hne (sanitized.length + 1) 0
  have s2 : List.Pairwise (· < ·) (allCallSites sanitized name) :=
    List.Pairwise.sublist (List.filter_sublist _) (List.pairwise_lt_range _)
  refine List.eq_of_perm_of_sorted ?_ s1 s2
  rw [List.perm_ext_iff_of_nodup (s1.imp (fun h => Nat.ne_of_lt h))
    (s2.imp (fun h => Nat.ne_of_lt h))]
  intro p
  constructor
  · intro h
    obtain ⟨_, h2, h3⟩ := callSites_mem sanitized name _ _ p h
    have := readsAt_lt sanitized name p hne h2
    unfold allCallSites
    rw [List.mem_filter, List.mem_range]
    exact ⟨by omega, by rw [h3, decide_eq_true h2]; rfl⟩
  · intro h
    unfold allCallSites at h
    rw [List.mem_filter, Bool.and_eq_true] at h
    exact callSites_complete sanitized name hne hid _ 0 p (by omega) (Nat.zero_le _)
      (of_decide_eq_true h.2.1) h.2.2

/-- C22: for a non-empty `name` of identifier characters, the offsets at which the search loop
of `FindBannedFunctionCalls` emits a finding are exactly `allCallSites`: all offsets, in
increasing order, at which the buffer reads `name` and `LooksLikeCallAt` holds; the loop and
the function on the one-name list return the findings of these offsets in this order; and an
occurrence that starts inside an earlier occurrence is never accepted by `LooksLikeCallAt`. -/
theorem banned_search_loses_no_call_site (file_path raw sanitized : Str) (idx : LineIndex)
    (name : Str) (hne : name ≠ []) (hid : ∀ c ∈ name, c ∈ identChars) :
    callSites sanitized name (sanitized.length + 1) 0 = allCallSites sanitized name ∧
    (∀ out : ScanResult,
      FindBannedFunctionCalls.loop file_path raw sanitized idx name (sanitized.length + 1) 0 out =
        some { findings := out.findings ++
                 (allCallSites sanitized name).map (bannedFindingAt file_path raw idx name),
               stats := { out.stats with
                 findings := out.stats.findings + (allCallSites sanitized name).length } }) ∧
    (∀ out : ScanResult,
      FindBannedFunctionCalls [name] file_path raw sanitized out =
        some { findings := out.findings ++
                 (allCallSites sanitized name).map
                   (bannedFindingAt file_path raw (LineIndex.Build raw) name),
               stats := { out.stats with
                 findings := out.stats.findings + (allCallSites sanitized name).length } }) ∧
    List.Pairwise (· < ·) (allCallSites sanitized name) ∧
    (∀ p, p ∈ allCallSites sanitized name ↔
      (readsAt sanitized name p ∧ LooksLikeCallAt sanitized p name.length = true)) ∧
    (∀ found q, readsAt sanitized name found → found < q → q < found + name.length →
      LooksLikeCallAt sanitized q name.length = false) := by
  have heq := callSites_eq_allCallSites sanitized name hne hid
  have hloop : ∀ (idx : LineIndex) (out : ScanResult),
      FindBannedFunctionCalls.loop file_path raw sanitized idx name (sanitized.length + 1) 0 out =
        some { findings := out.findings ++
                 (allCallSites sanitized name).map (bannedFindingAt file_path raw idx name),
               stats := { out.stats with
                 findings := out.stats.findings + (allCallSites sanitized name).length } } := by
    intro idx out
    have hs := FindBannedFunctionCalls_loop_isSome file_path raw sanitized idx name hne
      (sanitized.length + 1) 0 out (by omega)
    cases hx : FindBannedFunctionCalls.loop file_path raw sanitized idx name
        (sanitized.length + 1) 0 out with
    | none => rw [hx] at hs; exact absurd hs (by decide)
    | some out1 =>
      rw [FindBannedFunctionCalls_loop_trace file_path raw sanitized idx name _ _ out out1 hx,
        heq]
  refine ⟨heq, hloop idx, ?_, ?_, ?_, ?_⟩
  · intro out
    unfold FindBannedFunctionCalls
    rw [FindBannedFunctionCalls.names, hloop]
    rfl
  · exact List.Pairwise.sublist (List.filter_sublist _) (List.pairwise_lt_range _)
  · intro p
    unfold allCallSites
    rw [List.mem_filter, List.mem_range, Bool.and_eq_true, decide_eq_true_iff]
    constructor
    · exact fun h => h.2
    · intro h
      have := readsAt_lt sanitized name p hne h.1
      exact ⟨by omega, h⟩
  · intro found q h h1 h2
    exact LooksLikeCallAt_overlap sanitized name hid found q name.length h h1 h2

/-- C22 at the name `aa` in `aaa(x); aa(y); aa (z)`: the occurrences at 0 and 1 overlap and
neither is a call; the calls are at 8 and 15. -/
theorem banned_search_loses_no_call_site_witness :
    ("aa".toList ≠ [] ∧ ∀ c ∈ "aa".toList, c ∈ identChars) ∧
    readsAt "aaa(x); aa(y); aa (z)".toList "aa".toList 0 ∧
    readsAt "aaa(x); aa(y); aa (z)".toList "aa".toList 1 ∧
    allCallSites "aaa(x); aa(y); aa (z)".toList "aa".toList = [8, 15] ∧
    callSites "aaa(x); aa(y); aa (z)".toList "aa".toList
        ("aaa(x); aa(y); aa (z)".toList.length + 1) 0 =
      allCallSites "aaa(x); aa(y); aa (z)".toList "aa".toList :=
  ⟨⟨by decide, by decide⟩, by decide, by decide, by decide,
    (banned_search_loses_no_call_site [] [] "aaa(x); aa(y); aa (z)".toList ⟨[]⟩ "aa".toList
      (by decide) (by decide)).1⟩

end codeguard
